import Mathlib

/-!
Verification of the internal-coordinate transform of boltzgen/internal.py
(DreamFold/boltzmann-generators).

Modelling conventions for the shallow embedding:
* a flattened coordinate row (one batch element) is a function `Nat → ℝ`;
  all claims under test are per-sample, and every tensor operation involved
  acts elementwise along the batch dimension, so the batch dimension is
  dropped;
* a 3-vector is `ℝ × ℝ × ℝ` with the pointwise `Prod` arithmetic
  (matching torch's elementwise `+`, `-`, scalar `*`);
* torch float arithmetic is modelled over `ℝ` (the spec's claims are stated
  over exact real arithmetic);
* the Python float `%` with a positive modulus returns a value in `[0, m)`
  (sign of the divisor), which is Mathlib's `toIcoMod`;
* `torch.atan2 y x` is `Complex.arg ⟨x, y⟩`, whose range is `(-π, π]`;
* `v / torch.norm v` is modelled as `(norm3 v)⁻¹ • v`; for `v ≠ 0` this is
  the float behaviour, and all theorems carry the non-degeneracy
  hypotheses under which the norms are nonzero.
-/

noncomputable section

open Real

namespace BG

/-- A 3-vector, one atom's Cartesian coordinates. -/
abbrev Vec3 : Type := ℝ × ℝ × ℝ

/-- Dot product of two 3-vectors (`torch.sum(a * b, dim=2)`). -/
def dot (u v : Vec3) : ℝ := u.1 * v.1 + u.2.1 * v.2.1 + u.2.2 * v.2.2

/-- Cross product (`torch.cross(a, b, dim=2)`). -/
def cross (u v : Vec3) : Vec3 :=
  (u.2.1 * v.2.2 - u.2.2 * v.2.1,
   u.2.2 * v.1 - u.1 * v.2.2,
   u.1 * v.2.1 - u.2.1 * v.1)

/-- Euclidean norm (`torch.norm(v, dim=2)`). -/
def norm3 (v : Vec3) : ℝ := Real.sqrt (dot v v)

/-- Normalisation `v / torch.norm(v)`. -/
def unitv (v : Vec3) : Vec3 := (norm3 v)⁻¹ • v

/-- Two-argument arctangent `torch.atan2 y x`, modelled as the argument of
the complex number `x + y i`; its range is `(-π, π]`. -/
def atan2 (y x : ℝ) : ℝ := Complex.arg ⟨x, y⟩

/-- The dihedral branch-cut fix-up of `_fix_dih` (internal.py line 299):
`(dih + π) % (2π) - π`, with the Python float `%`. -/
def fix_dih (d : ℝ) : ℝ := toIcoMod Real.two_pi_pos 0 (d + π) - π

/-- The dihedral fix-up applied in `inverse` (internal.py lines 248-249):
first `where(d < π, d + 2π, d)`, then `where(d > π, d - 2π, d)`. -/
def inv_dih_wrap (d : ℝ) : ℝ :=
  let d1 : ℝ := if d < π then d + 2 * π else d
  if d1 > π then d1 - 2 * π else d1

/-! ### Basic facts about the two wraps -/

theorem fix_dih_mem_Ico (d : ℝ) : fix_dih d ∈ Set.Ico (-π) π := by
  have h := toIcoMod_mem_Ico' Real.two_pi_pos (d + π)
  obtain ⟨h1, h2⟩ := h
  constructor
  · simp only [fix_dih]; linarith
  · simp only [fix_dih]; linarith

theorem fix_dih_sub_self (d : ℝ) : ∃ k : ℤ, fix_dih d - d = k * (2 * π) := by
  refine ⟨-toIcoDiv Real.two_pi_pos 0 (d + π), ?_⟩
  have h := toIcoMod_sub_self Real.two_pi_pos 0 (d + π)
  simp only [fix_dih]
  rw [show toIcoMod Real.two_pi_pos 0 (d + π) - π - d
      = toIcoMod Real.two_pi_pos 0 (d + π) - (d + π) by ring, h]
  push_cast [zsmul_eq_mul]
  ring

/-- Closed form of the inverse-direction wrap: it shifts by at most one
period. -/
theorem inv_dih_wrap_eq (d : ℝ) :
    inv_dih_wrap d =
      if d ≤ -π then d + 2 * π else if d ≤ π then d else d - 2 * π := by
  have hπ := Real.pi_pos
  simp only [inv_dih_wrap]
  split_ifs <;> linarith

theorem inv_dih_wrap_sub_self (d : ℝ) :
    ∃ k : ℤ, inv_dih_wrap d - d = k * (2 * π) := by
  rw [inv_dih_wrap_eq]
  rcases le_or_lt d (-π) with h | h
  · refine ⟨1, ?_⟩; rw [if_pos h]; push_cast; ring
  · rcases le_or_lt d π with h2 | h2
    · refine ⟨0, ?_⟩; rw [if_neg (by push_neg; exact h), if_pos h2]
      push_cast; ring
    · refine ⟨-1, ?_⟩
      rw [if_neg (by push_neg; exact h), if_neg (by push_neg; exact h2)]
      push_cast; ring

theorem inv_dih_wrap_mem_Ioc {d : ℝ} (h : d ∈ Set.Ioc (-(3 * π)) (3 * π)) :
    inv_dih_wrap d ∈ Set.Ioc (-π) π := by
  obtain ⟨h1, h2⟩ := h
  rw [inv_dih_wrap_eq]
  rcases le_or_lt d (-π) with h3 | h3
  · rw [if_pos h3]; constructor <;> [linarith; linarith]
  · rcases le_or_lt d π with h4 | h4
    · rw [if_neg (by push_neg; exact h3), if_pos h4]
      exact ⟨h3, h4⟩
    · rw [if_neg (by push_neg; exact h3), if_neg (by push_neg; exact h4)]
      constructor <;> [linarith; linarith]

/-- C5 counterexample: the forward wrap `_fix_dih` sends the dihedral `π`
to `-π`, which lies outside the claimed interval `(-π, π]` (the wrap's
actual range is `[-π, π)`). -/
theorem fix_dih_pi_not_mem_Ioc :
    fix_dih π = -π ∧ fix_dih π ∉ Set.Ioc (-π) π := by
  have hfix : fix_dih π = -π := by
    have h0 : toIcoMod Real.two_pi_pos 0 (π + π) = 0 := by
      have : toIcoMod Real.two_pi_pos 0 (0 + 2 * π) = toIcoMod Real.two_pi_pos 0 0 := by
        exact toIcoMod_add_right Real.two_pi_pos 0 0
      rw [show π + π = 0 + 2 * π by ring, this,
        (toIcoMod_eq_self Real.two_pi_pos).2
          ⟨le_refl 0, by simpa using Real.two_pi_pos⟩]
    simp only [fix_dih, h0]; ring
  refine ⟨hfix, ?_⟩
  rw [hfix]
  simp

/-- C5 amended: for every real `d` the forward wrap `_fix_dih` returns a
value in `[-π, π)` (half-open on the other side than claimed) that differs
from `d` by an integer multiple of `2π`; the inverse-direction wrap always
shifts by an integer multiple of `2π`, and returns a value in `(-π, π]`
whenever its input lies in `(-3π, 3π]` (a single-period fix-up, not a true
wrap for inputs of larger magnitude). -/
theorem wrap_functions_spec :
    (∀ d : ℝ, fix_dih d ∈ Set.Ico (-π) π ∧
      ∃ k : ℤ, fix_dih d - d = k * (2 * π)) ∧
    (∀ d : ℝ, (∃ k : ℤ, inv_dih_wrap d - d = k * (2 * π)) ∧
      (d ∈ Set.Ioc (-(3 * π)) (3 * π) → inv_dih_wrap d ∈ Set.Ioc (-π) π)) :=
  ⟨fun d => ⟨fix_dih_mem_Ico d, fix_dih_sub_self d⟩,
   fun d => ⟨inv_dih_wrap_sub_self d, fun h => inv_dih_wrap_mem_Ioc h⟩⟩

/-- Witness for the amended C5 theorem at the concrete input `d = 2π`. -/
theorem wrap_functions_spec_witness :
    inv_dih_wrap (2 * π) ∈ Set.Ioc (-π) π := by
  have hπ := Real.pi_pos
  exact (wrap_functions_spec.2 (2 * π)).2 ⟨by linarith, by linarith⟩

/-! ### Vector algebra for the 3D geometry -/

theorem vec3_eq {a b : Vec3} (h1 : a.1 = b.1) (h2 : a.2.1 = b.2.1)
    (h3 : a.2.2 = b.2.2) : a = b := by
  obtain ⟨a1, a2, a3⟩ := a
  obtain ⟨b1, b2, b3⟩ := b
  dsimp only at h1 h2 h3
  rw [h1, h2, h3]

theorem dot_self_nonneg (v : Vec3) : 0 ≤ dot v v := by
  obtain ⟨x, y, z⟩ := v
  simp only [dot]
  nlinarith [mul_self_nonneg x, mul_self_nonneg y, mul_self_nonneg z]

theorem dot_comm (u v : Vec3) : dot u v = dot v u := by
  obtain ⟨a, b, c⟩ := u; obtain ⟨x, y, z⟩ := v
  simp only [dot]; ring

theorem dot_smul_left (c : ℝ) (u v : Vec3) : dot (c • u) v = c * dot u v := by
  obtain ⟨a, b, d⟩ := u; obtain ⟨x, y, z⟩ := v
  simp only [dot, Prod.smul_mk, smul_eq_mul]; ring

theorem dot_smul_right (c : ℝ) (u v : Vec3) : dot u (c • v) = c * dot u v := by
  obtain ⟨a, b, d⟩ := u; obtain ⟨x, y, z⟩ := v
  simp only [dot, Prod.smul_mk, smul_eq_mul]; ring

theorem dot_add_left (u v w : Vec3) : dot (u + v) w = dot u w + dot v w := by
  obtain ⟨a, b, c⟩ := u; obtain ⟨d, e, f⟩ := v; obtain ⟨x, y, z⟩ := w
  simp only [dot, Prod.mk_add_mk]; ring

theorem dot_add_right (u v w : Vec3) : dot u (v + w) = dot u v + dot u w := by
  obtain ⟨a, b, c⟩ := u; obtain ⟨d, e, f⟩ := v; obtain ⟨x, y, z⟩ := w
  simp only [dot, Prod.mk_add_mk]; ring

theorem dot_sub_left (u v w : Vec3) : dot (u - v) w = dot u w - dot v w := by
  obtain ⟨a, b, c⟩ := u; obtain ⟨d, e, f⟩ := v; obtain ⟨x, y, z⟩ := w
  simp only [dot, Prod.mk_sub_mk]; ring

theorem dot_sub_right (u v w : Vec3) : dot u (v - w) = dot u v - dot u w := by
  obtain ⟨a, b, c⟩ := u; obtain ⟨d, e, f⟩ := v; obtain ⟨x, y, z⟩ := w
  simp only [dot, Prod.mk_sub_mk]; ring

theorem dot_zero_left (v : Vec3) : dot 0 v = 0 := by
  obtain ⟨x, y, z⟩ := v
  simp [dot]

theorem dot_neg_left (u v : Vec3) : dot (-u) v = -dot u v := by
  obtain ⟨a, b, c⟩ := u; obtain ⟨x, y, z⟩ := v
  simp only [dot, Prod.neg_mk]; ring

theorem dot_neg_right (u v : Vec3) : dot u (-v) = -dot u v := by
  obtain ⟨a, b, c⟩ := u; obtain ⟨x, y, z⟩ := v
  simp only [dot, Prod.neg_mk]; ring

theorem cross_smul_left (c : ℝ) (u v : Vec3) :
    cross (c • u) v = c • cross u v := by
  obtain ⟨a, b, d⟩ := u; obtain ⟨x, y, z⟩ := v
  refine vec3_eq ?_ ?_ ?_ <;>
    simp only [cross, Prod.smul_mk, smul_eq_mul] <;> ring

theorem cross_smul_right (c : ℝ) (u v : Vec3) :
    cross u (c • v) = c • cross u v := by
  obtain ⟨a, b, d⟩ := u; obtain ⟨x, y, z⟩ := v
  refine vec3_eq ?_ ?_ ?_ <;>
    simp only [cross, Prod.smul_mk, smul_eq_mul] <;> ring

theorem cross_sub_right (u v w : Vec3) :
    cross u (v - w) = cross u v - cross u w := by
  obtain ⟨a, b, c⟩ := u; obtain ⟨d, e, f⟩ := v; obtain ⟨x, y, z⟩ := w
  refine vec3_eq ?_ ?_ ?_ <;>
    simp only [cross, Prod.mk_sub_mk] <;> ring

theorem cross_self (u : Vec3) : cross u u = 0 := by
  obtain ⟨a, b, c⟩ := u
  refine vec3_eq ?_ ?_ ?_ <;> simp only [cross] <;> simp <;> ring

theorem cross_neg_right (u v : Vec3) : cross u (-v) = -cross u v := by
  obtain ⟨a, b, c⟩ := u; obtain ⟨x, y, z⟩ := v
  refine vec3_eq ?_ ?_ ?_ <;>
    simp only [cross, Prod.neg_mk] <;> ring

theorem dot_cross_left (u v : Vec3) : dot (cross u v) u = 0 := by
  obtain ⟨a, b, c⟩ := u; obtain ⟨x, y, z⟩ := v
  simp only [cross, dot]; ring

theorem dot_cross_right (u v : Vec3) : dot (cross u v) v = 0 := by
  obtain ⟨a, b, c⟩ := u; obtain ⟨x, y, z⟩ := v
  simp only [cross, dot]; ring

/-- Grassmann (bac-cab) identity `a × (b × c) = (a·c) b - (a·b) c`. -/
theorem bac_cab (a b c : Vec3) :
    cross a (cross b c) = dot a c • b - dot a b • c := by
  obtain ⟨a1, a2, a3⟩ := a; obtain ⟨b1, b2, b3⟩ := b; obtain ⟨c1, c2, c3⟩ := c
  refine vec3_eq ?_ ?_ ?_ <;>
    simp only [cross, dot, Prod.smul_mk, Prod.mk_sub_mk, smul_eq_mul] <;> ring

/-- Lagrange identity `‖u × v‖² = ‖u‖²‖v‖² - (u·v)²`. -/
theorem lagrange (u v : Vec3) :
    dot (cross u v) (cross u v) = dot u u * dot v v - dot u v ^ 2 := by
  obtain ⟨a, b, c⟩ := u; obtain ⟨x, y, z⟩ := v
  simp only [cross, dot]; ring

/-! ### Norms and normalisation -/

theorem norm3_nonneg (v : Vec3) : 0 ≤ norm3 v := Real.sqrt_nonneg _

theorem sq_norm3 (v : Vec3) : norm3 v ^ 2 = dot v v :=
  Real.sq_sqrt (dot_self_nonneg v)

theorem norm3_eq_zero_iff (v : Vec3) : norm3 v = 0 ↔ v = 0 := by
  obtain ⟨x, y, z⟩ := v
  rw [norm3, Real.sqrt_eq_zero (dot_self_nonneg _)]
  constructor
  · intro h
    simp only [dot] at h
    have hx : x = 0 := by nlinarith [mul_self_nonneg x, mul_self_nonneg y, mul_self_nonneg z]
    have hy : y = 0 := by nlinarith [mul_self_nonneg x, mul_self_nonneg y, mul_self_nonneg z]
    have hz : z = 0 := by nlinarith [mul_self_nonneg x, mul_self_nonneg y, mul_self_nonneg z]
    simp [hx, hy, hz, Prod.ext_iff]
  · intro h
    rw [h]
    simp [dot]

theorem norm3_pos {v : Vec3} (hv : v ≠ 0) : 0 < norm3 v :=
  lt_of_le_of_ne (norm3_nonneg v) fun h => hv ((norm3_eq_zero_iff v).mp h.symm)

theorem dot_self_eq_sq_norm3 (v : Vec3) : dot v v = norm3 v ^ 2 :=
  (sq_norm3 v).symm

theorem norm3_smul (c : ℝ) (v : Vec3) : norm3 (c • v) = |c| * norm3 v := by
  rw [norm3, dot_smul_left, dot_smul_right, show c * (c * dot v v) = c ^ 2 * dot v v by ring,
    Real.sqrt_mul (sq_nonneg c), Real.sqrt_sq_eq_abs, norm3]

theorem smul_unitv (v : Vec3) : norm3 v • unitv v = v := by
  by_cases hv : v = 0
  · rw [hv]; simp [unitv, norm3, dot]
  · rw [unitv, smul_smul, mul_inv_cancel₀ (ne_of_gt (norm3_pos hv)), one_smul]

theorem dot_unitv_self {v : Vec3} (hv : v ≠ 0) : dot (unitv v) (unitv v) = 1 := by
  rw [unitv, dot_smul_left, dot_smul_right, dot_self_eq_sq_norm3]
  have h := norm3_pos hv
  field_simp
  ring

theorem norm3_unitv {v : Vec3} (hv : v ≠ 0) : norm3 (unitv v) = 1 := by
  rw [norm3, dot_unitv_self hv, Real.sqrt_one]

theorem unitv_of_unit {v : Vec3} (hv : dot v v = 1) : unitv v = v := by
  rw [unitv, norm3, hv, Real.sqrt_one, inv_one, one_smul]

theorem unitv_neg (v : Vec3) : unitv (-v) = -unitv v := by
  have h : norm3 (-v) = norm3 v := by
    rw [norm3, dot_neg_left, dot_neg_right, neg_neg, norm3]
  rw [unitv, unitv, h, smul_neg]

theorem unitv_smul_of_pos {c : ℝ} (hc : 0 < c) (v : Vec3) :
    unitv (c • v) = unitv v := by
  by_cases hv : v = 0
  · rw [hv, smul_zero]
  · rw [unitv, unitv, norm3_smul, abs_of_pos hc, smul_smul, mul_inv]
    have h := norm3_pos hv
    rw [show (c⁻¹ * (norm3 v)⁻¹) * c = (c⁻¹ * c) * (norm3 v)⁻¹ by ring,
      inv_mul_cancel₀ (ne_of_gt hc), one_mul]

theorem unitv_zero : unitv 0 = 0 := by
  simp [unitv]

/-! ### The per-atom internal-coordinate measurements and reconstruction
(internal.py lines 15-104) -/

/-- One row of `calc_bonds` (internal.py lines 15-29): `‖p2 - p1‖`. -/
def calc_bond (p1 p2 : Vec3) : ℝ := norm3 (p2 - p1)

/-- One row of `calc_angles` (internal.py lines 32-42): the angle at `c`
between `b - c` and `d - c`, via `acos` of the normalised dot product. -/
def calc_angle (b c d : Vec3) : ℝ :=
  Real.arccos (dot (unitv (b - c)) (unitv (d - c)))

/-- One row of `calc_dihedrals` (internal.py lines 45-62): the signed
dihedral of the chain `a-b-c-d`, negated `atan2`. -/
def calc_dihedral (a b c d : Vec3) : ℝ :=
  let b0 := a - b
  let b1 := unitv (c - b)
  let b2 := d - c
  let v := b0 - dot b0 b1 • b1
  let w := b2 - dot b2 b1 • b1
  let x := dot v w
  let y := dot (cross b1 v) w
  Neg.neg (atan2 y x)

/-- One row of `reconstruct_cart` (internal.py lines 65-104): the Cartesian
position of the new atom placed at distance `bond`, angle `angle` and
dihedral `dih` relative to the reference positions `p1, p2, p3`, together
with the per-atom log-Jacobian contribution `2·log|bond| + log|sin angle|`. -/
def reconstruct_cart (p1 p2 p3 : Vec3) (bond angle dih : ℝ) : Vec3 × ℝ :=
  let jac := 2 * Real.log |bond| + Real.log |Real.sin angle|
  let v1 := p1 - p2
  let v2 := p1 - p3
  let n := unitv (cross v1 v2)
  let nn := unitv (cross v1 n)
  let ns := Real.sin dih • n
  let nns := Real.cos dih • nn
  let v3 := (bond * Real.sin angle) • unitv (ns + nns)
  let v1b := (bond * Real.cos angle) • unitv v1
  (p1 + v3 - v1b, jac)

/-! ### The orthonormal frame attached to the three reference atoms -/

/-- Unit vector along `p1 - p2`. -/
def uhat (p1 p2 : Vec3) : Vec3 := unitv (p1 - p2)

/-- Component of `p3 - p2` orthogonal to `p1 - p2` (the `v` of
`calc_dihedrals`). -/
def aperp (p1 p2 p3 : Vec3) : Vec3 :=
  (p3 - p2) - dot (p3 - p2) (uhat p1 p2) • uhat p1 p2

/-- Unit vector along `aperp`. -/
def mhat (p1 p2 p3 : Vec3) : Vec3 := unitv (aperp p1 p2 p3)

/-- Third unit vector of the reference frame. -/
def ehat (p1 p2 p3 : Vec3) : Vec3 := cross (uhat p1 p2) (mhat p1 p2 p3)

section Frame

variable {p1 p2 p3 : Vec3}

theorem uhat_dot_self (hu : p1 - p2 ≠ 0) : dot (uhat p1 p2) (uhat p1 p2) = 1 :=
  dot_unitv_self hu

theorem uhat_dot_aperp (hu : p1 - p2 ≠ 0) :
    dot (uhat p1 p2) (aperp p1 p2 p3) = 0 := by
  rw [aperp, dot_sub_right, dot_smul_right, uhat_dot_self hu,
    dot_comm (p3 - p2) (uhat p1 p2)]
  ring

/-- `u × (p3 - p2)` has no component from the part of `p3 - p2` parallel
to `u`. -/
theorem cross_u_aperp_eq (hu : p1 - p2 ≠ 0) :
    cross (p1 - p2) (aperp p1 p2 p3) = cross (p1 - p2) (p3 - p2) := by
  have h0 : cross (p1 - p2) (unitv (p1 - p2)) = 0 := by
    rw [unitv, cross_smul_right, cross_self, smul_zero]
  rw [aperp, cross_sub_right, cross_smul_right, uhat, h0, smul_zero, sub_zero]

/-- The reference-plane normal used by the code: `(p1-p2) × (p1-p3)` equals
`-(p1-p2) × (p3-p2)`. -/
theorem cross_v1_v2_eq (hu : p1 - p2 ≠ 0) :
    cross (p1 - p2) (p1 - p3) = -cross (p1 - p2) (aperp p1 p2 p3) := by
  rw [cross_u_aperp_eq hu,
    show p1 - p3 = (p1 - p2) - (p3 - p2) by abel,
    cross_sub_right, cross_self, zero_sub]

theorem cross_zero_right (u : Vec3) : cross u 0 = 0 := by
  obtain ⟨a, b, c⟩ := u
  refine vec3_eq ?_ ?_ ?_ <;> simp [cross]

theorem aperp_ne_zero (hu : p1 - p2 ≠ 0)
    (hn : cross (p1 - p2) (p1 - p3) ≠ 0) : aperp p1 p2 p3 ≠ 0 := by
  intro h
  apply hn
  rw [cross_v1_v2_eq hu, h, cross_zero_right, neg_zero]

theorem mhat_dot_self (hu : p1 - p2 ≠ 0) (hn : cross (p1 - p2) (p1 - p3) ≠ 0) :
    dot (mhat p1 p2 p3) (mhat p1 p2 p3) = 1 :=
  dot_unitv_self (aperp_ne_zero hu hn)

theorem uhat_dot_mhat (hu : p1 - p2 ≠ 0) :
    dot (uhat p1 p2) (mhat p1 p2 p3) = 0 := by
  rw [mhat, unitv, dot_smul_right, uhat_dot_aperp hu, mul_zero]

theorem ehat_dot_uhat (hu : p1 - p2 ≠ 0) :
    dot (ehat p1 p2 p3) (uhat p1 p2) = 0 :=
  dot_cross_left _ _

theorem ehat_dot_mhat : dot (ehat p1 p2 p3) (mhat p1 p2 p3) = 0 :=
  dot_cross_right _ _

theorem ehat_dot_self (hu : p1 - p2 ≠ 0) (hn : cross (p1 - p2) (p1 - p3) ≠ 0) :
    dot (ehat p1 p2 p3) (ehat p1 p2 p3) = 1 := by
  rw [ehat, lagrange, uhat_dot_self hu, mhat_dot_self hu hn, uhat_dot_mhat hu]
  ring

/-- `aperp` in terms of `mhat`. -/
theorem aperp_eq_smul_mhat :
    aperp p1 p2 p3 = norm3 (aperp p1 p2 p3) • mhat p1 p2 p3 :=
  (smul_unitv _).symm

/-- `(p1 - p2) × aperp` in terms of `ehat`. -/
theorem cross_u_aperp_eq_smul (hu : p1 - p2 ≠ 0) :
    cross (p1 - p2) (aperp p1 p2 p3)
      = (norm3 (p1 - p2) * norm3 (aperp p1 p2 p3)) • ehat p1 p2 p3 := by
  conv_lhs => rw [← smul_unitv (p1 - p2), aperp_eq_smul_mhat]
  rw [cross_smul_left, cross_smul_right, smul_smul, ← uhat, ← ehat]

/-- The in-plane direction into which the new atom's orthogonal component
is placed: `sin dih • n + cos dih • nn` of the code, expressed in the
frame. -/
def wvec (p1 p2 p3 : Vec3) (φ : ℝ) : Vec3 :=
  Real.cos φ • mhat p1 p2 p3 - Real.sin φ • ehat p1 p2 p3

theorem dot_combo2 {e f : Vec3} (hee : dot e e = 1) (hff : dot f f = 1)
    (hef : dot e f = 0) (s c : ℝ) :
    dot (s • e - c • f) (s • e - c • f) = s ^ 2 + c ^ 2 := by
  have hfe : dot f e = 0 := by rw [dot_comm]; exact hef
  simp only [dot_sub_left, dot_sub_right, dot_smul_left, dot_smul_right,
    hee, hff, hef, hfe]
  ring

theorem wvec_dot_self (hu : p1 - p2 ≠ 0) (hn : cross (p1 - p2) (p1 - p3) ≠ 0)
    (φ : ℝ) : dot (wvec p1 p2 p3 φ) (wvec p1 p2 p3 φ) = 1 := by
  rw [wvec, dot_combo2 (mhat_dot_self hu hn) (ehat_dot_self hu hn)
    (by rw [dot_comm]; exact ehat_dot_mhat)]
  rw [← Real.sin_sq_add_cos_sq φ]
  ring

theorem uhat_dot_wvec (hu : p1 - p2 ≠ 0) (φ : ℝ) :
    dot (uhat p1 p2) (wvec p1 p2 p3 φ) = 0 := by
  rw [wvec, dot_sub_right, dot_smul_right, dot_smul_right, uhat_dot_mhat hu,
    dot_comm (uhat p1 p2) (ehat p1 p2 p3), ehat_dot_uhat hu]
  ring

theorem mhat_dot_wvec (hu : p1 - p2 ≠ 0) (hn : cross (p1 - p2) (p1 - p3) ≠ 0)
    (φ : ℝ) : dot (mhat p1 p2 p3) (wvec p1 p2 p3 φ) = Real.cos φ := by
  rw [wvec, dot_sub_right, dot_smul_right, dot_smul_right, mhat_dot_self hu hn,
    dot_comm (mhat p1 p2 p3) (ehat p1 p2 p3), ehat_dot_mhat]
  ring

theorem ehat_dot_wvec (hu : p1 - p2 ≠ 0) (hn : cross (p1 - p2) (p1 - p3) ≠ 0)
    (φ : ℝ) : dot (ehat p1 p2 p3) (wvec p1 p2 p3 φ) = -Real.sin φ := by
  rw [wvec, dot_sub_right, dot_smul_right, dot_smul_right, ehat_dot_mhat,
    ehat_dot_self hu hn]
  ring

/-- Closed form of the code's reconstruction: the new atom is placed at
`p1 + (b sin θ) w(φ) - (b cos θ) û`. -/
theorem reconstruct_closed (hu : p1 - p2 ≠ 0)
    (hn : cross (p1 - p2) (p1 - p3) ≠ 0) (b θ φ : ℝ) :
    (reconstruct_cart p1 p2 p3 b θ φ).1
      = p1 + (b * Real.sin θ) • wvec p1 p2 p3 φ
        - (b * Real.cos θ) • uhat p1 p2 := by
  have hna : aperp p1 p2 p3 ≠ 0 := aperp_ne_zero hu hn
  have hnu := norm3_pos hu
  have hnap := norm3_pos hna
  -- the code's plane normal n is -ehat
  have hn_eq : unitv (cross (p1 - p2) (p1 - p3)) = -ehat p1 p2 p3 := by
    rw [cross_v1_v2_eq hu, cross_u_aperp_eq_smul hu, ← smul_neg,
      unitv_smul_of_pos (mul_pos hnu hnap), unitv_neg,
      unitv_of_unit (ehat_dot_self hu hn)]
  -- the code's in-plane vector nn is mhat
  have hnn_eq : unitv (cross (p1 - p2) (-ehat p1 p2 p3)) = mhat p1 p2 p3 := by
    have h1 : cross (uhat p1 p2) (ehat p1 p2 p3) = -mhat p1 p2 p3 := by
      rw [ehat, bac_cab, uhat_dot_mhat hu, uhat_dot_self hu, zero_smul,
        one_smul, zero_sub]
    have h2 : cross (p1 - p2) (-ehat p1 p2 p3) = norm3 (p1 - p2) • mhat p1 p2 p3 := by
      conv_lhs => rw [← smul_unitv (p1 - p2)]
      rw [cross_smul_left, cross_neg_right, ← uhat, h1, neg_neg]
    rw [h2, unitv_smul_of_pos hnu, unitv_of_unit (mhat_dot_self hu hn)]
  have hw : Real.sin φ • (-ehat p1 p2 p3) + Real.cos φ • mhat p1 p2 p3
      = wvec p1 p2 p3 φ := by
    rw [wvec, smul_neg]
    abel
  have hwu : unitv (wvec p1 p2 p3 φ) = wvec p1 p2 p3 φ :=
    unitv_of_unit (wvec_dot_self hu hn φ)
  show p1 + (b * Real.sin θ) •
      unitv (Real.sin φ • unitv (cross (p1 - p2) (p1 - p3))
        + Real.cos φ • unitv (cross (p1 - p2)
            (unitv (cross (p1 - p2) (p1 - p3)))))
      - (b * Real.cos θ) • unitv (p1 - p2) = _
  rw [hn_eq, hnn_eq, hw, hwu, ← uhat]

theorem reconstruct_sub_p1 (hu : p1 - p2 ≠ 0)
    (hn : cross (p1 - p2) (p1 - p3) ≠ 0) (b θ φ : ℝ) :
    (reconstruct_cart p1 p2 p3 b θ φ).1 - p1
      = (b * Real.sin θ) • wvec p1 p2 p3 φ
        - (b * Real.cos θ) • uhat p1 p2 := by
  rw [reconstruct_closed hu hn]
  abel

/-- Measuring the bond of a reconstructed atom recovers the bond exactly. -/
theorem bond_of_reconstruct (hu : p1 - p2 ≠ 0)
    (hn : cross (p1 - p2) (p1 - p3) ≠ 0) {b θ : ℝ} (φ : ℝ) (hb : 0 < b) :
    calc_bond p1 (reconstruct_cart p1 p2 p3 b θ φ).1 = b := by
  rw [calc_bond, norm3, reconstruct_sub_p1 hu hn,
    dot_combo2 (wvec_dot_self hu hn φ) (uhat_dot_self hu)
      (by rw [dot_comm]; exact uhat_dot_wvec hu φ),
    show (b * Real.sin θ) ^ 2 + (b * Real.cos θ) ^ 2 = b ^ 2 by
      have h := Real.sin_sq_add_cos_sq θ; nlinarith [h],
    Real.sqrt_sq hb.le]

/-- Measuring the angle of a reconstructed atom recovers the angle exactly. -/
theorem angle_of_reconstruct (hu : p1 - p2 ≠ 0)
    (hn : cross (p1 - p2) (p1 - p3) ≠ 0) {b θ : ℝ} (φ : ℝ) (hb : 0 < b)
    (hθ1 : 0 ≤ θ) (hθ2 : θ ≤ π) :
    calc_angle p2 p1 (reconstruct_cart p1 p2 p3 b θ φ).1 = θ := by
  have hnorm : norm3 ((reconstruct_cart p1 p2 p3 b θ φ).1 - p1) = b :=
    bond_of_reconstruct hu hn φ hb
  have hu2 : unitv ((reconstruct_cart p1 p2 p3 b θ φ).1 - p1)
      = b⁻¹ • ((b * Real.sin θ) • wvec p1 p2 p3 φ
          - (b * Real.cos θ) • uhat p1 p2) := by
    rw [unitv, hnorm, reconstruct_sub_p1 hu hn]
  rw [calc_angle, show p2 - p1 = -(p1 - p2) by abel, unitv_neg, ← uhat, hu2,
    dot_neg_left, dot_smul_right, dot_sub_right, dot_smul_right,
    dot_smul_right, uhat_dot_wvec hu φ, uhat_dot_self hu]
  rw [show -(b⁻¹ * (b * Real.sin θ * 0 - b * Real.cos θ * 1))
      = b⁻¹ * b * Real.cos θ by ring,
    inv_mul_cancel₀ (ne_of_gt hb), one_mul]
  exact Real.arccos_cos hθ1 hθ2

theorem calc_dihedral_def (a b c d : Vec3) :
    calc_dihedral a b c d =
      -(atan2
        (dot (cross (unitv (c - b))
          ((a - b) - dot (a - b) (unitv (c - b)) • unitv (c - b)))
          ((d - c) - dot (d - c) (unitv (c - b)) • unitv (c - b)))
        (dot ((a - b) - dot (a - b) (unitv (c - b)) • unitv (c - b))
          ((d - c) - dot (d - c) (unitv (c - b)) • unitv (c - b)))) := rfl

theorem atan2_mul_pos {k : ℝ} (hk : 0 < k) (y x : ℝ) :
    atan2 (k * y) (k * x) = atan2 y x := by
  unfold atan2
  have h : (⟨k * x, k * y⟩ : ℂ) = (k : ℂ) * ⟨x, y⟩ := by
    apply Complex.ext <;>
      simp [Complex.mul_re, Complex.mul_im]
  rw [h, Complex.arg_real_mul _ hk]

theorem atan2_neg_sin_cos (φ : ℝ) :
    atan2 (-Real.sin φ) (Real.cos φ) = toIocMod Real.two_pi_pos (-π) (-φ) := by
  unfold atan2
  have h : (⟨Real.cos φ, -Real.sin φ⟩ : ℂ)
      = Complex.cos (Complex.ofReal (-φ))
        + Complex.sin (Complex.ofReal (-φ)) * Complex.I := by
    apply Complex.ext <;>
      simp [Complex.cos_ofReal_re, Complex.sin_ofReal_re, Complex.mul_re,
        Complex.mul_im, Real.cos_neg, Real.sin_neg]
  rw [h, Complex.arg_cos_add_sin_mul_I_eq_toIocMod]

/-- Measuring the dihedral of a reconstructed atom recovers the dihedral
up to the `(-π, π]`-wrap of `atan2` and the sign convention: the result is
the representative of `φ` modulo `2π` lying in `[-π, π)`. -/
theorem dihedral_of_reconstruct (hu : p1 - p2 ≠ 0)
    (hn : cross (p1 - p2) (p1 - p3) ≠ 0) {b θ : ℝ} (φ : ℝ) (hb : 0 < b)
    (hθ1 : 0 < θ) (hθ2 : θ < π) :
    calc_dihedral p3 p2 p1 (reconstruct_cart p1 p2 p3 b θ φ).1
      = -toIocMod Real.two_pi_pos (-π) (-φ) := by
  have hna : aperp p1 p2 p3 ≠ 0 := aperp_ne_zero hu hn
  have hnap := norm3_pos hna
  have hs : 0 < b * Real.sin θ :=
    mul_pos hb (Real.sin_pos_of_pos_of_lt_pi hθ1 hθ2)
  have hdot : dot ((reconstruct_cart p1 p2 p3 b θ φ).1 - p1) (uhat p1 p2)
      = -(b * Real.cos θ) := by
    rw [reconstruct_sub_p1 hu hn, dot_sub_left, dot_smul_left, dot_smul_left,
      dot_comm (wvec p1 p2 p3 φ) (uhat p1 p2), uhat_dot_wvec hu φ,
      uhat_dot_self hu]
    ring
  have hwterm : ((reconstruct_cart p1 p2 p3 b θ φ).1 - p1)
        - dot ((reconstruct_cart p1 p2 p3 b θ φ).1 - p1) (uhat p1 p2) • uhat p1 p2
      = (b * Real.sin θ) • wvec p1 p2 p3 φ := by
    rw [hdot, reconstruct_sub_p1 hu hn, neg_smul, sub_neg_eq_add]
    abel
  have hcross : cross (uhat p1 p2) (aperp p1 p2 p3)
      = norm3 (aperp p1 p2 p3) • ehat p1 p2 p3 := by
    conv_lhs => rw [aperp_eq_smul_mhat]
    rw [cross_smul_right, ← ehat]
  have hx : dot (aperp p1 p2 p3) ((b * Real.sin θ) • wvec p1 p2 p3 φ)
      = (norm3 (aperp p1 p2 p3) * (b * Real.sin θ)) * Real.cos φ := by
    conv_lhs => rw [aperp_eq_smul_mhat]
    rw [dot_smul_left, dot_smul_right, mhat_dot_wvec hu hn φ]
    ring
  have hy : dot (cross (uhat p1 p2) (aperp p1 p2 p3))
        ((b * Real.sin θ) • wvec p1 p2 p3 φ)
      = (norm3 (aperp p1 p2 p3) * (b * Real.sin θ)) * -Real.sin φ := by
    rw [hcross, dot_smul_left, dot_smul_right, ehat_dot_wvec hu hn φ]
    ring
  rw [calc_dihedral_def, ← uhat, ← aperp, hwterm, hx, hy,
    atan2_mul_pos (mul_pos hnap hs), atan2_neg_sin_cos]

end Frame

theorem cross_anticomm (u v : Vec3) : cross u v = -cross v u := by
  obtain ⟨a, b, c⟩ := u; obtain ⟨x, y, z⟩ := v
  refine vec3_eq ?_ ?_ ?_ <;> simp only [cross, Prod.neg_mk] <;> ring

theorem dot_self_pos {v : Vec3} (hv : v ≠ 0) : 0 < dot v v := by
  rcases lt_or_eq_of_le (dot_self_nonneg v) with h | h
  · exact h
  · exact absurd ((norm3_eq_zero_iff v).mp (by rw [norm3, ← h, Real.sqrt_zero]))
      hv

theorem dot_combo_add {e f : Vec3} (hee : dot e e = 1) (hff : dot f f = 1)
    (hef : dot e f = 0) (s t : ℝ) :
    dot (s • e + t • f) (s • e + t • f) = s ^ 2 + t ^ 2 := by
  have hfe : dot f e = 0 := by rw [dot_comm]; exact hef
  simp only [dot_add_left, dot_add_right, dot_smul_left, dot_smul_right,
    hee, hff, hef, hfe]
  ring

/-- Expansion of an arbitrary vector in the orthonormal basis
`e1, e2, e1 × e2`. -/
theorem orthonormal_expansion {e1 e2 : Vec3} (h11 : dot e1 e1 = 1)
    (h22 : dot e2 e2 = 1) (h12 : dot e1 e2 = 0) (w : Vec3) :
    w = dot w e1 • e1 + dot w e2 • e2
      + dot w (cross e1 e2) • cross e1 e2 := by
  have h21 : dot e2 e1 = 0 := by rw [dot_comm]; exact h12
  have hee : dot (cross e1 e2) (cross e1 e2) = 1 := by
    rw [lagrange, h11, h22, h12]; ring
  have hstep1 : cross (cross e1 e2) (cross w (cross e1 e2))
      = dot (cross e1 e2) (cross e1 e2) • w
        - dot (cross e1 e2) w • cross e1 e2 := bac_cab _ _ _
  have hstep2 : cross w (cross e1 e2) = dot w e2 • e1 - dot w e1 • e2 :=
    bac_cab _ _ _
  have he1 : cross (cross e1 e2) e1 = e2 := by
    rw [cross_anticomm, bac_cab, h12, h11, zero_smul, one_smul, zero_sub,
      neg_neg]
  have he2 : cross (cross e1 e2) e2 = -e1 := by
    rw [cross_anticomm, bac_cab, h22, h21, zero_smul, one_smul, sub_zero]
  have hstep3 : cross (cross e1 e2) (cross w (cross e1 e2))
      = dot w e2 • e2 + dot w e1 • e1 := by
    rw [hstep2, cross_sub_right, cross_smul_right, cross_smul_right, he1, he2,
      smul_neg, sub_neg_eq_add]
  have hfinal := hstep1
  rw [hstep3, hee, one_smul, dot_comm (cross e1 e2) w] at hfinal
  rw [eq_sub_iff_add_eq] at hfinal
  conv_lhs => rw [← hfinal]
  abel

section RoundTripCore

variable {p1 p2 p3 p4 : Vec3}

/-- The reconstruction depends on the dihedral only modulo `2π`. -/
theorem reconstruct_dih_shift (p1 p2 p3 : Vec3) (b θ φ : ℝ) (k : ℤ) :
    reconstruct_cart p1 p2 p3 b θ (φ + k * (2 * π))
      = reconstruct_cart p1 p2 p3 b θ φ := by
  simp only [reconstruct_cart]
  rw [Real.sin_add_int_mul_two_pi, Real.cos_add_int_mul_two_pi]

/-- The log-Jacobian contribution of one reconstructed atom. -/
theorem reconstruct_jac (p1 p2 p3 : Vec3) (b θ φ : ℝ) :
    (reconstruct_cart p1 p2 p3 b θ φ).2
      = 2 * Real.log |b| + Real.log |Real.sin θ| := rfl

/-- Core inverse property: reconstructing an atom from its measured bond,
angle and dihedral recovers the original Cartesian position exactly,
provided the three reference atoms are pairwise distinct and not colinear
and the atom does not lie on the axis through its first two references. -/
theorem reconstruct_of_measure (hu : p1 - p2 ≠ 0)
    (hn : cross (p1 - p2) (p1 - p3) ≠ 0)
    (hq : (p4 - p1) - dot (p4 - p1) (uhat p1 p2) • uhat p1 p2 ≠ 0) :
    (reconstruct_cart p1 p2 p3 (calc_bond p1 p4) (calc_angle p2 p1 p4)
      (calc_dihedral p3 p2 p1 p4)).1 = p4 := by
  have huu : dot (uhat p1 p2) (uhat p1 p2) = 1 := uhat_dot_self hu
  have hmm : dot (mhat p1 p2 p3) (mhat p1 p2 p3) = 1 := mhat_dot_self hu hn
  have hum : dot (uhat p1 p2) (mhat p1 p2 p3) = 0 := uhat_dot_mhat hu
  have hna : aperp p1 p2 p3 ≠ 0 := aperp_ne_zero hu hn
  have hnap := norm3_pos hna
  set q : Vec3 := p4 - p1 with hq_def
  set al : ℝ := dot q (uhat p1 p2) with hal
  set be : ℝ := dot q (mhat p1 p2 p3) with hbe
  set ga : ℝ := dot q (ehat p1 p2 p3) with hga
  clear_value q al be ga
  -- decompose q in the frame
  have hexp : q = al • uhat p1 p2 + be • mhat p1 p2 p3 + ga • ehat p1 p2 p3 := by
    have h := orthonormal_expansion huu hmm hum q
    rw [← ehat, ← hal, ← hbe, ← hga] at h
    exact h
  have hqperp : q - al • uhat p1 p2 = be • mhat p1 p2 p3 + ga • ehat p1 p2 p3 := by
    conv_lhs => rw [hexp]
    abel
  have hq' : q - al • uhat p1 p2 ≠ 0 := hq
  -- the squared norm of the perpendicular component
  have hme : dot (mhat p1 p2 p3) (ehat p1 p2 p3) = 0 := by
    rw [dot_comm]; exact ehat_dot_mhat
  have hrho2 : dot (q - al • uhat p1 p2) (q - al • uhat p1 p2)
      = be ^ 2 + ga ^ 2 := by
    rw [hqperp, dot_combo_add hmm (ehat_dot_self hu hn) hme]
  have hrho2_pos : 0 < be ^ 2 + ga ^ 2 := by
    rw [← hrho2]; exact dot_self_pos hq'
  set rho : ℝ := Real.sqrt (be ^ 2 + ga ^ 2) with hrho_def
  have hrho_pos : 0 < rho := Real.sqrt_pos.mpr hrho2_pos
  have hrho_sq : rho ^ 2 = be ^ 2 + ga ^ 2 := Real.sq_sqrt hrho2_pos.le
  clear_value rho
  -- the measured bond
  have hq_ne : q ≠ 0 := by
    intro h
    apply hq'
    have hal0 : al = 0 := by rw [hal, h, dot_zero_left]
    rw [h, hal0, zero_smul, sub_zero]
  set b0 : ℝ := norm3 q with hb0_def
  have hb0_pos : 0 < b0 := norm3_pos hq_ne
  clear_value b0
  have hb0_sq : b0 ^ 2 = al ^ 2 + be ^ 2 + ga ^ 2 := by
    rw [hb0_def, sq_norm3]
    conv_lhs => rw [hexp]
    have h1 : dot (al • uhat p1 p2 + be • mhat p1 p2 p3 + ga • ehat p1 p2 p3)
        (al • uhat p1 p2 + be • mhat p1 p2 p3 + ga • ehat p1 p2 p3)
        = al ^ 2 + be ^ 2 + ga ^ 2 := by
      have hue : dot (uhat p1 p2) (ehat p1 p2 p3) = 0 := by
        rw [dot_comm]; exact ehat_dot_uhat hu
      have hmu : dot (mhat p1 p2 p3) (uhat p1 p2) = 0 := by
        rw [dot_comm]; exact hum
      have hem : dot (ehat p1 p2 p3) (mhat p1 p2 p3) = 0 := ehat_dot_mhat
      have heu : dot (ehat p1 p2 p3) (uhat p1 p2) = 0 := ehat_dot_uhat hu
      simp only [dot_add_left, dot_add_right, dot_smul_left, dot_smul_right,
        huu, hmm, ehat_dot_self hu hn, hum, hue, hmu, hme, hem, heu]
      ring
    exact h1
  have hbond : calc_bond p1 p4 = b0 := by
    rw [calc_bond, ← hq_def, hb0_def]
  -- the measured angle
  have hangle : calc_angle p2 p1 p4 = Real.arccos (-(b0⁻¹ * al)) := by
    rw [calc_angle, show p2 - p1 = -(p1 - p2) by abel, unitv_neg, ← uhat,
      ← hq_def, unitv, ← hb0_def, dot_neg_left,
      dot_smul_right, dot_comm (uhat p1 p2) q, ← hal]
  have hcos_bound : (b0⁻¹ * al) ^ 2 ≤ 1 := by
    have h1 : al ^ 2 ≤ b0 ^ 2 := by nlinarith [hrho2_pos]
    have h2 : (b0⁻¹ * al) ^ 2 = al ^ 2 / b0 ^ 2 := by
      field_simp
    rw [h2, div_le_one (by positivity)]
    exact h1
  have hcos : Real.cos (calc_angle p2 p1 p4) = -(b0⁻¹ * al) := by
    rw [hangle]
    apply Real.cos_arccos
    · nlinarith [hcos_bound]
    · nlinarith [hcos_bound]
  have hsin : Real.sin (calc_angle p2 p1 p4) = rho / b0 := by
    rw [hangle, Real.sin_arccos]
    rw [show 1 - (-(b0⁻¹ * al)) ^ 2 = (rho / b0) ^ 2 by
      rw [div_pow, hrho_sq]
      field_simp
      nlinarith [hb0_sq]]
    exact Real.sqrt_sq (by positivity)
  -- the measured dihedral
  have hdih : calc_dihedral p3 p2 p1 p4 = -(Complex.arg ⟨be, ga⟩) := by
    have hwterm : (p4 - p1) - dot (p4 - p1) (uhat p1 p2) • uhat p1 p2
        = q - al • uhat p1 p2 := by
      rw [← hq_def, ← hal]
    have hx : dot (aperp p1 p2 p3) (q - al • uhat p1 p2)
        = norm3 (aperp p1 p2 p3) * be := by
      conv_lhs => rw [aperp_eq_smul_mhat, hqperp]
      rw [dot_smul_left, dot_add_right, dot_smul_right, dot_smul_right,
        hmm, hme]
      ring
    have hy : dot (cross (uhat p1 p2) (aperp p1 p2 p3)) (q - al • uhat p1 p2)
        = norm3 (aperp p1 p2 p3) * ga := by
      have hcr : cross (uhat p1 p2) (aperp p1 p2 p3)
          = norm3 (aperp p1 p2 p3) • ehat p1 p2 p3 := by
        conv_lhs => rw [aperp_eq_smul_mhat]
        rw [cross_smul_right, ← ehat]
      rw [hcr, hqperp, dot_smul_left, dot_add_right, dot_smul_right,
        dot_smul_right, ehat_dot_mhat, ehat_dot_self hu hn]
      ring
    rw [calc_dihedral_def, ← uhat, ← aperp, hwterm, hx, hy,
      atan2_mul_pos hnap, atan2]
  have hz_ne : (⟨be, ga⟩ : ℂ) ≠ 0 := by
    intro h
    rw [Complex.ext_iff] at h
    simp only [Complex.zero_re, Complex.zero_im] at h
    rw [h.1, h.2] at hrho2_pos
    norm_num at hrho2_pos
  have habs : Complex.abs ⟨be, ga⟩ = rho := by
    rw [Complex.abs_apply, Complex.normSq_mk, hrho_def]
    congr 1
    ring
  have hcosd : Real.cos (calc_dihedral p3 p2 p1 p4) = be / rho := by
    rw [hdih, Real.cos_neg, Complex.cos_arg hz_ne, habs]
  have hsind : Real.sin (calc_dihedral p3 p2 p1 p4) = -(ga / rho) := by
    rw [hdih, Real.sin_neg, Complex.sin_arg, habs]
  -- assemble the reconstruction
  rw [reconstruct_closed hu hn, hbond, hcos, hsin, wvec, hcosd, hsind]
  have e1 : b0 * (rho / b0) = rho := by
    rw [mul_comm]; exact div_mul_cancel₀ rho (ne_of_gt hb0_pos)
  have e2 : b0 * -(b0⁻¹ * al) = -al := by
    rw [mul_neg, mul_inv_cancel_left₀ (ne_of_gt hb0_pos)]
  have e3 : rho * (be / rho) = be := by
    rw [mul_comm]; exact div_mul_cancel₀ be (ne_of_gt hrho_pos)
  have e4 : rho * (ga / rho) = ga := by
    rw [mul_comm]; exact div_mul_cancel₀ ga (ne_of_gt hrho_pos)
  rw [e1, e2, neg_smul, sub_neg_eq_add, neg_smul, sub_neg_eq_add, smul_add,
    smul_smul, smul_smul, e3, e4]
  conv_rhs => rw [show p4 = p1 + q by rw [hq_def]; abel, hexp]
  abel

end RoundTripCore

/-! ### topological_sort (internal.py lines 441-459)

The Python function receives the z-matrix as a list of `(node, edges)`
pairs and turns it into a dict (`dict(graph_unsorted)`); per the data
model every atom appears exactly once as a key, so the dict conversion is
the identity and we model the dict as the association list itself,
threading the `del` operations.  The `for` loop iterates over a snapshot
of the items while deleting from the live dict; `sortPass` mirrors that by
carrying the snapshot (`todo`) and the live dict (`remaining`)
separately. -/

/-- An entry of the dependency graph: an atom and its reference atoms. -/
abbrev GEntry : Type := Nat × List Nat

/-- Python `edge in graph_unsorted` (a key-membership test). -/
def isKey (k : Nat) (g : List GEntry) : Bool := g.any fun e => e.1 == k

/-- Python `del graph_unsorted[node]`: remove the entry with the given
key (the first one, which is unique for Nodup keys). -/
def eraseKey (k : Nat) : List GEntry → List GEntry
  | [] => []
  | e :: rest => if e.1 = k then rest else e :: eraseKey k rest

/-- One full `for node, edges in list(graph_unsorted.items())` pass:
a node whose edges contain no key of the live dict is deleted from the
dict and appended to the output, and the `acyclic` flag is set. -/
def sortPass : List GEntry → List GEntry → List GEntry → Bool →
    List GEntry × List GEntry × Bool
  | [], remaining, out, acyclic => (out, remaining, acyclic)
  | e :: todo, remaining, out, acyclic =>
      if e.2.any (fun edge => isKey edge remaining) then
        sortPass todo remaining out acyclic
      else
        sortPass todo (eraseKey e.1 remaining) (out ++ [e]) true

/-- Key-membership as a proposition. -/
def HasKey (k : Nat) (g : List GEntry) : Prop := ∃ e ∈ g, e.1 = k

theorem isKey_iff {k : Nat} {g : List GEntry} :
    isKey k g = true ↔ HasKey k g := by
  simp [isKey, HasKey, List.any_eq_true]

/-- How many entries of `g` carry the key `k`. -/
def countKey (k : Nat) (g : List GEntry) : Nat := g.countP fun e => e.1 == k

theorem countKey_cons (k : Nat) (e : GEntry) (g : List GEntry) :
    countKey k (e :: g) = countKey k g + if e.1 = k then 1 else 0 := by
  simp only [countKey, List.countP_cons]
  by_cases h : e.1 = k <;> simp [h]

theorem countKey_pos_of_isKey {k : Nat} {g : List GEntry}
    (h : isKey k g = true) : 0 < countKey k g := by
  rw [isKey_iff] at h
  obtain ⟨e, he, hk⟩ := h
  rw [countKey, List.countP_pos]
  exact ⟨e, he, by simp [hk]⟩

theorem isKey_of_countKey_pos {k : Nat} {g : List GEntry}
    (h : 0 < countKey k g) : isKey k g = true := by
  rw [countKey, List.countP_pos] at h
  obtain ⟨e, he, hk⟩ := h
  rw [isKey_iff]
  exact ⟨e, he, by simpa using hk⟩

theorem eraseKey_length_le (k : Nat) (g : List GEntry) :
    (eraseKey k g).length ≤ g.length := by
  induction g with
  | nil => simp [eraseKey]
  | cons e rest ih =>
    simp only [eraseKey]
    by_cases h : e.1 = k
    · simp [h]
    · simp only [h, if_false, List.length_cons]
      omega

theorem eraseKey_length_of_isKey {k : Nat} {g : List GEntry}
    (h : isKey k g = true) : (eraseKey k g).length + 1 = g.length := by
  induction g with
  | nil => simp [isKey] at h
  | cons e rest ih =>
    simp only [eraseKey]
    by_cases he : e.1 = k
    · simp [he]
    · simp only [he, if_false, List.length_cons]
      have h' : isKey k rest = true := by
        simp only [isKey, List.any_cons, Bool.or_eq_true] at h
        rcases h with h | h
        · exact absurd (by simpa using h) he
        · exact h
      rw [← ih h']

theorem countKey_eraseKey_self {k : Nat} {g : List GEntry}
    (h : isKey k g = true) : countKey k (eraseKey k g) + 1 = countKey k g := by
  induction g with
  | nil => simp [isKey] at h
  | cons e rest ih =>
    simp only [eraseKey]
    by_cases he : e.1 = k
    · simp only [he, if_true, countKey_cons, if_pos rfl]
    · simp only [he, if_false, countKey_cons, if_neg he, add_zero]
      have h' : isKey k rest = true := by
        simp only [isKey, List.any_cons, Bool.or_eq_true] at h
        rcases h with h | h
        · exact absurd (by simpa using h) he
        · exact h
      exact ih h'

theorem countKey_eraseKey_le (k k' : Nat) (g : List GEntry) :
    countKey k' (eraseKey k g) ≤ countKey k' g := by
  induction g with
  | nil => simp [eraseKey]
  | cons e rest ih =>
    simp only [eraseKey]
    by_cases he : e.1 = k
    · simp only [he, if_true, countKey_cons]
      omega
    · simp only [he, if_false, countKey_cons]
      omega

theorem mem_of_mem_eraseKey {k : Nat} {g : List GEntry} {e : GEntry}
    (h : e ∈ eraseKey k g) : e ∈ g := by
  induction g with
  | nil => simp [eraseKey] at h
  | cons f rest ih =>
    simp only [eraseKey] at h
    by_cases hf : f.1 = k
    · simp only [hf, if_true] at h
      exact List.mem_cons_of_mem _ h
    · simp only [hf, if_false, List.mem_cons] at h
      rcases h with h | h
      · exact h ▸ List.mem_cons_self _ _
      · exact List.mem_cons_of_mem _ (ih h)

theorem mem_eraseKey_of_key_ne {k : Nat} {g : List GEntry} {e : GEntry}
    (hne : e.1 ≠ k) (h : e ∈ g) : e ∈ eraseKey k g := by
  induction g with
  | nil => simp at h
  | cons f rest ih =>
    simp only [eraseKey]
    by_cases hf : f.1 = k
    · simp only [hf, if_true]
      rcases List.mem_cons.mp h with h | h
      · exact absurd (h ▸ hf) hne
      · exact h
    · simp only [hf, if_false, List.mem_cons]
      rcases List.mem_cons.mp h with h | h
      · exact Or.inl h
      · exact Or.inr (ih h)

theorem sortPass_flag_mono : ∀ (todo remaining out : List GEntry),
    (sortPass todo remaining out true).2.2 = true := by
  intro todo
  induction todo with
  | nil => intro remaining out; rfl
  | cons e rest ih =>
    intro remaining out
    simp only [sortPass]
    by_cases h : e.2.any (fun edge => isKey edge remaining) = true
    · rw [if_pos h]; exact ih _ _
    · rw [if_neg h]; exact ih _ _

theorem sortPass_length_le : ∀ (todo remaining out : List GEntry) (flag : Bool),
    (sortPass todo remaining out flag).2.1.length ≤ remaining.length := by
  intro todo
  induction todo with
  | nil => intro remaining out flag; exact le_refl _
  | cons e rest ih =>
    intro remaining out flag
    simp only [sortPass]
    by_cases h : e.2.any (fun edge => isKey edge remaining) = true
    · rw [if_pos h]; exact ih _ _ _
    · rw [if_neg h]
      exact le_trans (ih _ _ _) (eraseKey_length_le _ _)

theorem sortPass_strict : ∀ (todo remaining out : List GEntry),
    (∀ k, countKey k todo ≤ countKey k remaining) →
    (sortPass todo remaining out false).2.2 = true →
    (sortPass todo remaining out false).2.1.length < remaining.length := by
  intro todo
  induction todo with
  | nil => intro remaining out _ hflag; exact absurd hflag (by simp [sortPass])
  | cons e rest ih =>
    intro remaining out hinv hflag
    simp only [sortPass] at hflag ⊢
    by_cases h : e.2.any (fun edge => isKey edge remaining) = true
    · rw [if_pos h] at hflag ⊢
      refine ih remaining out (fun k => ?_) hflag
      refine le_trans ?_ (hinv k)
      rw [countKey_cons]
      omega
    · rw [if_neg h] at hflag ⊢
      have hkey : isKey e.1 remaining = true := by
        apply isKey_of_countKey_pos
        refine lt_of_lt_of_le ?_ (hinv e.1)
        rw [countKey_cons, if_pos rfl]
        omega
      have h1 := sortPass_length_le rest (eraseKey e.1 remaining) (out ++ [e]) true
      have h2 := eraseKey_length_of_isKey hkey
      omega

theorem sortPass_no_progress : ∀ (todo remaining out : List GEntry),
    (sortPass todo remaining out false).2.2 = false →
    (sortPass todo remaining out false).2.1 = remaining ∧
    (sortPass todo remaining out false).1 = out ∧
    ∀ e ∈ todo, ∃ ed ∈ e.2, isKey ed remaining = true := by
  intro todo
  induction todo with
  | nil =>
    intro remaining out _
    exact ⟨rfl, rfl, by simp⟩
  | cons e rest ih =>
    intro remaining out hflag
    simp only [sortPass] at hflag ⊢
    by_cases h : e.2.any (fun edge => isKey edge remaining) = true
    · rw [if_pos h] at hflag ⊢
      obtain ⟨h1, h2, h3⟩ := ih remaining out hflag
      refine ⟨h1, h2, ?_⟩
      intro f hf
      rcases List.mem_cons.mp hf with hf | hf
      · subst hf
        obtain ⟨ed, hed, hik⟩ := List.any_eq_true.mp h
        exact ⟨ed, hed, hik⟩
      · exact h3 f hf
    · rw [if_neg h] at hflag
      rw [sortPass_flag_mono] at hflag
      exact absurd hflag (by simp)

/-- The `while graph_unsorted:` loop of `topological_sort`. -/
def sortLoop (remaining out : List GEntry) : Except String (List GEntry) :=
  if remaining.isEmpty then Except.ok out
  else
    if hac : (sortPass remaining remaining out false).2.2 = true then
      sortLoop (sortPass remaining remaining out false).2.1
        (sortPass remaining remaining out false).1
    else Except.error "A cyclic dependency occured."
termination_by remaining.length
decreasing_by
  exact sortPass_strict remaining remaining out (fun k => le_refl _) hac

/-- `topological_sort` (internal.py lines 441-459): Kahn-style repeated
scans; fails on a cyclic dependency (the Python code raises
`RuntimeError("A cyclic dependency occured.")`, which the spec names
`CyclicDependencyError`). -/
def topological_sort (g : List GEntry) : Except String (List GEntry) :=
  sortLoop g []

/-! ### Correctness of topological_sort -/

theorem hasKey_append {k : Nat} {a b : List GEntry} :
    HasKey k (a ++ b) ↔ HasKey k a ∨ HasKey k b := by
  simp only [HasKey, List.mem_append]
  constructor
  · rintro ⟨e, he | he, hk⟩
    · exact Or.inl ⟨e, he, hk⟩
    · exact Or.inr ⟨e, he, hk⟩
  · rintro (⟨e, he, hk⟩ | ⟨e, he, hk⟩)
    · exact ⟨e, Or.inl he, hk⟩
    · exact ⟨e, Or.inr he, hk⟩

theorem hasKey_of_perm {k : Nat} {a b : List GEntry} (h : a.Perm b) :
    HasKey k a ↔ HasKey k b := by
  simp only [HasKey]
  constructor
  · rintro ⟨e, he, hk⟩; exact ⟨e, h.mem_iff.mp he, hk⟩
  · rintro ⟨e, he, hk⟩; exact ⟨e, h.mem_iff.mpr he, hk⟩

theorem cons_eraseKey_perm {e : GEntry} {g : List GEntry}
    (hnd : (g.map Prod.fst).Nodup) (he : e ∈ g) :
    (e :: eraseKey e.1 g).Perm g := by
  induction g with
  | nil => simp at he
  | cons f rest ih =>
    simp only [List.map_cons, List.nodup_cons] at hnd
    rcases List.mem_cons.mp he with he' | he'
    · subst he'
      have hrw : eraseKey e.1 (e :: rest) = rest := by simp [eraseKey]
      rw [hrw]
    · by_cases hf : f.1 = e.1
      · exfalso
        apply hnd.1
        rw [hf]
        exact List.mem_map.mpr ⟨e, he', rfl⟩
      · have hrw : eraseKey e.1 (f :: rest) = f :: eraseKey e.1 rest := by
          simp [eraseKey, hf]
        rw [hrw]
        exact List.Perm.trans (List.Perm.swap f e _)
          (List.Perm.cons f (ih hnd.2 he'))

theorem eraseKey_map_fst_sublist (k : Nat) (g : List GEntry) :
    ((eraseKey k g).map Prod.fst).Sublist (g.map Prod.fst) := by
  induction g with
  | nil => simp [eraseKey]
  | cons f rest ih =>
    simp only [eraseKey]
    by_cases hf : f.1 = k
    · simp only [hf, if_true, List.map_cons]
      exact List.sublist_cons_self _ _
    · simp only [hf, if_false, List.map_cons]
      exact List.Sublist.cons₂ _ ih

/-- The invariant the output accumulator maintains: each already-emitted
entry's reference atoms that are keys of the graph appear strictly
earlier in the output. -/
def PartialSorted (g out : List GEntry) : Prop :=
  ∀ i (h : i < out.length), ∀ ed ∈ (out.get ⟨i, h⟩).2,
    HasKey ed g → HasKey ed (out.take i)

theorem partialSorted_append_single {g : List GEntry} {out : List GEntry}
    {e : GEntry} (hps : PartialSorted g out)
    (he : ∀ ed ∈ e.2, HasKey ed g → HasKey ed out) :
    PartialSorted g (out ++ [e]) := by
  intro i hi ed hed hkey
  have hlen : i < out.length + 1 := by simpa using hi
  rcases Nat.lt_or_ge i out.length with hlt | hge
  · have hget : (out ++ [e]).get ⟨i, hi⟩ = out.get ⟨i, hlt⟩ := by
      rw [List.get_append_left]
    have htake : (out ++ [e]).take i = out.take i := by
      rw [List.take_append_of_le_length (le_of_lt hlt)]
    rw [htake]
    rw [hget] at hed
    exact hps i hlt ed hed hkey
  · have hieq : i = out.length := by omega
    subst hieq
    have hget : (out ++ [e]).get ⟨out.length, hi⟩ = e := by
      rw [List.get_append_right] <;> simp
    have htake : (out ++ [e]).take out.length = out := by
      rw [List.take_append_of_le_length (le_refl _), List.take_length]
    rw [htake]
    rw [hget] at hed
    exact he ed hed hkey

theorem sortPass_sound : ∀ (todo remaining out : List GEntry) (flag : Bool)
    (g : List GEntry),
    (out ++ remaining).Perm g →
    ((remaining.map Prod.fst).Nodup) →
    (∀ e ∈ todo, e ∈ remaining) →
    ((todo.map Prod.fst).Nodup) →
    PartialSorted g out →
    ((sortPass todo remaining out flag).1
        ++ (sortPass todo remaining out flag).2.1).Perm g ∧
    (((sortPass todo remaining out flag).2.1.map Prod.fst).Nodup) ∧
    PartialSorted g (sortPass todo remaining out flag).1 := by
  intro todo
  induction todo with
  | nil =>
    intro remaining out flag g hperm hnd _ _ hps
    exact ⟨hperm, hnd, hps⟩
  | cons e rest ih =>
    intro remaining out flag g hperm hnd hsub hndt hps
    simp only [List.map_cons, List.nodup_cons] at hndt
    have hemem : e ∈ remaining := hsub e (List.mem_cons_self _ _)
    simp only [sortPass]
    by_cases h : e.2.any (fun edge => isKey edge remaining) = true
    · rw [if_pos h]
      exact ih remaining out flag g hperm hnd
        (fun f hf => hsub f (List.mem_cons_of_mem _ hf)) hndt.2 hps
    · rw [if_neg h]
      have hperm' : ((out ++ [e]) ++ eraseKey e.1 remaining).Perm g := by
        have h1 : (e :: eraseKey e.1 remaining).Perm remaining :=
          cons_eraseKey_perm hnd hemem
        have h2 : (out ++ [e]) ++ eraseKey e.1 remaining
            = out ++ (e :: eraseKey e.1 remaining) := by
          rw [List.append_assoc]
          rfl
        rw [h2]
        exact (List.Perm.append_left out h1).trans hperm
      have hnd' : ((eraseKey e.1 remaining).map Prod.fst).Nodup :=
        (eraseKey_map_fst_sublist e.1 remaining).nodup hnd
      have hsub' : ∀ f ∈ rest, f ∈ eraseKey e.1 remaining := by
        intro f hf
        apply mem_eraseKey_of_key_ne
        · intro hk
          apply hndt.1
          rw [← hk]
          exact List.mem_map.mpr ⟨f, hf, rfl⟩
        · exact hsub f (List.mem_cons_of_mem _ hf)
      have hps' : PartialSorted g (out ++ [e]) := by
        apply partialSorted_append_single hps
        intro ed hed hkey
        have hnk : ¬ HasKey ed remaining := by
          intro hhk
          apply h
          rw [List.any_eq_true]
          exact ⟨ed, hed, isKey_iff.mpr hhk⟩
        have := (hasKey_of_perm hperm).mpr hkey
        rcases hasKey_append.mp this with hout | hrem
        · exact hout
        · exact absurd hrem hnk
      exact ih (eraseKey e.1 remaining) (out ++ [e]) true g hperm' hnd'
        hsub' hndt.2 hps'

theorem sortLoop_sound : ∀ (n : Nat) (remaining out g l : List GEntry),
    remaining.length ≤ n →
    sortLoop remaining out = Except.ok l →
    (out ++ remaining).Perm g →
    ((remaining.map Prod.fst).Nodup) →
    PartialSorted g out →
    l.Perm g ∧ PartialSorted g l := by
  intro n
  induction n with
  | zero =>
    intro remaining out g l hlen hok hperm hnd hps
    have hre : remaining = [] := List.length_eq_zero.mp (Nat.le_zero.mp hlen)
    subst hre
    rw [sortLoop, if_pos (by rfl)] at hok
    have hl : l = out := by
      injection hok with h
      exact h.symm
    subst hl
    simp only [List.append_nil] at hperm
    exact ⟨hperm, hps⟩
  | succ n ih =>
    intro remaining out g l hlen hok hperm hnd hps
    by_cases hemp : remaining.isEmpty
    · rw [sortLoop, if_pos hemp] at hok
      have hre : remaining = [] := List.isEmpty_iff.mp hemp
      subst hre
      have hl : l = out := by
        injection hok with h
        exact h.symm
      subst hl
      simp only [List.append_nil] at hperm
      exact ⟨hperm, hps⟩
    · rw [sortLoop, if_neg hemp] at hok
      by_cases hac : (sortPass remaining remaining out false).2.2 = true
      · rw [dif_pos hac] at hok
        obtain ⟨hperm', hnd', hps'⟩ := sortPass_sound remaining remaining out
          false g hperm hnd (fun e he => he) hnd hps
        have hlt := sortPass_strict remaining remaining out
          (fun k => le_refl _) hac
        exact ih _ _ g l (by omega) hok hperm' hnd' hps'
      · rw [dif_neg hac] at hok
        exact absurd hok (by simp)

theorem sortPass_remaining_subset : ∀ (todo remaining out : List GEntry)
    (flag : Bool) (e : GEntry),
    e ∈ (sortPass todo remaining out flag).2.1 → e ∈ remaining := by
  intro todo
  induction todo with
  | nil => intro remaining out flag e he; exact he
  | cons f rest ih =>
    intro remaining out flag e he
    simp only [sortPass] at he
    by_cases h : f.2.any (fun edge => isKey edge remaining) = true
    · rw [if_pos h] at he
      exact ih _ _ _ e he
    · rw [if_neg h] at he
      exact mem_of_mem_eraseKey (ih _ _ _ e he)

/-- Acyclicity of a dependency specification: every nonempty collection of
its entries contains one whose references carry no key of the
collection. -/
def Acyclic (g : List GEntry) : Prop :=
  ∀ s : List GEntry, s ≠ [] → (∀ e ∈ s, e ∈ g) →
    ∃ e ∈ s, ∀ ed ∈ e.2, ¬ HasKey ed s

theorem sortLoop_complete : ∀ (n : Nat) (remaining out g : List GEntry),
    remaining.length ≤ n → (∀ e ∈ remaining, e ∈ g) → Acyclic g →
    ∃ l, sortLoop remaining out = Except.ok l := by
  intro n
  induction n with
  | zero =>
    intro remaining out g hlen _ _
    have hre : remaining = [] := List.length_eq_zero.mp (Nat.le_zero.mp hlen)
    subst hre
    exact ⟨out, by rw [sortLoop, if_pos (by rfl)]⟩
  | succ n ih =>
    intro remaining out g hlen hsub hacy
    by_cases hemp : remaining.isEmpty
    · exact ⟨out, by rw [sortLoop, if_pos hemp]⟩
    · by_cases hac : (sortPass remaining remaining out false).2.2 = true
      · have hlt := sortPass_strict remaining remaining out
          (fun k => le_refl _) hac
        obtain ⟨l, hl⟩ := ih (sortPass remaining remaining out false).2.1
          (sortPass remaining remaining out false).1 g (by omega)
          (fun e he => hsub e (sortPass_remaining_subset _ _ _ _ e he)) hacy
        exact ⟨l, by rw [sortLoop, if_neg hemp, dif_pos hac]; exact hl⟩
      · exfalso
        have hflag : (sortPass remaining remaining out false).2.2 = false := by
          simpa using hac
        obtain ⟨_, _, h3⟩ := sortPass_no_progress remaining remaining out hflag
        have hne : remaining ≠ [] := by
          intro h
          rw [h] at hemp
          exact hemp rfl
        obtain ⟨e, hes, hno⟩ := hacy remaining hne hsub
        obtain ⟨ed, hed, hik⟩ := h3 e hes
        exact hno ed hed (isKey_iff.mp hik)

theorem sortLoop_cases : ∀ (n : Nat) (remaining out : List GEntry),
    remaining.length ≤ n →
    (∃ l, sortLoop remaining out = Except.ok l) ∨
    sortLoop remaining out = Except.error "A cyclic dependency occured." := by
  intro n
  induction n with
  | zero =>
    intro remaining out hlen
    have hre : remaining = [] := List.length_eq_zero.mp (Nat.le_zero.mp hlen)
    subst hre
    exact Or.inl ⟨out, by rw [sortLoop, if_pos (by rfl)]⟩
  | succ n ih =>
    intro remaining out hlen
    by_cases hemp : remaining.isEmpty
    · exact Or.inl ⟨out, by rw [sortLoop, if_pos hemp]⟩
    · by_cases hac : (sortPass remaining remaining out false).2.2 = true
      · have hlt := sortPass_strict remaining remaining out
          (fun k => le_refl _) hac
        rcases ih (sortPass remaining remaining out false).2.1
          (sortPass remaining remaining out false).1 (by omega) with ⟨l, hl⟩ | herr
        · exact Or.inl ⟨l, by rw [sortLoop, if_neg hemp, dif_pos hac]; exact hl⟩
        · exact Or.inr (by rw [sortLoop, if_neg hemp, dif_pos hac]; exact herr)
      · exact Or.inr (by rw [sortLoop, if_neg hemp, dif_neg hac])

theorem keys_inj {l : List GEntry} (hnd : (l.map Prod.fst).Nodup)
    {f w : GEntry} (hf : f ∈ l) (hw : w ∈ l) (hk : f.1 = w.1) : f = w := by
  induction l with
  | nil => simp at hf
  | cons e rest ih =>
    simp only [List.map_cons, List.nodup_cons] at hnd
    rcases List.mem_cons.mp hf with hf' | hf' <;>
      rcases List.mem_cons.mp hw with hw' | hw'
    · rw [hf', hw']
    · exfalso
      apply hnd.1
      have hew : e.1 = w.1 := by rw [← hf']; exact hk
      rw [hew]
      exact List.mem_map.mpr ⟨w, hw', rfl⟩
    · exfalso
      apply hnd.1
      have hef : e.1 = f.1 := by rw [← hw']; exact hk.symm
      rw [hef]
      exact List.mem_map.mpr ⟨f, hf', rfl⟩
    · exact ih hnd.2 hf' hw'

theorem first_mem : ∀ (l s : List GEntry), (∃ e ∈ l, e ∈ s) →
    ∃ i, ∃ hi : i < l.length, l.get ⟨i, hi⟩ ∈ s ∧ ∀ w ∈ l.take i, w ∉ s := by
  intro l
  induction l with
  | nil => intro s h; simp at h
  | cons e rest ih =>
    intro s h
    by_cases hes : e ∈ s
    · exact ⟨0, by simp, hes, by simp⟩
    · have h' : ∃ f ∈ rest, f ∈ s := by
        obtain ⟨f, hf, hfs⟩ := h
        rcases List.mem_cons.mp hf with hf' | hf'
        · exact absurd (hf' ▸ hfs) hes
        · exact ⟨f, hf', hfs⟩
      obtain ⟨i, hi, hmem, htk⟩ := ih s h'
      refine ⟨i + 1, by simpa using Nat.succ_lt_succ hi, ?_, ?_⟩
      · simpa using hmem
      · intro w hw
        simp only [List.take_succ_cons, List.mem_cons] at hw
        rcases hw with hw | hw
        · rw [hw]; exact hes
        · exact htk w hw

theorem sorted_acyclic {g l : List GEntry} (hnd : (g.map Prod.fst).Nodup)
    (hperm : l.Perm g) (hps : PartialSorted g l) : Acyclic g := by
  intro s hs hsub
  have hl_nd : (l.map Prod.fst).Nodup :=
    ((hperm.map Prod.fst).nodup_iff).mpr hnd
  obtain ⟨e0, he0⟩ := List.exists_mem_of_ne_nil s hs
  have he0l : e0 ∈ l := hperm.mem_iff.mpr (hsub e0 he0)
  obtain ⟨i, hi, hmem, htk⟩ := first_mem l s ⟨e0, he0l, he0⟩
  refine ⟨l.get ⟨i, hi⟩, hmem, ?_⟩
  intro ed hed hhk
  obtain ⟨f, hfs, hfk⟩ := hhk
  have hkg : HasKey ed g := ⟨f, hsub f hfs, hfk⟩
  obtain ⟨w, hw_take, hwk⟩ := hps i hi ed hed hkg
  have hw_l : w ∈ l := List.mem_of_mem_take hw_take
  have hf_l : f ∈ l := hperm.mem_iff.mpr (hsub f hfs)
  have hfw : f = w := keys_inj hl_nd hf_l hw_l (by rw [hfk, hwk])
  exact htk w hw_take (hfw ▸ hfs)

/-- C3: for every dependency specification with distinct atom keys that is
acyclic, `topological_sort` returns a permutation of the input in which
every atom appears after each of its reference atoms that is itself a key
of the specification (references to anchor atoms are not keys and never
occur in the output at all); for every cyclic specification it fails with
the cyclic-dependency error and returns no list. -/
theorem topological_sort_correct (g : List GEntry)
    (hnd : (g.map Prod.fst).Nodup) :
    (Acyclic g → ∃ l, topological_sort g = Except.ok l ∧ l.Perm g ∧
      ∀ i (h : i < l.length), ∀ ed ∈ (l.get ⟨i, h⟩).2, HasKey ed l →
        HasKey ed (l.take i)) ∧
    (¬ Acyclic g →
      topological_sort g = Except.error "A cyclic dependency occured.") := by
  have hps0 : PartialSorted g [] := by
    intro i hi
    simp at hi
  constructor
  · intro hacy
    obtain ⟨l, hok⟩ := sortLoop_complete g.length g [] g (le_refl _)
      (fun e he => he) hacy
    obtain ⟨hperm, hps⟩ := sortLoop_sound g.length g [] g l (le_refl _) hok
      (by simp) hnd hps0
    refine ⟨l, hok, hperm, ?_⟩
    intro i hi ed hed hkey
    exact hps i hi ed hed ((hasKey_of_perm hperm).mp hkey)
  · intro hnacy
    rcases sortLoop_cases g.length g [] (le_refl _) with ⟨l, hok⟩ | herr
    · exfalso
      obtain ⟨hperm, hps⟩ := sortLoop_sound g.length g [] g l (le_refl _) hok
        (by simp) hnd hps0
      exact hnacy (sorted_acyclic hnd hperm hps)
    · exact herr

/-- Witness for C3 at two concrete inputs: the single-entry acyclic
specification of the end-to-end scenario, and the two-cycle
`0 → 1 → 0`. -/
theorem topological_sort_correct_witness :
    (∃ l, topological_sort [((3 : Nat), [2, 1, 0])] = Except.ok l) ∧
    topological_sort [((0 : Nat), [1]), (1, [0])]
      = Except.error "A cyclic dependency occured." := by
  constructor
  · have hacy : Acyclic [((3 : Nat), [2, 1, 0])] := by
      intro s hs hsub
      obtain ⟨e0, he0⟩ := List.exists_mem_of_ne_nil s hs
      have he0g : e0 ∈ [((3 : Nat), [2, 1, 0])] := hsub e0 he0
      simp only [List.mem_singleton] at he0g
      refine ⟨e0, he0, ?_⟩
      intro ed hed hhk
      obtain ⟨f, hfs, hfk⟩ := hhk
      have hfg : f ∈ [((3 : Nat), [2, 1, 0])] := hsub f hfs
      simp only [List.mem_singleton] at hfg
      rw [he0g] at hed
      rw [hfg] at hfk
      simp at hfk hed
      omega
    obtain ⟨l, hok, _, _⟩ :=
      (topological_sort_correct [((3 : Nat), [2, 1, 0])] (by decide)).1 hacy
    exact ⟨l, hok⟩
  · have hnacy : ¬ Acyclic [((0 : Nat), [1]), (1, [0])] := by
      intro hacy
      obtain ⟨e, hes, hno⟩ := hacy [((0 : Nat), [1]), (1, [0])] (by simp)
        (fun e he => he)
      simp only [List.mem_cons, List.mem_singleton] at hes
      rcases hes with he | he | he
      · exact hno 1 (by rw [he]; decide) ⟨(1, [0]), by simp, rfl⟩
      · exact hno 0 (by rw [he]; decide) ⟨(0, [1]), by simp, rfl⟩
      · simp at he
    exact (topological_sort_correct [((0 : Nat), [1]), (1, [0])]
      (by decide)).2 hnacy

/-! ### Construction validation (C9)

`_validate_data` (internal.py lines 311-325) checks only the dataset's
presence and array shape, so the dataset is modelled by its optional shape
(`none` = absent).  In `CompleteInternalCoordinateTransform.__init__`
(lines 478-486) the anchor-count assertion runs first, then the inner
`InternalCoordinateTransform.__init__` runs `_setup_indices` (which calls
`topological_sort`) before `_validate_data`; the remaining construction
work (statistics fitting) is pure arithmetic and cannot fail. -/

def validate_data (data : Option (List Nat)) (dims : Nat) :
    Except String Unit :=
  match data with
  | none => Except.error
      "InternalCoordinateTransform must be supplied with training_data."
  | some shape =>
    if shape.length ≠ 2 then
      Except.error "training_data must be n_samples x n_dim array"
    else if shape.getD 1 0 ≠ dims then
      Except.error "training_data must have dims dimensions"
    else Except.ok ()

def construct_validation (cartesian_indices : List Nat) (z : List GEntry)
    (data : Option (List Nat)) (dims : Nat) : Except String Unit :=
  if cartesian_indices.length ≠ 3 then
    Except.error "assert len_cart_inds eq 3"
  else
    match topological_sort z with
    | Except.error msg => Except.error msg
    | Except.ok _ => validate_data data dims

/-- C9: for an acyclic topology with distinct atom keys, construction
fails in validation exactly when the dataset is absent, is not 2-D, or
has a flattened dimensionality different from the declared `dims`, or
when the anchor count is not exactly 3; otherwise construction
succeeds.  (The code raises `ValueError` for the dataset checks and
`AssertionError` for the anchor count; the spec folds both into its
`ValidationError` taxonomy.) -/
theorem construct_validation_spec (ci : List Nat) (z : List GEntry)
    (data : Option (List Nat)) (dims : Nat)
    (hnd : (z.map Prod.fst).Nodup) (hacy : Acyclic z) :
    construct_validation ci z data dims = Except.ok () ↔
      (ci.length = 3 ∧ ∃ shape, data = some shape ∧ shape.length = 2 ∧
        shape.getD 1 0 = dims) := by
  obtain ⟨l, hok, -, -⟩ := (topological_sort_correct z hnd).1 hacy
  rw [construct_validation]
  by_cases hci : ci.length = 3
  · rw [if_neg (by rw [hci]; exact fun h => h rfl), hok]
    cases data with
    | none =>
      simp only [validate_data]
      constructor
      · intro h; exact absurd h (by simp)
      · rintro ⟨-, shape, h, -⟩; exact absurd h (by simp)
    | some shape =>
      simp only [validate_data]
      by_cases h2 : shape.length = 2
      · rw [if_neg (by rw [h2]; exact fun h => h rfl)]
        by_cases h3 : shape.getD 1 0 = dims
        · rw [if_neg (by rw [h3]; exact fun h => h rfl)]
          constructor
          · intro _
            exact ⟨hci, shape, rfl, h2, h3⟩
          · intro _
            rfl
        · rw [if_pos h3]
          constructor
          · intro h; exact absurd h (by simp)
          · rintro ⟨-, shape', heq, -, h3'⟩
            injection heq with heq
            exact absurd (heq ▸ h3') h3
      · rw [if_pos h2]
        constructor
        · intro h; exact absurd h (by simp)
        · rintro ⟨-, shape', heq, h2', -⟩
          injection heq with heq
          exact absurd (heq ▸ h2') h2
  · rw [if_pos hci]
    constructor
    · intro h; exact absurd h (by simp)
    · rintro ⟨h, -⟩; exact absurd h hci

/-- Witness for C9 at the concrete end-to-end scenario input: three
anchors, one z-matrix atom, a single-sample dataset of the declared
dimensionality. -/
theorem construct_validation_spec_witness :
    construct_validation [0, 1, 2] [((3 : Nat), [2, 1, 0])]
      (some [1, 12]) 12 = Except.ok () := by
  have hacy : Acyclic [((3 : Nat), [2, 1, 0])] := by
    intro s hs hsub
    obtain ⟨e0, he0⟩ := List.exists_mem_of_ne_nil s hs
    have he0g : e0 ∈ [((3 : Nat), [2, 1, 0])] := hsub e0 he0
    simp only [List.mem_singleton] at he0g
    refine ⟨e0, he0, ?_⟩
    intro ed hed hhk
    obtain ⟨f, hfs, hfk⟩ := hhk
    have hfg : f ∈ [((3 : Nat), [2, 1, 0])] := hsub f hfs
    simp only [List.mem_singleton] at hfg
    rw [he0g] at hed
    rw [hfg] at hfk
    simp at hfk hed
    omega
  rw [construct_validation_spec [0, 1, 2] [((3 : Nat), [2, 1, 0])]
    (some [1, 12]) 12 (by decide) hacy]
  exact ⟨by decide, [1, 12], rfl, by decide, by decide⟩

/-! ### Dihedral statistics fitting (C7)

`_setup_mean_dih` (internal.py lines 291-295) computes
`atan2(mean sin, mean cos)` over the sample axis for every dihedral
column; the circular-dihedral index list `ind_circ_dih` is not consulted
there at all.  `_setup_std_dih` (lines 302-309) computes the sample std
for every column when there is more than one sample; with a single sample
it assigns `default_std['dih']` to every column and then overwrites the
listed circular columns with std 1.  A dihedral column is modelled as the
list of its per-sample values. -/

def listMean (xs : List ℝ) : ℝ := xs.sum / xs.length

/-- The unbiased sample standard deviation used by `torch.std`. -/
def listStd (xs : List ℝ) : ℝ :=
  Real.sqrt (((xs.map fun x => (x - listMean xs) ^ 2).sum)
    / ((xs.length : ℝ) - 1))

/-- `_setup_mean_dih` on one column. -/
def mean_dih_col (xs : List ℝ) : ℝ :=
  atan2 (listMean (xs.map Real.sin)) (listMean (xs.map Real.cos))

/-- `_setup_mean_dih`: the circular mean of every dihedral column. -/
def setup_mean_dih (cols : List (List ℝ)) : List ℝ := cols.map mean_dih_col

/-- `_setup_std_dih` on the (already centred and wrapped) columns. -/
def setup_std_dih (cols : List (List ℝ)) (nSamples : Nat)
    (ind_circ : List Nat) (dstd : ℝ) : List ℝ :=
  if 1 < nSamples then cols.map listStd
  else (List.range cols.length).map fun i => if i ∈ ind_circ then 1 else dstd

/-- The dihedral-statistics part of construction (internal.py lines
131-135): fit circular means, centre and wrap each column, then fit the
stds. -/
def fit_dih_stats (cols : List (List ℝ)) (ind_circ : List Nat) (dstd : ℝ) :
    List ℝ × List ℝ :=
  let means := setup_mean_dih cols
  let centred := (cols.zip means).map fun p => p.1.map fun x => fix_dih (x - p.2)
  (means, setup_std_dih centred (cols.headD []).length ind_circ dstd)

/-- C7 counterexample: for the dihedral column `[3π/4, -3π/4]` of an atom
that is NOT in the circular list, the fitted mean is the circular mean
`π`, not the arithmetic mean `0` that the claim prescribes for non-listed
dihedrals. -/
theorem dih_mean_counterexample :
    (0 : Nat) ∉ ([] : List Nat) ∧
    (fit_dih_stats [[3 * π / 4, -(3 * π / 4)]] [] (1 / 5)).1 = [π] ∧
    listMean [3 * π / 4, -(3 * π / 4)] = 0 ∧
    (π : ℝ) ≠ 0 := by
  have hs : Real.sin (3 * π / 4) = Real.sqrt 2 / 2 := by
    rw [show 3 * π / 4 = π - π / 4 by ring, Real.sin_pi_sub,
      Real.sin_pi_div_four]
  have hc : Real.cos (3 * π / 4) = -(Real.sqrt 2 / 2) := by
    rw [show 3 * π / 4 = π - π / 4 by ring, Real.cos_pi_sub,
      Real.cos_pi_div_four]
  refine ⟨by simp, ?_, ?_, Real.pi_ne_zero⟩
  · have hmean : mean_dih_col [3 * π / 4, -(3 * π / 4)] = π := by
      rw [mean_dih_col]
      have h1 : listMean ([3 * π / 4, -(3 * π / 4)].map Real.sin) = 0 := by
        simp only [List.map_cons, List.map_nil, Real.sin_neg, hs, listMean,
          List.sum_cons, List.sum_nil, List.length_cons, List.length_nil]
        ring
      have h2 : listMean ([3 * π / 4, -(3 * π / 4)].map Real.cos)
          = -(Real.sqrt 2 / 2) := by
        simp only [List.map_cons, List.map_nil, Real.cos_neg, hc, listMean,
          List.sum_cons, List.sum_nil, List.length_cons, List.length_nil]
        push_cast
        ring
      rw [h1, h2, atan2]
      have hneg : -(Real.sqrt 2 / 2) < 0 := by
        have := Real.sqrt_pos.mpr (by norm_num : (0:ℝ) < 2)
        linarith
      have hz : (⟨-(Real.sqrt 2 / 2), 0⟩ : ℂ)
          = Complex.ofReal (-(Real.sqrt 2 / 2)) := by
        apply Complex.ext <;> simp
      rw [hz, Complex.arg_ofReal_of_neg hneg]
    simp only [fit_dih_stats, setup_mean_dih, List.map_cons, List.map_nil,
      hmean]
  · simp only [listMean, List.sum_cons, List.sum_nil, List.length_cons,
      List.length_nil]
    ring

/-- C7 amended: construction fits the circular mean
`atan2(mean sin, mean cos)` to EVERY dihedral column, whether or not the
atom is in the circular-dihedral list; the list is consulted only by the
std fit, where in the single-sample branch listed columns get std 1 and
unlisted columns get `default_std['dih']` (with more than one sample every
column gets the sample std of the centred wrapped column).  On a
single-sample column the fitted mean is the `(-π, π]`-wrap of the
dihedral. -/
theorem dih_stats_selection (cols : List (List ℝ)) (ind_circ : List Nat)
    (dstd : ℝ) :
    (fit_dih_stats cols ind_circ dstd).1 = cols.map mean_dih_col ∧
    (∀ ind' : List Nat,
      (fit_dih_stats cols ind' dstd).1 = (fit_dih_stats cols ind_circ dstd).1) ∧
    (∀ d : ℝ, mean_dih_col [d] = toIocMod Real.two_pi_pos (-π) d) ∧
    ((cols.headD []).length = 1 →
      (fit_dih_stats cols ind_circ dstd).2
        = (List.range cols.length).map fun i => if i ∈ ind_circ then 1 else dstd) := by
  refine ⟨rfl, fun ind' => rfl, ?_, ?_⟩
  · intro d
    rw [mean_dih_col]
    have h1 : listMean ([d].map Real.sin) = Real.sin d := by
      simp [listMean]
    have h2 : listMean ([d].map Real.cos) = Real.cos d := by
      simp [listMean]
    rw [h1, h2, atan2]
    have hz : (⟨Real.cos d, Real.sin d⟩ : ℂ)
        = Complex.cos (Complex.ofReal d)
          + Complex.sin (Complex.ofReal d) * Complex.I := by
      apply Complex.ext <;>
        simp [Complex.cos_ofReal_re, Complex.sin_ofReal_re, Complex.mul_re,
          Complex.mul_im]
    rw [hz, Complex.arg_cos_add_sin_mul_I_eq_toIocMod]
  · intro h1
    have hlen : ((cols.zip (setup_mean_dih cols)).map
        (fun p => p.1.map fun x => fix_dih (x - p.2))).length = cols.length := by
      simp [setup_mean_dih]
    rw [fit_dih_stats]
    simp only []
    rw [setup_std_dih, if_neg (by rw [h1]; omega), hlen]

/-- Witness for C7's amended theorem: a single-sample column gets std
`default_std['dih']` when unlisted. -/
theorem dih_stats_selection_witness :
    (fit_dih_stats [[(0 : ℝ)]] [] (1 / 5)).2 = [(1 / 5 : ℝ)] := by
  have h := (dih_stats_selection [[(0 : ℝ)]] [] (1 / 5)).2.2.2 (by simp)
  rw [h]
  simp

/-! ### The anchor frame of CompleteInternalCoordinateTransform (C6)

`_convert_last_internal` (internal.py lines 583-593) reduces the three
anchor atoms to `(b1, b2, angle)`; `forward` (line 537) subtracts
`log b2` from the Jacobian; `inverse` (lines 560-569) un-normalises,
places the anchors in the local frame and adds `log b2`. -/

def convert_last_internal (p1 p2 p3 : Vec3) : ℝ × ℝ × ℝ :=
  let p21 := p2 - p1
  let p31 := p3 - p1
  let b1 := norm3 p21
  let b2 := norm3 p31
  (b1, b2, Real.arccos (dot p21 p31 / b1 / b2))

/-- The anchor placement of `inverse` (lines 565-568): `cart_coords` is a
zero row, column 3 receives `b1`, columns 6 and 7 receive
`b2 cos angle` and `b2 sin angle`. -/
def place_anchors (b1 b2 angle : ℝ) : Vec3 × Vec3 × Vec3 :=
  ((0, 0, 0), (b1, 0, 0), (b2 * Real.cos angle, b2 * Real.sin angle, 0))

def scale_jac_anchor (s1 s2 sa : ℝ) : ℝ :=
  -(Real.log s1 + Real.log s2 + Real.log sa)

/-- The anchor-frame stage of `CompleteInternalCoordinateTransform.forward`
(lines 536-545): reduce, subtract `log b2`, normalise, add the scale
term. -/
def complete_fwd_anchor (p1 p2 p3 : Vec3) (m1 s1 m2 s2 ma sa : ℝ) :
    (ℝ × ℝ × ℝ) × ℝ :=
  let r := convert_last_internal p1 p2 p3
  (((r.1 - m1) / s1, (r.2.1 - m2) / s2, (r.2.2 - ma) / sa),
   -Real.log r.2.1 + scale_jac_anchor s1 s2 sa)

/-- The anchor-frame stage of `CompleteInternalCoordinateTransform.inverse`
(lines 560-569): un-normalise, subtract the scale term, place the three
anchors, add `log b2`. -/
def complete_inv_anchor (z1 z2 za m1 s1 m2 s2 ma sa : ℝ) :
    (Vec3 × Vec3 × Vec3) × ℝ :=
  let b1 := z1 * s1 + m1
  let b2 := z2 * s2 + m2
  let angle := za * sa + ma
  (place_anchors b1 b2 angle, Real.log b2 - scale_jac_anchor s1 s2 sa)

/-- C6: after un-normalising `b1`, `b2`, `angle`, the inverse places
anchor 1 at the origin, anchor 2 on the x-axis at distance `b1`, anchor 3
at `(b2 cos angle, b2 sin angle, 0)`, and contributes `+log b2` to the
log-Jacobian; measuring the placed anchors recovers `(b1, b2, angle)`
exactly, so the `-log b2` the forward reduction contributes at those
anchors cancels the `+log b2` of the inverse exactly (the scale terms
cancel likewise). -/
theorem complete_anchor_spec (z1 z2 za m1 s1 m2 s2 ma sa : ℝ)
    (hb1 : 0 < z1 * s1 + m1) (hb2 : 0 < z2 * s2 + m2)
    (ha1 : 0 < za * sa + ma) (ha2 : za * sa + ma < π) :
    (complete_inv_anchor z1 z2 za m1 s1 m2 s2 ma sa).1.1 = (0, 0, 0) ∧
    (complete_inv_anchor z1 z2 za m1 s1 m2 s2 ma sa).1.2.1
      = (z1 * s1 + m1, 0, 0) ∧
    norm3 ((complete_inv_anchor z1 z2 za m1 s1 m2 s2 ma sa).1.2.1)
      = z1 * s1 + m1 ∧
    (complete_inv_anchor z1 z2 za m1 s1 m2 s2 ma sa).1.2.2
      = ((z2 * s2 + m2) * Real.cos (za * sa + ma),
         (z2 * s2 + m2) * Real.sin (za * sa + ma), 0) ∧
    (complete_inv_anchor z1 z2 za m1 s1 m2 s2 ma sa).2
      = Real.log (z2 * s2 + m2) - scale_jac_anchor s1 s2 sa ∧
    convert_last_internal
      (complete_inv_anchor z1 z2 za m1 s1 m2 s2 ma sa).1.1
      (complete_inv_anchor z1 z2 za m1 s1 m2 s2 ma sa).1.2.1
      (complete_inv_anchor z1 z2 za m1 s1 m2 s2 ma sa).1.2.2
      = (z1 * s1 + m1, z2 * s2 + m2, za * sa + ma) ∧
    (complete_fwd_anchor
      (complete_inv_anchor z1 z2 za m1 s1 m2 s2 ma sa).1.1
      (complete_inv_anchor z1 z2 za m1 s1 m2 s2 ma sa).1.2.1
      (complete_inv_anchor z1 z2 za m1 s1 m2 s2 ma sa).1.2.2
      m1 s1 m2 s2 ma sa).2
      + (complete_inv_anchor z1 z2 za m1 s1 m2 s2 ma sa).2 = 0 := by
  have hp1 : (complete_inv_anchor z1 z2 za m1 s1 m2 s2 ma sa).1.1
      = ((0 : ℝ), (0 : ℝ), (0 : ℝ)) := rfl
  have hp2 : (complete_inv_anchor z1 z2 za m1 s1 m2 s2 ma sa).1.2.1
      = (z1 * s1 + m1, (0 : ℝ), (0 : ℝ)) := rfl
  have hp3 : (complete_inv_anchor z1 z2 za m1 s1 m2 s2 ma sa).1.2.2
      = ((z2 * s2 + m2) * Real.cos (za * sa + ma),
         (z2 * s2 + m2) * Real.sin (za * sa + ma), (0 : ℝ)) := rfl
  have hsub1 : ((z1 * s1 + m1, (0 : ℝ), (0 : ℝ)) : Vec3)
      - ((0 : ℝ), (0 : ℝ), (0 : ℝ)) = (z1 * s1 + m1, (0 : ℝ), (0 : ℝ)) := by
    refine vec3_eq ?_ ?_ ?_ <;> simp
  have hsub2 : (((z2 * s2 + m2) * Real.cos (za * sa + ma),
        (z2 * s2 + m2) * Real.sin (za * sa + ma), (0 : ℝ)) : Vec3)
      - ((0 : ℝ), (0 : ℝ), (0 : ℝ))
      = ((z2 * s2 + m2) * Real.cos (za * sa + ma),
         (z2 * s2 + m2) * Real.sin (za * sa + ma), (0 : ℝ)) := by
    refine vec3_eq ?_ ?_ ?_ <;> simp
  have hn1 : norm3 ((z1 * s1 + m1, (0 : ℝ), (0 : ℝ)) : Vec3)
      = z1 * s1 + m1 := by
    rw [norm3, dot]
    simp only [mul_zero, add_zero]
    rw [show (z1 * s1 + m1) * (z1 * s1 + m1) = (z1 * s1 + m1) ^ 2 by ring,
      Real.sqrt_sq hb1.le]
  have hn2 : norm3 (((z2 * s2 + m2) * Real.cos (za * sa + ma),
        (z2 * s2 + m2) * Real.sin (za * sa + ma), (0 : ℝ)) : Vec3)
      = z2 * s2 + m2 := by
    rw [norm3, dot]
    rw [show (z2 * s2 + m2) * Real.cos (za * sa + ma)
          * ((z2 * s2 + m2) * Real.cos (za * sa + ma))
        + (z2 * s2 + m2) * Real.sin (za * sa + ma)
          * ((z2 * s2 + m2) * Real.sin (za * sa + ma)) + 0 * 0
        = (z2 * s2 + m2) ^ 2
          * (Real.sin (za * sa + ma) ^ 2 + Real.cos (za * sa + ma) ^ 2) by
      ring, Real.sin_sq_add_cos_sq, mul_one, Real.sqrt_sq hb2.le]
  have hconv : convert_last_internal
      (complete_inv_anchor z1 z2 za m1 s1 m2 s2 ma sa).1.1
      (complete_inv_anchor z1 z2 za m1 s1 m2 s2 ma sa).1.2.1
      (complete_inv_anchor z1 z2 za m1 s1 m2 s2 ma sa).1.2.2
      = (z1 * s1 + m1, z2 * s2 + m2, za * sa + ma) := by
    rw [hp1, hp2, hp3, convert_last_internal]
    simp only [hsub1, hsub2, hn1, hn2]
    have hdot : dot ((z1 * s1 + m1, (0 : ℝ), (0 : ℝ)) : Vec3)
        (((z2 * s2 + m2) * Real.cos (za * sa + ma),
          (z2 * s2 + m2) * Real.sin (za * sa + ma), (0 : ℝ)) : Vec3)
        = (z1 * s1 + m1) * ((z2 * s2 + m2) * Real.cos (za * sa + ma)) := by
      rw [dot]
      ring
    rw [hdot]
    rw [show (z1 * s1 + m1) * ((z2 * s2 + m2) * Real.cos (za * sa + ma))
          / (z1 * s1 + m1) / (z2 * s2 + m2) = Real.cos (za * sa + ma) by
      field_simp]
    rw [Real.arccos_cos ha1.le ha2.le]
  refine ⟨rfl, rfl, by rw [hp2, hn1], rfl, rfl, hconv, ?_⟩
  have hfwd : (complete_fwd_anchor
      (complete_inv_anchor z1 z2 za m1 s1 m2 s2 ma sa).1.1
      (complete_inv_anchor z1 z2 za m1 s1 m2 s2 ma sa).1.2.1
      (complete_inv_anchor z1 z2 za m1 s1 m2 s2 ma sa).1.2.2
      m1 s1 m2 s2 ma sa).2
      = -Real.log (z2 * s2 + m2) + scale_jac_anchor s1 s2 sa := by
    rw [complete_fwd_anchor]
    simp only [hconv]
  rw [hfwd]
  show -Real.log (z2 * s2 + m2) + scale_jac_anchor s1 s2 sa
      + (Real.log (z2 * s2 + m2) - scale_jac_anchor s1 s2 sa) = 0
  ring

/-- Witness for C6 at a concrete input: identity statistics, unit bonds,
right angle. -/
theorem complete_anchor_spec_witness :
    (complete_fwd_anchor
      (complete_inv_anchor 0 0 0 1 1 1 1 (π / 2) 1).1.1
      (complete_inv_anchor 0 0 0 1 1 1 1 (π / 2) 1).1.2.1
      (complete_inv_anchor 0 0 0 1 1 1 1 (π / 2) 1).1.2.2
      1 1 1 1 (π / 2) 1).2
      + (complete_inv_anchor 0 0 0 1 1 1 1 (π / 2) 1).2 = 0 := by
  have hπ := Real.pi_pos
  exact (complete_anchor_spec 0 0 0 1 1 1 1 (π / 2) 1 (by norm_num)
    (by norm_num) (by linarith) (by linarith)).2.2.2.2.2.2

/-! ### The InternalCoordinateTransform forward pass

A flattened coordinate row is `Nat → ℝ`; atom `a` owns channels
`3a, 3a+1, 3a+2` (`inds_for_atom`).  A z-matrix row after
`topological_sort` is `[atom, ref1, ref2, ref3]`.  `_fwd` (internal.py
lines 167-188) clones the input, measures every atom's bond, angle and
dihedral from the (un-mutated) input in parallel, and overwrites the
atom's three channels; `forward` (lines 156-165) then normalises each
channel with the per-atom statistics and adds the scale term. -/

structure ZEntry where
  atom : Nat
  ref1 : Nat
  ref2 : Nat
  ref3 : Nat
deriving DecidableEq

/-- Per-atom statistics buffers, indexed by the atom's position in the
sorted z-matrix (`atom_to_stats`). -/
structure Stats where
  mb : Nat → ℝ
  sb : Nat → ℝ
  ma : Nat → ℝ
  sa : Nat → ℝ
  md : Nat → ℝ
  sd : Nat → ℝ

/-- The three coordinates of atom `a` in the flattened row
(`inds_for_atom`). -/
def atomPos (x : Nat → ℝ) (a : Nat) : Vec3 :=
  (x (3 * a), x (3 * a + 1), x (3 * a + 2))

/-- `calc_bonds(inds1, inds4)`: distance from the atom to its first
reference. -/
def zbond (x : Nat → ℝ) (e : ZEntry) : ℝ :=
  calc_bond (atomPos x e.ref1) (atomPos x e.atom)

/-- `calc_angles(inds2, inds1, inds4)`. -/
def zangle (x : Nat → ℝ) (e : ZEntry) : ℝ :=
  calc_angle (atomPos x e.ref2) (atomPos x e.ref1) (atomPos x e.atom)

/-- `calc_dihedrals(inds3, inds2, inds1, inds4)`. -/
def zdih (x : Nat → ℝ) (e : ZEntry) : ℝ :=
  calc_dihedral (atomPos x e.ref3) (atomPos x e.ref2) (atomPos x e.ref1)
    (atomPos x e.atom)

/-- Single-channel store update. -/
def upd (f : Nat → ℝ) (i : Nat) (v : ℝ) : Nat → ℝ :=
  fun j => if j = i then v else f j

theorem upd_same (f : Nat → ℝ) (i : Nat) (v : ℝ) : upd f i v i = v := by
  simp [upd]

theorem upd_ne (f : Nat → ℝ) {i j : Nat} {v : ℝ} (h : j ≠ i) :
    upd f i v j = f j := by
  simp [upd, h]

/-- The overwrite loop of `_fwd` (lines 185-187): every z-atom's three
channels receive its measured bond, angle and dihedral; all measurements
read the separate, un-mutated input `x0` (the clone of line 168 is the
buffer being written, `x`). -/
def writeZ (x0 : Nat → ℝ) : List ZEntry → (Nat → ℝ) → Nat → ℝ
  | [], x => x
  | e :: rest, x =>
      writeZ x0 rest
        (upd (upd (upd x (3 * e.atom) (zbond x0 e))
          (3 * e.atom + 1) (zangle x0 e))
          (3 * e.atom + 2) (zdih x0 e))

/-- `_fwd`: the written buffer and the raw log-Jacobian
`-Σ (2 log bond + log |sin angle|)` (line 180). -/
def fwd_raw (Z : List ZEntry) (x : Nat → ℝ) : (Nat → ℝ) × ℝ :=
  (writeZ x Z x,
   -((Z.map fun e => 2 * Real.log (zbond x e)
      + Real.log |Real.sin (zangle x e)|).sum))

/-- The normalisation loop of `forward` (lines 158-164), processing the
sorted atoms with their stats index; per-entry processing of the three
channels equals the code's columnwise passes because the channels of
distinct atoms are disjoint. -/
def normalizeZAux (st : Stats) : List ZEntry → Nat → (Nat → ℝ) → Nat → ℝ
  | [], _, y => y
  | e :: rest, k, y =>
      normalizeZAux st rest (k + 1)
        (upd (upd (upd y (3 * e.atom) ((y (3 * e.atom) - st.mb k) / st.sb k))
          (3 * e.atom + 1) ((y (3 * e.atom + 1) - st.ma k) / st.sa k))
          (3 * e.atom + 2) (fix_dih (y (3 * e.atom + 2) - st.md k) / st.sd k))

def normalizeZ (st : Stats) (Z : List ZEntry) (y : Nat → ℝ) : Nat → ℝ :=
  normalizeZAux st Z 0 y

/-- `scale_jac` (lines 149-153): minus the sum of the log-stds. -/
def ict_scale_jac (st : Stats) (n : Nat) : ℝ :=
  -(((List.range n).map fun k => Real.log (st.sb k)).sum
    + ((List.range n).map fun k => Real.log (st.sa k)).sum
    + ((List.range n).map fun k => Real.log (st.sd k)).sum)

/-- `InternalCoordinateTransform.forward` (lines 156-165). -/
def ict_forward (Z : List ZEntry) (st : Stats) (x : Nat → ℝ) :
    (Nat → ℝ) × ℝ :=
  (normalizeZ st Z (fwd_raw Z x).1, (fwd_raw Z x).2 + ict_scale_jac st Z.length)

/-- Channels that are not the bond/angle/dihedral channel of any z-atom. -/
def UntouchedChannel (Z : List ZEntry) (i : Nat) : Prop :=
  ∀ e ∈ Z, i ≠ 3 * e.atom ∧ i ≠ 3 * e.atom + 1 ∧ i ≠ 3 * e.atom + 2

theorem writeZ_untouched (x0 : Nat → ℝ) : ∀ (Z : List ZEntry) (x : Nat → ℝ)
    (i : Nat), UntouchedChannel Z i → writeZ x0 Z x i = x i := by
  intro Z
  induction Z with
  | nil => intro x i _; rfl
  | cons e rest ih =>
    intro x i hi
    have he := hi e (List.mem_cons_self _ _)
    rw [writeZ, ih _ i (fun f hf => hi f (List.mem_cons_of_mem _ hf)),
      upd_ne _ he.2.2, upd_ne _ he.2.1, upd_ne _ he.1]

theorem normalizeZAux_untouched (st : Stats) : ∀ (Z : List ZEntry) (k : Nat)
    (y : Nat → ℝ) (i : Nat), UntouchedChannel Z i →
    normalizeZAux st Z k y i = y i := by
  intro Z
  induction Z with
  | nil => intro k y i _; rfl
  | cons e rest ih =>
    intro k y i hi
    have he := hi e (List.mem_cons_self _ _)
    rw [normalizeZAux, ih _ _ i (fun f hf => hi f (List.mem_cons_of_mem _ hf)),
      upd_ne _ he.2.2, upd_ne _ he.2.1, upd_ne _ he.1]

/-- C10: `forward` leaves every coordinate column that is not one of the
three internal-coordinate channels of a z-matrix atom exactly equal to
the input column; in particular every coordinate of an atom outside the
z-matrix — such as the three anchor atoms — passes through unchanged.
(The non-mutation of the caller's tensor is the `x.clone()` of line 168,
reflected in the embedding by `fwd_raw` reading all measurements from the
separate original row `x`.) -/
theorem forward_frame (Z : List ZEntry) (st : Stats) (x : Nat → ℝ) :
    (∀ i, UntouchedChannel Z i → (ict_forward Z st x).1 i = x i) ∧
    (∀ a, a ∉ Z.map ZEntry.atom → ∀ r, r < 3 →
      (ict_forward Z st x).1 (3 * a + r) = x (3 * a + r)) := by
  have hmain : ∀ i, UntouchedChannel Z i → (ict_forward Z st x).1 i = x i := by
    intro i hi
    show normalizeZ st Z (writeZ x Z x) i = x i
    rw [normalizeZ, normalizeZAux_untouched st Z 0 _ i hi,
      writeZ_untouched x Z x i hi]
  refine ⟨hmain, ?_⟩
  intro a ha r hr
  apply hmain
  intro e he
  have hne : a ≠ e.atom := by
    intro h
    exact ha (List.mem_map.mpr ⟨e, he, h.symm⟩)
  refine ⟨?_, ?_, ?_⟩ <;> omega

/-- Witness for C10: with the single-entry z-matrix of the end-to-end
scenario, an anchor coordinate channel passes through `forward`
unchanged. -/
theorem forward_frame_witness :
    (ict_forward [⟨3, 2, 1, 0⟩] ⟨fun _ => 0, fun _ => 1, fun _ => 0,
      fun _ => 1, fun _ => 0, fun _ => 1⟩ (fun i => (i : ℝ))).1 4 = 4 := by
  have h := (forward_frame [⟨3, 2, 1, 0⟩] ⟨fun _ => 0, fun _ => 1, fun _ => 0,
    fun _ => 1, fun _ => 0, fun _ => 1⟩ (fun i => (i : ℝ))).2 1
    (by simp) 1 (by omega)
  simpa using h

/-! ### The block scheduler of _setup_indices (internal.py lines 384-421)

The loop maintains `all_cart` (the set of atoms already available in
Cartesian form), `rev_perm_inv` (atom → position in the growing Cartesian
buffer) and `current_cart_ind` (the next free buffer position).  Each
pass over the outstanding z-matrix rows collects the atoms whose three
references are all in `all_cart` into one block, recording the
buffer positions of the references; after the pass the newly placed atoms
join `all_cart`.  If a pass places nothing, the Python loop would spin
appending empty blocks forever; the embedding stops there instead — the
difference is unobservable through the blocks produced before that
point, and never arises for a well-formed topology. -/

/-- One block row: the atom (original index) and the three reference
positions into the growing Cartesian buffer. -/
structure BEntry where
  atom : Nat
  r1 : Nat
  r2 : Nat
  r3 : Nat
deriving DecidableEq

structure PassResult where
  blk : List BEntry
  skipped : List ZEntry
  rpi : Nat → Nat
  counter : Nat

/-- One pass of the `while sorted_z_indices` loop (lines 392-416). -/
def setupPass : List ZEntry → List Nat → (Nat → Nat) → Nat → PassResult
  | [], _, rpi, counter => ⟨[], [], rpi, counter⟩
  | e :: rest, allCart, rpi, counter =>
    if e.ref1 ∈ allCart ∧ e.ref2 ∈ allCart ∧ e.ref3 ∈ allCart then
      let rpi2 := fun a => if a = e.atom then counter else rpi a
      let r := setupPass rest allCart rpi2 (counter + 1)
      ⟨⟨e.atom, rpi2 e.ref1, rpi2 e.ref2, rpi2 e.ref3⟩ :: r.blk,
        r.skipped, r.rpi, r.counter⟩
    else
      let r := setupPass rest allCart rpi counter
      ⟨r.blk, e :: r.skipped, r.rpi, r.counter⟩

/-- The `while` loop (lines 389-420), stopping when a pass places no
atom. -/
def setupLoop : Nat → List ZEntry → List Nat → (Nat → Nat) → Nat →
    List (List BEntry) × (Nat → Nat)
  | _, [], _, rpi, _ => ([], rpi)
  | 0, _ :: _, _, rpi, _ => ([], rpi)
  | fuel + 1, e :: rest, allCart, rpi, counter =>
    let r := setupPass (e :: rest) allCart rpi counter
    if r.skipped.length < (e :: rest).length then
      let rs := setupLoop fuel r.skipped (allCart ++ r.blk.map BEntry.atom)
        r.rpi r.counter
      (r.blk :: rs.1, rs.2)
    else ([], rpi)

def setupBlocks (Z : List ZEntry) (allCart : List Nat) (rpi : Nat → Nat)
    (counter : Nat) : List (List BEntry) × (Nat → Nat) :=
  setupLoop Z.length Z allCart rpi counter

/-- Sequential `for i, j in enumerate(l): f[j] = i` array filling, used
for `rev_perm_inv` over the anchors (lines 380-382) and for
`atom_to_stats` (lines 361-364). -/
def enumIndexAux : List Nat → Nat → (Nat → Nat) → Nat → Nat
  | [], _, f => f
  | c :: rest, i, f => enumIndexAux rest (i + 1) fun a => if a = c then i else f a

def initRpi (cartInds : List Nat) : Nat → Nat :=
  enumIndexAux cartInds 0 fun _ => 0

/-- `atom_to_stats`: position of each z-atom in the sorted z-matrix. -/
def atomToStats (Z : List ZEntry) : Nat → Nat :=
  enumIndexAux (Z.map ZEntry.atom) 0 fun _ => 0

/-- `_setup_indices`' block construction: the anchors occupy buffer
positions `0 .. len(cart_indices)-1` and `current_cart_ind` starts at
`len(cart_indices)`. -/
def icSetup (Z : List ZEntry) (cartInds : List Nat) :
    List (List BEntry) × (Nat → Nat) :=
  setupBlocks Z cartInds (initRpi cartInds) cartInds.length

theorem enumIndexAux_not_mem : ∀ (l : List Nat) (i : Nat) (f : Nat → Nat)
    (a : Nat), a ∉ l → enumIndexAux l i f a = f a := by
  intro l
  induction l with
  | nil => intro i f a _; rfl
  | cons c rest ih =>
    intro i f a ha
    rw [enumIndexAux, ih _ _ a (fun h => ha (List.mem_cons_of_mem _ h))]
    rw [if_neg (fun h => ha (by rw [h]; exact List.mem_cons_self _ _))]

theorem enumIndexAux_get : ∀ (l : List Nat) (i : Nat) (f : Nat → Nat)
    (j : Nat) (hj : j < l.length), l.Nodup →
    enumIndexAux l i f (l.get ⟨j, hj⟩) = i + j := by
  intro l
  induction l with
  | nil => intro i f j hj _; simp at hj
  | cons c rest ih =>
    intro i f j hj hnd
    rw [List.nodup_cons] at hnd
    cases j with
    | zero =>
      have hg : (c :: rest).get ⟨0, hj⟩ = c := rfl
      rw [hg, enumIndexAux, enumIndexAux_not_mem rest _ _ c hnd.1, if_pos rfl]
      omega
    | succ j =>
      have hj' : j < rest.length := by simpa using hj
      rw [enumIndexAux, show (c :: rest).get ⟨j + 1, hj⟩
          = rest.get ⟨j, hj'⟩ from rfl, ih _ _ j hj' hnd.2]
      omega

/-- The references of a z-matrix row are all in the given atom set. -/
def refsIn (e : ZEntry) (ac : List Nat) : Prop :=
  e.ref1 ∈ ac ∧ e.ref2 ∈ ac ∧ e.ref3 ∈ ac

/-- The topology invariant produced by the topological sort: processing
the rows in order, every row's references are anchors or atoms of earlier
rows. -/
def OrderOk (ac : List Nat) : List ZEntry → Prop
  | [] => True
  | e :: rest => refsIn e ac ∧ OrderOk (ac ++ [e.atom]) rest

theorem orderOk_mono : ∀ {l : List ZEntry} {ac1 ac2 : List Nat},
    (∀ a ∈ ac1, a ∈ ac2) → OrderOk ac1 l → OrderOk ac2 l := by
  intro l
  induction l with
  | nil => intro ac1 ac2 _ _; trivial
  | cons e rest ih =>
    intro ac1 ac2 hsub h
    obtain ⟨⟨h1, h2, h3⟩, hrest⟩ := h
    refine ⟨⟨hsub _ h1, hsub _ h2, hsub _ h3⟩, ?_⟩
    refine ih ?_ hrest
    intro a ha
    rcases List.mem_append.mp ha with ha | ha
    · exact List.mem_append.mpr (Or.inl (hsub a ha))
    · exact List.mem_append.mpr (Or.inr ha)

theorem getD_get_eq (l : List Nat) (j : Nat) (hj : j < l.length) :
    l.getD j 0 = l.get ⟨j, hj⟩ := by
  rw [List.getD_eq_getElem l 0 hj]
  rfl

theorem setupPass_spec : ∀ (todo : List ZEntry) (C : List Nat)
    (rpi : Nat → Nat) (counter : Nat) (po0 po : List Nat),
    counter = po.length →
    (∀ a ∈ C, ∃ j, ∃ hj : j < po0.length, po0.get ⟨j, hj⟩ = a ∧ rpi a = j) →
    (∀ a ∈ C, a ∈ po) →
    (∀ j (hj : j < po.length), rpi (po.get ⟨j, hj⟩) = j) →
    po.Nodup →
    ((todo.map ZEntry.atom).Nodup) →
    (∀ e ∈ todo, e.atom ∉ po) →
    (setupPass todo C rpi counter).counter
        = (po ++ (setupPass todo C rpi counter).blk.map BEntry.atom).length ∧
    (((setupPass todo C rpi counter).blk.map BEntry.atom)
      ++ ((setupPass todo C rpi counter).skipped.map ZEntry.atom)).Perm
      (todo.map ZEntry.atom) ∧
    (po ++ (setupPass todo C rpi counter).blk.map BEntry.atom).Nodup ∧
    (∀ j (hj : j <
        (po ++ (setupPass todo C rpi counter).blk.map BEntry.atom).length),
      (setupPass todo C rpi counter).rpi
        ((po ++ (setupPass todo C rpi counter).blk.map BEntry.atom).get
          ⟨j, hj⟩) = j) ∧
    (∀ e ∈ (setupPass todo C rpi counter).skipped, e ∈ todo) ∧
    (∀ b ∈ (setupPass todo C rpi counter).blk, ∃ e ∈ todo,
      b.atom = e.atom ∧ refsIn e C ∧
      b.r1 < po0.length ∧ b.r2 < po0.length ∧ b.r3 < po0.length ∧
      po0.getD b.r1 0 = e.ref1 ∧ po0.getD b.r2 0 = e.ref2 ∧
      po0.getD b.r3 0 = e.ref3) := by
  intro todo
  induction todo with
  | nil =>
    intro C rpi counter po0 po h1 h2 h2b h3 h4 h5 h6
    have hb : (setupPass [] C rpi counter).blk = [] := rfl
    have hs : (setupPass [] C rpi counter).skipped = [] := rfl
    have hr : (setupPass [] C rpi counter).rpi = rpi := rfl
    have hcnt : (setupPass [] C rpi counter).counter = counter := rfl
    refine ⟨?_, ?_, ?_, ?_, ?_, ?_⟩
    · rw [hcnt, hb]
      simpa using h1
    · rw [hb, hs]
      simp
    · rw [hb]
      simpa using h4
    · intro j hj
      have hj2 : j < po.length := by
        simp only [hb] at hj
        simpa using hj
      have hgoal : po ++ List.map BEntry.atom (setupPass [] C rpi counter).blk
          = po := by
        rw [hb]
        simp
      rw [hr, List.get_of_eq hgoal]
      exact h3 j hj2
    · rw [hs]
      simp
    · rw [hb]
      simp
  | cons e rest ih =>
    intro C rpi counter po0 po h1 h2 h2b h3 h4 h5 h6
    have hatom_not_po : e.atom ∉ po := h6 e (List.mem_cons_self _ _)
    simp only [List.map_cons, List.nodup_cons] at h5
    by_cases hc : e.ref1 ∈ C ∧ e.ref2 ∈ C ∧ e.ref3 ∈ C
    · -- the atom is placed in this pass
      set rpi2 : Nat → Nat := fun a => if a = e.atom then counter else rpi a
        with hrpi2
      have hblk : (setupPass (e :: rest) C rpi counter).blk
          = ⟨e.atom, rpi2 e.ref1, rpi2 e.ref2, rpi2 e.ref3⟩ ::
            (setupPass rest C rpi2 (counter + 1)).blk := by
        rw [setupPass, if_pos hc]
      have hskip : (setupPass (e :: rest) C rpi counter).skipped
          = (setupPass rest C rpi2 (counter + 1)).skipped := by
        rw [setupPass, if_pos hc]
      have hrout : (setupPass (e :: rest) C rpi counter).rpi
          = (setupPass rest C rpi2 (counter + 1)).rpi := by
        rw [setupPass, if_pos hc]
      have hcnt : (setupPass (e :: rest) C rpi counter).counter
          = (setupPass rest C rpi2 (counter + 1)).counter := by
        rw [setupPass, if_pos hc]
      have hrpi2_ne : ∀ a, a ≠ e.atom → rpi2 a = rpi a := by
        intro a ha
        rw [hrpi2]
        simp [ha]
      have hrpi2_eq : rpi2 e.atom = counter := by
        rw [hrpi2]
        simp
      have q1 : counter + 1 = (po ++ [e.atom]).length := by
        rw [List.length_append, List.length_singleton, h1]
      have q2 : ∀ a ∈ C, ∃ j, ∃ hj : j < po0.length,
          po0.get ⟨j, hj⟩ = a ∧ rpi2 a = j := by
        intro a ha
        obtain ⟨j, hj, hget, hval⟩ := h2 a ha
        refine ⟨j, hj, hget, ?_⟩
        rw [hrpi2_ne a ?_, hval]
        intro haeq
        exact hatom_not_po (haeq ▸ h2b a ha)
      have q2b : ∀ a ∈ C, a ∈ po ++ [e.atom] := by
        intro a ha
        exact List.mem_append.mpr (Or.inl (h2b a ha))
      have q3 : ∀ j (hj : j < (po ++ [e.atom]).length),
          rpi2 ((po ++ [e.atom]).get ⟨j, hj⟩) = j := by
        intro j hj
        rcases Nat.lt_or_ge j po.length with hlt | hge
        · have hg : (po ++ [e.atom]).get ⟨j, hj⟩ = po.get ⟨j, hlt⟩ := by
            rw [List.get_append_left]
          rw [hg, hrpi2_ne _ ?_, h3 j hlt]
          intro hh
          exact hatom_not_po (hh ▸ List.get_mem po j hlt)
        · have hje : j = po.length := by
            have := List.length_append po [e.atom]
            simp only [List.length_singleton] at this
            omega
          subst hje
          have hg : (po ++ [e.atom]).get ⟨po.length, hj⟩ = e.atom := by
            rw [List.get_append_right] <;> simp
          rw [hg, hrpi2_eq, h1]
      have q4 : (po ++ [e.atom]).Nodup := by
        simp [List.nodup_append, h4, hatom_not_po]
      have q6 : ∀ f ∈ rest, f.atom ∉ po ++ [e.atom] := by
        intro f hf hmem
        rcases List.mem_append.mp hmem with hmem | hmem
        · exact h6 f (List.mem_cons_of_mem _ hf) hmem
        · rw [List.mem_singleton] at hmem
          exact h5.1 (hmem ▸ List.mem_map.mpr ⟨f, hf, rfl⟩)
      obtain ⟨A2, B2, C2, D2, E2, G2⟩ := ih C rpi2 (counter + 1) po0
        (po ++ [e.atom]) q1 q2 q2b q3 q4 h5.2 q6
      have hl : po ++ e.atom :: (setupPass rest C rpi2 (counter + 1)).blk.map
            BEntry.atom
          = (po ++ [e.atom])
            ++ (setupPass rest C rpi2 (counter + 1)).blk.map BEntry.atom := by
        rw [List.append_assoc]
        rfl
      refine ⟨?_, ?_, ?_, ?_, ?_, ?_⟩
      · rw [hcnt, hblk, A2]
        simp only [List.map_cons]
        rw [hl]
      · rw [hblk, hskip]
        simp only [List.map_cons, List.cons_append]
        exact List.Perm.cons e.atom B2
      · rw [hblk]
        simp only [List.map_cons]
        rw [hl]
        exact C2
      · have hleq : po ++ List.map BEntry.atom
              (setupPass (e :: rest) C rpi counter).blk
            = (po ++ [e.atom])
              ++ (setupPass rest C rpi2 (counter + 1)).blk.map BEntry.atom := by
          rw [hblk]
          simp only [List.map_cons]
          exact hl
        intro j hj
        rw [hrout, List.get_of_eq hleq]
        exact D2 j (by rw [← hleq]; exact hj)
      · intro f hf
        rw [hskip] at hf
        exact List.mem_cons_of_mem _ (E2 f hf)
      · intro b hb
        rw [hblk] at hb
        rcases List.mem_cons.mp hb with hb | hb
        · subst hb
          refine ⟨e, List.mem_cons_self _ _, rfl, hc, ?_⟩
          obtain ⟨j1, hj1, hget1, hval1⟩ := h2 e.ref1 hc.1
          obtain ⟨j2, hj2, hget2, hval2⟩ := h2 e.ref2 hc.2.1
          obtain ⟨j3, hj3, hget3, hval3⟩ := h2 e.ref3 hc.2.2
          have hne1 : e.ref1 ≠ e.atom := fun h =>
            hatom_not_po (h ▸ h2b e.ref1 hc.1)
          have hne2 : e.ref2 ≠ e.atom := fun h =>
            hatom_not_po (h ▸ h2b e.ref2 hc.2.1)
          have hne3 : e.ref3 ≠ e.atom := fun h =>
            hatom_not_po (h ▸ h2b e.ref3 hc.2.2)
          have hv1 : rpi2 e.ref1 = j1 := by rw [hrpi2_ne _ hne1, hval1]
          have hv2 : rpi2 e.ref2 = j2 := by rw [hrpi2_ne _ hne2, hval2]
          have hv3 : rpi2 e.ref3 = j3 := by rw [hrpi2_ne _ hne3, hval3]
          simp only [hv1, hv2, hv3]
          refine ⟨hj1, hj2, hj3, ?_, ?_, ?_⟩
          · rw [getD_get_eq po0 j1 hj1, hget1]
          · rw [getD_get_eq po0 j2 hj2, hget2]
          · rw [getD_get_eq po0 j3 hj3, hget3]
        · obtain ⟨f, hf, hrest⟩ := G2 b hb
          exact ⟨f, List.mem_cons_of_mem _ hf, hrest⟩
    · -- the atom is skipped in this pass
      have hblk : (setupPass (e :: rest) C rpi counter).blk
          = (setupPass rest C rpi counter).blk := by
        rw [setupPass, if_neg hc]
      have hskip : (setupPass (e :: rest) C rpi counter).skipped
          = e :: (setupPass rest C rpi counter).skipped := by
        rw [setupPass, if_neg hc]
      have hrout : (setupPass (e :: rest) C rpi counter).rpi
          = (setupPass rest C rpi counter).rpi := by
        rw [setupPass, if_neg hc]
      have hcnt : (setupPass (e :: rest) C rpi counter).counter
          = (setupPass rest C rpi counter).counter := by
        rw [setupPass, if_neg hc]
      obtain ⟨A2, B2, C2, D2, E2, G2⟩ := ih C rpi counter po0 po h1 h2 h2b
        h3 h4 h5.2 (fun f hf => h6 f (List.mem_cons_of_mem _ hf))
      refine ⟨?_, ?_, ?_, ?_, ?_, ?_⟩
      · rw [hcnt, hblk]
        exact A2
      · rw [hblk, hskip]
        simp only [List.map_cons]
        exact List.Perm.trans List.perm_middle (List.Perm.cons e.atom B2)
      · rw [hblk]
        exact C2
      · have hleq : po ++ List.map BEntry.atom
              (setupPass (e :: rest) C rpi counter).blk
            = po ++ (setupPass rest C rpi counter).blk.map BEntry.atom := by
          rw [hblk]
        intro j hj
        rw [hrout, List.get_of_eq hleq]
        exact D2 j (by rw [← hleq]; exact hj)
      · intro f hf
        rw [hskip] at hf
        rcases List.mem_cons.mp hf with hf | hf
        · exact hf ▸ List.mem_cons_self _ _
        · exact List.mem_cons_of_mem _ (E2 f hf)
      · intro b hb
        rw [hblk] at hb
        obtain ⟨f, hf, hrest⟩ := G2 b hb
        exact ⟨f, List.mem_cons_of_mem _ hf, hrest⟩

theorem setupPass_length : ∀ (todo : List ZEntry) (C : List Nat)
    (rpi : Nat → Nat) (counter : Nat),
    (setupPass todo C rpi counter).blk.length
      + (setupPass todo C rpi counter).skipped.length = todo.length := by
  intro todo
  induction todo with
  | nil => intro C rpi counter; rfl
  | cons e rest ih =>
    intro C rpi counter
    by_cases hc : e.ref1 ∈ C ∧ e.ref2 ∈ C ∧ e.ref3 ∈ C
    · have hblk : (setupPass (e :: rest) C rpi counter).blk
          = ⟨e.atom, if e.ref1 = e.atom then counter else rpi e.ref1,
              if e.ref2 = e.atom then counter else rpi e.ref2,
              if e.ref3 = e.atom then counter else rpi e.ref3⟩
            :: (setupPass rest C
              (fun a => if a = e.atom then counter else rpi a)
              (counter + 1)).blk := by
        rw [setupPass, if_pos hc]
      have hskip : (setupPass (e :: rest) C rpi counter).skipped
          = (setupPass rest C
            (fun a => if a = e.atom then counter else rpi a)
            (counter + 1)).skipped := by
        rw [setupPass, if_pos hc]
      rw [hblk, hskip, List.length_cons]
      have := ih C (fun a => if a = e.atom then counter else rpi a)
        (counter + 1)
      simp only [List.length_cons]
      omega
    · have hblk : (setupPass (e :: rest) C rpi counter).blk
          = (setupPass rest C rpi counter).blk := by
        rw [setupPass, if_neg hc]
      have hskip : (setupPass (e :: rest) C rpi counter).skipped
          = e :: (setupPass rest C rpi counter).skipped := by
        rw [setupPass, if_neg hc]
      rw [hblk, hskip, List.length_cons]
      have := ih C rpi counter
      simp only [List.length_cons]
      omega

theorem pass_progress (e : ZEntry) (rest : List ZEntry) (C : List Nat)
    (rpi : Nat → Nat) (counter : Nat) (h : OrderOk C (e :: rest)) :
    (setupPass (e :: rest) C rpi counter).blk ≠ [] := by
  have hc : e.ref1 ∈ C ∧ e.ref2 ∈ C ∧ e.ref3 ∈ C := h.1
  have hblk : (setupPass (e :: rest) C rpi counter).blk
      = ⟨e.atom, if e.ref1 = e.atom then counter else rpi e.ref1,
          if e.ref2 = e.atom then counter else rpi e.ref2,
          if e.ref3 = e.atom then counter else rpi e.ref3⟩
        :: (setupPass rest C
          (fun a => if a = e.atom then counter else rpi a) (counter + 1)).blk := by
    rw [setupPass, if_pos hc]
  rw [hblk]
  exact List.cons_ne_nil _ _

theorem pass_orderok : ∀ (todo : List ZEntry) (C P : List Nat)
    (rpi : Nat → Nat) (counter : Nat),
    OrderOk (C ++ P) todo →
    OrderOk (C ++ P ++ (setupPass todo C rpi counter).blk.map BEntry.atom)
      (setupPass todo C rpi counter).skipped := by
  intro todo
  induction todo with
  | nil => intro C P rpi counter _; trivial
  | cons e rest ih =>
    intro C P rpi counter h
    obtain ⟨h1, h2⟩ := h
    by_cases hc : e.ref1 ∈ C ∧ e.ref2 ∈ C ∧ e.ref3 ∈ C
    · have hblk : (setupPass (e :: rest) C rpi counter).blk
          = ⟨e.atom, if e.ref1 = e.atom then counter else rpi e.ref1,
              if e.ref2 = e.atom then counter else rpi e.ref2,
              if e.ref3 = e.atom then counter else rpi e.ref3⟩
            :: (setupPass rest C
              (fun a => if a = e.atom then counter else rpi a)
              (counter + 1)).blk := by
        rw [setupPass, if_pos hc]
      have hskip : (setupPass (e :: rest) C rpi counter).skipped
          = (setupPass rest C
            (fun a => if a = e.atom then counter else rpi a)
            (counter + 1)).skipped := by
        rw [setupPass, if_pos hc]
      rw [hblk, hskip]
      have hih := ih C (P ++ [e.atom])
        (fun a => if a = e.atom then counter else rpi a) (counter + 1)
        (orderOk_mono (by
          intro x hx
          simp only [List.mem_append] at hx ⊢
          tauto) h2)
      refine orderOk_mono ?_ hih
      intro x hx
      simp only [List.mem_append, List.map_cons, List.mem_cons,
        List.mem_singleton] at hx ⊢
      tauto
    · have hblk : (setupPass (e :: rest) C rpi counter).blk
          = (setupPass rest C rpi counter).blk := by
        rw [setupPass, if_neg hc]
      have hskip : (setupPass (e :: rest) C rpi counter).skipped
          = e :: (setupPass rest C rpi counter).skipped := by
        rw [setupPass, if_neg hc]
      rw [hblk, hskip]
      have hih := ih C (P ++ [e.atom]) rpi counter
        (orderOk_mono (by
          intro x hx
          simp only [List.mem_append] at hx ⊢
          tauto) h2)
      constructor
      · refine ⟨?_, ?_, ?_⟩
        · exact List.mem_append.mpr (Or.inl h1.1)
        · exact List.mem_append.mpr (Or.inl h1.2.1)
        · exact List.mem_append.mpr (Or.inl h1.2.2)
      · refine orderOk_mono ?_ hih
        intro x hx
        simp only [List.mem_append, List.mem_singleton] at hx ⊢
        tauto

/-- The atoms placed by a list of blocks, in placement order. -/
def blocksAtoms (bs : List (List BEntry)) : List Nat :=
  (bs.map (fun blk => blk.map BEntry.atom)).flatten

/-- Number of atoms placed by the blocks before block `bi`. -/
def sizesBefore (bs : List (List BEntry)) (bi : Nat) : Nat :=
  ((bs.take bi).map List.length).sum

theorem blocksAtoms_cons (blk : List BEntry) (rest : List (List BEntry)) :
    blocksAtoms (blk :: rest) = blk.map BEntry.atom ++ blocksAtoms rest := by
  simp [blocksAtoms]

theorem sizesBefore_zero (bs : List (List BEntry)) : sizesBefore bs 0 = 0 := rfl

theorem sizesBefore_succ (blk : List BEntry) (rest : List (List BEntry))
    (bi : Nat) :
    sizesBefore (blk :: rest) (bi + 1) = blk.length + sizesBefore rest bi := by
  simp [sizesBefore]


theorem setupLoop_nil (fuel : Nat) (C : List Nat) (rpi : Nat → Nat)
    (counter : Nat) : setupLoop fuel [] C rpi counter = ([], rpi) := by
  cases fuel <;> rfl

theorem setupLoop_step (fuel : Nat) (Z : List ZEntry) (C : List Nat)
    (rpi : Nat → Nat) (counter : Nat) (hZ : Z ≠ [])
    (hlt : (setupPass Z C rpi counter).skipped.length < Z.length) :
    setupLoop (fuel + 1) Z C rpi counter
      = ((setupPass Z C rpi counter).blk ::
          (setupLoop fuel (setupPass Z C rpi counter).skipped
            (C ++ (setupPass Z C rpi counter).blk.map BEntry.atom)
            (setupPass Z C rpi counter).rpi
            (setupPass Z C rpi counter).counter).1,
        (setupLoop fuel (setupPass Z C rpi counter).skipped
            (C ++ (setupPass Z C rpi counter).blk.map BEntry.atom)
            (setupPass Z C rpi counter).rpi
            (setupPass Z C rpi counter).counter).2) := by
  obtain ⟨e, rest, hcons⟩ := List.exists_cons_of_ne_nil hZ
  subst hcons
  rw [setupLoop, if_pos hlt]

theorem setupLoop_spec : ∀ (n : Nat) (Z : List ZEntry) (C po : List Nat)
    (rpi : Nat → Nat) (counter : Nat), Z.length ≤ n →
    counter = po.length →
    (∀ a ∈ C, a ∈ po) →
    (∀ j (hj : j < po.length), rpi (po.get ⟨j, hj⟩) = j) →
    po.Nodup →
    (Z.map ZEntry.atom).Nodup →
    (∀ e ∈ Z, e.atom ∉ po) →
    OrderOk C Z →
    (blocksAtoms (setupLoop n Z C rpi counter).1).Perm (Z.map ZEntry.atom) ∧
    (po ++ blocksAtoms (setupLoop n Z C rpi counter).1).Nodup ∧
    (∀ j (hj : j < (po ++ blocksAtoms (setupLoop n Z C rpi counter).1).length),
      (setupLoop n Z C rpi counter).2
        ((po ++ blocksAtoms (setupLoop n Z C rpi counter).1).get ⟨j, hj⟩) = j) ∧
    (∀ bi (hbi : bi < (setupLoop n Z C rpi counter).1.length),
      ∀ b ∈ (setupLoop n Z C rpi counter).1.get ⟨bi, hbi⟩, ∃ e ∈ Z,
        b.atom = e.atom ∧
        b.r1 < po.length + sizesBefore (setupLoop n Z C rpi counter).1 bi ∧
        b.r2 < po.length + sizesBefore (setupLoop n Z C rpi counter).1 bi ∧
        b.r3 < po.length + sizesBefore (setupLoop n Z C rpi counter).1 bi ∧
        (po ++ blocksAtoms (setupLoop n Z C rpi counter).1).getD b.r1 0 = e.ref1 ∧
        (po ++ blocksAtoms (setupLoop n Z C rpi counter).1).getD b.r2 0 = e.ref2 ∧
        (po ++ blocksAtoms (setupLoop n Z C rpi counter).1).getD b.r3 0 = e.ref3) := by
  intro n
  induction n with
  | zero =>
    intro Z C po rpi counter hn h1 h2 h3 h4 h5 h6 h7
    have hZ : Z = [] := List.length_eq_zero.mp (Nat.le_zero.mp hn)
    subst hZ
    rw [setupLoop_nil]
    refine ⟨by simp [blocksAtoms], ?_, ?_, ?_⟩
    · simpa [blocksAtoms] using h4
    · intro j hj
      have hj2 : j < po.length := by simpa [blocksAtoms] using hj
      have hgoal : po ++ blocksAtoms ([] : List (List BEntry)) = po := by
        simp [blocksAtoms]
      rw [List.get_of_eq hgoal]
      exact h3 j hj2
    · intro bi hbi
      simp at hbi
  | succ n ih =>
    intro Z C po rpi counter hn h1 h2 h3 h4 h5 h6 h7
    by_cases hZ : Z = []
    · subst hZ
      rw [setupLoop_nil]
      refine ⟨by simp [blocksAtoms], ?_, ?_, ?_⟩
      · simpa [blocksAtoms] using h4
      · intro j hj
        have hj2 : j < po.length := by simpa [blocksAtoms] using hj
        have hgoal : po ++ blocksAtoms ([] : List (List BEntry)) = po := by
          simp [blocksAtoms]
        rw [List.get_of_eq hgoal]
        exact h3 j hj2
      · intro bi hbi
        simp at hbi
    · -- at least one pass happens
      obtain ⟨e, rest, hcons⟩ := List.exists_cons_of_ne_nil hZ
      have hne : (setupPass Z C rpi counter).blk ≠ [] := by
        rw [hcons]
        exact pass_progress e rest C rpi counter (hcons ▸ h7)
      have hlen := setupPass_length Z C rpi counter
      have hlt : (setupPass Z C rpi counter).skipped.length < Z.length := by
        have hpos : 0 < (setupPass Z C rpi counter).blk.length :=
          List.length_pos.mpr hne
        omega
      have hps := setupPass_spec Z C rpi counter po po h1
        (by
          intro a ha
          obtain ⟨⟨j, hj⟩, hget⟩ := List.mem_iff_get.mp (h2 a ha)
          exact ⟨j, hj, hget, by rw [← hget]; exact h3 j hj⟩)
        h2 h3 h4 h5 h6
      obtain ⟨A1, A2, A3, A4, A5, A6⟩ := hps
      set r := setupPass Z C rpi counter with hr
      set blkmap := r.blk.map BEntry.atom with hblkmap
      have hbsnd : (blkmap ++ r.skipped.map ZEntry.atom).Nodup :=
        (A2.nodup_iff).mpr h5
      have hP5 : (r.skipped.map ZEntry.atom).Nodup :=
        hbsnd.of_append_right
      have hP6 : ∀ e2 ∈ r.skipped, e2.atom ∉ po ++ blkmap := by
        intro e2 he2 hmem
        rcases List.mem_append.mp hmem with hmem | hmem
        · exact h6 e2 (A5 e2 he2) hmem
        · exact (List.disjoint_of_nodup_append hbsnd) hmem
            (List.mem_map_of_mem ZEntry.atom he2)
      have hP7 : OrderOk (C ++ blkmap) r.skipped := by
        have h0 : OrderOk (C ++ []) Z := orderOk_mono (by simp) h7
        refine orderOk_mono ?_ (pass_orderok Z C [] rpi counter h0)
        intro a ha
        rw [List.append_nil] at ha
        exact ha
      have hih := ih r.skipped (C ++ blkmap) (po ++ blkmap) r.rpi r.counter
        (by omega) A1
        (by
          intro a ha
          rcases List.mem_append.mp ha with ha | ha
          · exact List.mem_append.mpr (Or.inl (h2 a ha))
          · exact List.mem_append.mpr (Or.inr ha))
        A4 A3 hP5 hP6 hP7
      obtain ⟨B1, B2, B3, B4⟩ := hih
      set rs := setupLoop n r.skipped (C ++ blkmap) r.rpi r.counter with hrs
      have heq := setupLoop_step n Z C rpi counter hZ hlt
      have heq1 : (setupLoop (n + 1) Z C rpi counter).1 = r.blk :: rs.1 := by
        rw [heq]
      have heq2 : (setupLoop (n + 1) Z C rpi counter).2 = rs.2 := by
        rw [heq]
      have hba : blocksAtoms (r.blk :: rs.1) = blkmap ++ blocksAtoms rs.1 :=
        blocksAtoms_cons r.blk rs.1
      have hassoc : po ++ (blkmap ++ blocksAtoms rs.1)
          = (po ++ blkmap) ++ blocksAtoms rs.1 := (List.append_assoc _ _ _).symm
      refine ⟨?_, ?_, ?_, ?_⟩
      · rw [heq1, hba]
        exact List.Perm.trans (B1.append_left blkmap) A2
      · rw [heq1, hba, hassoc]
        exact B2
      · intro j hj
        have hleq : po ++ blocksAtoms (setupLoop (n + 1) Z C rpi counter).1
            = (po ++ blkmap) ++ blocksAtoms rs.1 := by
          rw [heq1, hba, hassoc]
        have hj2 : j < ((po ++ blkmap) ++ blocksAtoms rs.1).length := by
          rw [← hleq]
          exact hj
        rw [heq2, List.get_of_eq hleq]
        exact B3 j hj2
      · intro bi hbi b hb
        have hleq : po ++ blocksAtoms (setupLoop (n + 1) Z C rpi counter).1
            = (po ++ blkmap) ++ blocksAtoms rs.1 := by
          rw [heq1, hba, hassoc]
        have hbi1 : bi < (r.blk :: rs.1).length := by
          rw [← heq1]
          exact hbi
        have hb1 : b ∈ (r.blk :: rs.1).get ⟨bi, hbi1⟩ := by
          have := List.get_of_eq heq1 ⟨bi, hbi⟩
          rw [← this]
          exact hb
        cases bi with
        | zero =>
          have hb0 : b ∈ r.blk := hb1
          obtain ⟨e2, he2, hba2, hrefs, hr1, hr2, hr3, hg1, hg2, hg3⟩ :=
            A6 b hb0
          have hsz : sizesBefore (setupLoop (n + 1) Z C rpi counter).1 0 = 0 :=
            sizesBefore_zero _
          have hgd : ∀ k, k < po.length →
              (po ++ blocksAtoms (setupLoop (n + 1) Z C rpi counter).1).getD k 0
                = po.getD k 0 := by
            intro k hk
            rw [hleq, List.append_assoc]
            exact List.getD_append _ _ _ _ hk
          refine ⟨e2, he2, hba2, by omega, by omega, by omega, ?_, ?_, ?_⟩
          · rw [hgd b.r1 hr1]
            exact hg1
          · rw [hgd b.r2 hr2]
            exact hg2
          · rw [hgd b.r3 hr3]
            exact hg3
        | succ bi =>
          have hbi2 : bi < rs.1.length := by simpa using hbi1
          have hb2 : b ∈ rs.1.get ⟨bi, hbi2⟩ := hb1
          obtain ⟨e2, he2, hba2, hr1, hr2, hr3, hg1, hg2, hg3⟩ :=
            B4 bi hbi2 b hb2
          have hsz : sizesBefore (setupLoop (n + 1) Z C rpi counter).1 (bi + 1)
              = r.blk.length + sizesBefore rs.1 bi := by
            rw [heq1]
            exact sizesBefore_succ _ _ _
          have hszr : ∀ k, k < rs.1.length →
              sizesBefore rs.1 k ≤ sizesBefore (setupLoop (n + 1) Z C rpi counter).1
                (k + 1) := by
            intro k _
            rw [heq1, sizesBefore_succ]
            omega
          have hlm : blkmap.length = r.blk.length := by
            rw [hblkmap, List.length_map]
          have hlep : (po ++ blkmap).length = po.length + r.blk.length := by
            rw [List.length_append, hlm]
          refine ⟨e2, A5 e2 he2, hba2, ?_, ?_, ?_, ?_, ?_, ?_⟩
          · rw [hsz]
            rw [hlep] at hr1
            omega
          · rw [hsz]
            rw [hlep] at hr2
            omega
          · rw [hsz]
            rw [hlep] at hr3
            omega
          · rw [hleq]
            exact hg1
          · rw [hleq]
            exact hg2
          · rw [hleq]
            exact hg3


theorem setupBlocks_spec (Z : List ZEntry) (C po : List Nat)
    (rpi : Nat → Nat) (counter : Nat)
    (h1 : counter = po.length)
    (h2 : ∀ a ∈ C, a ∈ po)
    (h3 : ∀ j (hj : j < po.length), rpi (po.get ⟨j, hj⟩) = j)
    (h4 : po.Nodup)
    (h5 : (Z.map ZEntry.atom).Nodup)
    (h6 : ∀ e ∈ Z, e.atom ∉ po)
    (h7 : OrderOk C Z) :
    (blocksAtoms (setupBlocks Z C rpi counter).1).Perm (Z.map ZEntry.atom) ∧
    (po ++ blocksAtoms (setupBlocks Z C rpi counter).1).Nodup ∧
    (∀ j (hj : j < (po ++ blocksAtoms (setupBlocks Z C rpi counter).1).length),
      (setupBlocks Z C rpi counter).2
        ((po ++ blocksAtoms (setupBlocks Z C rpi counter).1).get ⟨j, hj⟩) = j) ∧
    (∀ bi (hbi : bi < (setupBlocks Z C rpi counter).1.length),
      ∀ b ∈ (setupBlocks Z C rpi counter).1.get ⟨bi, hbi⟩, ∃ e ∈ Z,
        b.atom = e.atom ∧
        b.r1 < po.length + sizesBefore (setupBlocks Z C rpi counter).1 bi ∧
        b.r2 < po.length + sizesBefore (setupBlocks Z C rpi counter).1 bi ∧
        b.r3 < po.length + sizesBefore (setupBlocks Z C rpi counter).1 bi ∧
        (po ++ blocksAtoms (setupBlocks Z C rpi counter).1).getD b.r1 0 = e.ref1 ∧
        (po ++ blocksAtoms (setupBlocks Z C rpi counter).1).getD b.r2 0 = e.ref2 ∧
        (po ++ blocksAtoms (setupBlocks Z C rpi counter).1).getD b.r3 0 = e.ref3) :=
  setupLoop_spec Z.length Z C po rpi counter (le_refl _) h1 h2 h3 h4 h5 h6 h7

/-- C4: for every block produced by the scheduler `_setup_indices` at
construction (under a well-formed topology: distinct anchors, distinct
z-matrix atoms disjoint from the anchors, and references only to anchors
or previously sorted atoms), every reference index stored in a block
points strictly below the portion of the Cartesian buffer filled by the
anchors and the strictly earlier blocks — never at an atom of the same
or a later block — and the buffer position it points at holds exactly
the atom the z-matrix row references. -/
theorem block_partition_spec (Z : List ZEntry) (cartInds : List Nat)
    (hnd : cartInds.Nodup) (hznd : (Z.map ZEntry.atom).Nodup)
    (hdisj : ∀ e ∈ Z, e.atom ∉ cartInds) (hord : OrderOk cartInds Z)
    (bi : Nat) (hbi : bi < (icSetup Z cartInds).1.length)
    (b : BEntry) (hb : b ∈ (icSetup Z cartInds).1.get ⟨bi, hbi⟩) :
    ∃ e ∈ Z, b.atom = e.atom ∧
      b.r1 < cartInds.length + sizesBefore (icSetup Z cartInds).1 bi ∧
      b.r2 < cartInds.length + sizesBefore (icSetup Z cartInds).1 bi ∧
      b.r3 < cartInds.length + sizesBefore (icSetup Z cartInds).1 bi ∧
      (cartInds ++ blocksAtoms (icSetup Z cartInds).1).getD b.r1 0 = e.ref1 ∧
      (cartInds ++ blocksAtoms (icSetup Z cartInds).1).getD b.r2 0 = e.ref2 ∧
      (cartInds ++ blocksAtoms (icSetup Z cartInds).1).getD b.r3 0 = e.ref3 := by
  have h3 : ∀ j (hj : j < cartInds.length),
      initRpi cartInds (cartInds.get ⟨j, hj⟩) = j := by
    intro j hj
    have := enumIndexAux_get cartInds 0 (fun _ => 0) j hj hnd
    simpa [initRpi] using this
  have hspec := setupBlocks_spec Z cartInds cartInds (initRpi cartInds)
    cartInds.length rfl (fun a ha => ha) h3 hnd hznd hdisj hord
  exact hspec.2.2.2 bi hbi b hb

/-- Witness for C4 at a concrete two-row topology: atoms 3 and 4 are
scheduled in two blocks; the second block's references point at buffer
positions 3, 2, 1 — the anchors and the first block, never its own. -/
theorem block_partition_spec_witness :
    ∃ e ∈ ([⟨3, 2, 1, 0⟩, ⟨4, 3, 2, 1⟩] : List ZEntry),
      (⟨4, 3, 2, 1⟩ : BEntry).atom = e.atom ∧
      (⟨4, 3, 2, 1⟩ : BEntry).r1 < ([0, 1, 2] : List Nat).length
        + sizesBefore (icSetup [⟨3, 2, 1, 0⟩, ⟨4, 3, 2, 1⟩] [0, 1, 2]).1 1 ∧
      (⟨4, 3, 2, 1⟩ : BEntry).r2 < ([0, 1, 2] : List Nat).length
        + sizesBefore (icSetup [⟨3, 2, 1, 0⟩, ⟨4, 3, 2, 1⟩] [0, 1, 2]).1 1 ∧
      (⟨4, 3, 2, 1⟩ : BEntry).r3 < ([0, 1, 2] : List Nat).length
        + sizesBefore (icSetup [⟨3, 2, 1, 0⟩, ⟨4, 3, 2, 1⟩] [0, 1, 2]).1 1 ∧
      ([0, 1, 2] ++ blocksAtoms
        (icSetup [⟨3, 2, 1, 0⟩, ⟨4, 3, 2, 1⟩] [0, 1, 2]).1).getD
          (⟨4, 3, 2, 1⟩ : BEntry).r1 0 = e.ref1 ∧
      ([0, 1, 2] ++ blocksAtoms
        (icSetup [⟨3, 2, 1, 0⟩, ⟨4, 3, 2, 1⟩] [0, 1, 2]).1).getD
          (⟨4, 3, 2, 1⟩ : BEntry).r2 0 = e.ref2 ∧
      ([0, 1, 2] ++ blocksAtoms
        (icSetup [⟨3, 2, 1, 0⟩, ⟨4, 3, 2, 1⟩] [0, 1, 2]).1).getD
          (⟨4, 3, 2, 1⟩ : BEntry).r3 0 = e.ref3 := by
  exact block_partition_spec [⟨3, 2, 1, 0⟩, ⟨4, 3, 2, 1⟩] [0, 1, 2]
    (by decide) (by decide) (by decide) (by simp [OrderOk, refsIn])
    1 (by decide) ⟨4, 3, 2, 1⟩ (by decide)

/-! ### The inverse pass of InternalCoordinateTransform
(internal.py lines 192-264) and its periodic-angle penalty -/

/-- One scalar of `_periodic_angle_loss` (lines 424-440):
`where(a > π, a - π, 0)² + where(a < -π, a + π, 0)²`. -/
def angle_loss_term (a : ℝ) : ℝ :=
  (if a > π then a - π else 0) ^ 2 + (if a < -π then a + π else 0) ^ 2

/-- `_periodic_angle_loss` over one batch row: the sum over its angles. -/
def periodic_angle_loss (as : List ℝ) : ℝ := (as.map angle_loss_term).sum

/-- The bond of one atom un-normalised with its stats (lines 225-230). -/
def unnorm_bond (st : Stats) (ats : Nat → Nat) (x : Nat → ℝ) (a : Nat) : ℝ :=
  x (3 * a) * st.sb (ats a) + st.mb (ats a)

/-- The angle of one atom un-normalised with its stats (lines 234-238). -/
def unnorm_angle (st : Stats) (ats : Nat → Nat) (x : Nat → ℝ) (a : Nat) : ℝ :=
  x (3 * a + 1) * st.sa (ats a) + st.ma (ats a)

/-- The dihedral of one atom un-normalised with its stats (lines 241-245). -/
def unnorm_dih (st : Stats) (ats : Nat → Nat) (x : Nat → ℝ) (a : Nat) : ℝ :=
  x (3 * a + 2) * st.sd (ats a) + st.md (ats a)

/-- One block iteration of the loop of `inverse` (lines 218-258): the
batch of new Cartesian positions, the summed per-atom log-Jacobian, and
the block's contribution to `angle_loss` — the penalty of the
un-normalised angles plus that of the un-normalised dihedrals, both taken
before the dihedral wrap of lines 248-249. -/
def placeBlock (st : Stats) (ats : Nat → Nat) (x : Nat → ℝ)
    (cart : List Vec3) (blk : List BEntry) : List Vec3 × ℝ × ℝ :=
  ((blk.map fun b => (reconstruct_cart (cart.getD b.r1 0) (cart.getD b.r2 0)
      (cart.getD b.r3 0) (unnorm_bond st ats x b.atom)
      (unnorm_angle st ats x b.atom)
      (inv_dih_wrap (unnorm_dih st ats x b.atom))).1),
   ((blk.map fun b => (reconstruct_cart (cart.getD b.r1 0) (cart.getD b.r2 0)
      (cart.getD b.r3 0) (unnorm_bond st ats x b.atom)
      (unnorm_angle st ats x b.atom)
      (inv_dih_wrap (unnorm_dih st ats x b.atom))).2)).sum,
   periodic_angle_loss (blk.map fun b => unnorm_angle st ats x b.atom)
     + periodic_angle_loss (blk.map fun b => unnorm_dih st ats x b.atom))

/-- The loop over `rev_blocks`, threading the growing Cartesian buffer and
the two accumulators. -/
def invBlocks (st : Stats) (ats : Nat → Nat) (x : Nat → ℝ) :
    List (List BEntry) → List Vec3 → ℝ → ℝ → List Vec3 × ℝ × ℝ
  | [], cart, jac, loss => (cart, jac, loss)
  | blk :: rest, cart, jac, loss =>
    invBlocks st ats x rest (cart ++ (placeBlock st ats x cart blk).1)
      (jac + (placeBlock st ats x cart blk).2.1)
      (loss + (placeBlock st ats x cart blk).2.2)

/-- Component `r` of a 3-vector, for the final `view(n_batch, -1)`. -/
def vcomp (v : Vec3) (r : Nat) : ℝ :=
  if r = 0 then v.1 else if r = 1 then v.2.1 else v.2.2

/-- `InternalCoordinateTransform.inverse` (lines 192-264).  `prevLoss` is
whatever value the `angle_loss` attribute holds from before the call;
line 199 overwrites the attribute with zeros before the loop.  Returns
the flattened Cartesian row (the buffer permuted through `rev_perm_inv`),
the log-Jacobian `Σ cart_jac - scale_jac`, and the final `angle_loss`. -/
def ict_inverse (Z : List ZEntry) (cartInds : List Nat) (st : Stats)
    (prevLoss : ℝ) (x : Nat → ℝ) : (Nat → ℝ) × ℝ × ℝ :=
  let r := invBlocks st (atomToStats Z) x (icSetup Z cartInds).1
    (cartInds.map fun a => atomPos x a) 0 0
  (fun i => vcomp (r.1.getD ((icSetup Z cartInds).2 (i / 3)) 0) (i % 3),
   r.2.1 - ict_scale_jac st Z.length, r.2.2)

/-- The `angle_loss` contribution of one block; it reads only the
input row, never the Cartesian buffer. -/
def lossOfBlock (st : Stats) (ats : Nat → Nat) (x : Nat → ℝ)
    (blk : List BEntry) : ℝ :=
  periodic_angle_loss (blk.map fun b => unnorm_angle st ats x b.atom)
    + periodic_angle_loss (blk.map fun b => unnorm_dih st ats x b.atom)

theorem placeBlock_loss (st : Stats) (ats : Nat → Nat) (x : Nat → ℝ)
    (cart : List Vec3) (blk : List BEntry) :
    (placeBlock st ats x cart blk).2.2 = lossOfBlock st ats x blk := rfl

theorem invBlocks_loss (st : Stats) (ats : Nat → Nat) (x : Nat → ℝ) :
    ∀ (bs : List (List BEntry)) (cart : List Vec3) (jac loss : ℝ),
    (invBlocks st ats x bs cart jac loss).2.2
      = loss + ((bs.map (lossOfBlock st ats x)).sum) := by
  intro bs
  induction bs with
  | nil => intro cart jac loss; simp [invBlocks]
  | cons blk rest ih =>
    intro cart jac loss
    rw [invBlocks, ih, List.map_cons, List.sum_cons, placeBlock_loss]
    ring

theorem angle_loss_term_eq (a : ℝ) :
    angle_loss_term a = max (a - π) 0 ^ 2 + min (a + π) 0 ^ 2 := by
  have h1 : (if a > π then a - π else 0) = max (a - π) 0 := by
    rcases le_or_lt a π with h | h
    · rw [if_neg (not_lt.mpr h), max_eq_right (by linarith)]
    · rw [if_pos h, max_eq_left (by linarith)]
  have h2 : (if a < -π then a + π else 0) = min (a + π) 0 := by
    rcases lt_or_le a (-π) with h | h
    · rw [if_pos h, min_eq_left (by linarith)]
    · rw [if_neg (not_lt.mpr h), min_eq_right (by linarith)]
  rw [angle_loss_term, h1, h2]

/-- C8: the penalty accumulated by `inverse` equals the sum, over every
block and every atom of the block, of the penalty of its un-normalised
angle plus that of its un-normalised dihedral, where the pointwise
penalty is `(a-π)²` for `a > π`, `(a+π)²` for `a < -π` and `0` on
`(-π, π]`; the pointwise penalty is continuous and sends `π + ε` to `ε²`;
and the returned loss is the same whatever value `angle_loss` held from
a previous call — line 199 resets the accumulator. -/
theorem inverse_loss_spec (Z : List ZEntry) (cartInds : List Nat) (st : Stats)
    (x : Nat → ℝ) (p q : ℝ) :
    (ict_inverse Z cartInds st p x).2.2
      = (((icSetup Z cartInds).1.map (fun blk =>
          (blk.map fun b => angle_loss_term
            (unnorm_angle st (atomToStats Z) x b.atom)).sum
          + (blk.map fun b => angle_loss_term
            (unnorm_dih st (atomToStats Z) x b.atom)).sum)).sum) ∧
    (∀ a : ℝ, π < a → angle_loss_term a = (a - π) ^ 2) ∧
    (∀ a : ℝ, a < -π → angle_loss_term a = (a + π) ^ 2) ∧
    (∀ a ∈ Set.Ioc (-π) π, angle_loss_term a = 0) ∧
    Continuous angle_loss_term ∧
    (∀ ε : ℝ, 0 < ε → angle_loss_term (π + ε) = ε ^ 2) ∧
    (ict_inverse Z cartInds st p x).2.2 = (ict_inverse Z cartInds st q x).2.2 := by
  refine ⟨?_, ?_, ?_, ?_, ?_, ?_, rfl⟩
  · show (invBlocks st (atomToStats Z) x (icSetup Z cartInds).1
      (cartInds.map fun a => atomPos x a) 0 0).2.2 = _
    have hfun : lossOfBlock st (atomToStats Z) x = fun blk =>
        (blk.map fun b => angle_loss_term
          (unnorm_angle st (atomToStats Z) x b.atom)).sum
        + (blk.map fun b => angle_loss_term
          (unnorm_dih st (atomToStats Z) x b.atom)).sum := by
      funext blk
      rw [lossOfBlock, periodic_angle_loss, periodic_angle_loss,
        List.map_map, List.map_map]
      rfl
    rw [invBlocks_loss, hfun, zero_add]
  · intro a h
    have h2 : ¬ a < -π := by
      have := Real.pi_pos
      push_neg
      linarith
    rw [angle_loss_term, if_pos h, if_neg h2]
    ring
  · intro a h
    have h2 : ¬ a > π := by
      have := Real.pi_pos
      push_neg
      linarith
    rw [angle_loss_term, if_neg h2, if_pos h]
    ring
  · intro a ha
    rw [angle_loss_term, if_neg (not_lt.mpr ha.2), if_neg (not_lt.mpr ha.1.le)]
    norm_num
  · have heq : angle_loss_term
        = fun a : ℝ => max (a - π) 0 ^ 2 + min (a + π) 0 ^ 2 := by
      funext a
      exact angle_loss_term_eq a
    rw [heq]
    exact (((continuous_id.sub continuous_const).max continuous_const).pow 2).add
      (((continuous_id.add continuous_const).min continuous_const).pow 2)
  · intro ε hε
    have h1 : π + ε > π := by linarith
    have h2 : ¬ π + ε < -π := by
      have := Real.pi_pos
      push_neg
      linarith
    rw [angle_loss_term, if_pos h1, if_neg h2]
    ring

/-- Witness for C8: the pointwise penalty at `π + 1` is `1`, and with a
concrete one-atom topology the returned loss ignores the previous
accumulator value (5 vs 7). -/
theorem inverse_loss_spec_witness :
    angle_loss_term (π + 1) = 1 ^ 2 ∧
    (ict_inverse [⟨3, 2, 1, 0⟩] [0, 1, 2] ⟨fun _ => 0, fun _ => 1, fun _ => 0,
      fun _ => 1, fun _ => 0, fun _ => 1⟩ 5 (fun _ => 0)).2.2
      = (ict_inverse [⟨3, 2, 1, 0⟩] [0, 1, 2] ⟨fun _ => 0, fun _ => 1,
        fun _ => 0, fun _ => 1, fun _ => 0, fun _ => 1⟩ 7 (fun _ => 0)).2.2 := by
  refine ⟨(inverse_loss_spec [⟨3, 2, 1, 0⟩] [0, 1, 2] ⟨fun _ => 0, fun _ => 1,
      fun _ => 0, fun _ => 1, fun _ => 0, fun _ => 1⟩ (fun _ => 0)
      5 7).2.2.2.2.2.1 1 one_pos, ?_⟩
  exact (inverse_loss_spec [⟨3, 2, 1, 0⟩] [0, 1, 2] ⟨fun _ => 0, fun _ => 1,
    fun _ => 0, fun _ => 1, fun _ => 0, fun _ => 1⟩ (fun _ => 0) 5 7).2.2.2.2.2.2

/-! ### Channel-level characterisation of forward -/

theorem writeZ_channels (x0 : Nat → ℝ) : ∀ (Z : List ZEntry) (x : Nat → ℝ),
    (Z.map ZEntry.atom).Nodup → ∀ e ∈ Z,
    writeZ x0 Z x (3 * e.atom) = zbond x0 e ∧
    writeZ x0 Z x (3 * e.atom + 1) = zangle x0 e ∧
    writeZ x0 Z x (3 * e.atom + 2) = zdih x0 e := by
  intro Z
  induction Z with
  | nil =>
    intro x _ e he
    cases he
  | cons f rest ih =>
    intro x hnd e he
    simp only [List.map_cons, List.nodup_cons] at hnd
    rcases List.mem_cons.mp he with he | he
    · subst he
      have hunt : ∀ r : Nat, r < 3 → UntouchedChannel rest (3 * e.atom + r) := by
        intro r _ g hg
        have hga : g.atom ≠ e.atom := by
          intro h
          exact hnd.1 (List.mem_map.mpr ⟨g, hg, h⟩)
        refine ⟨?_, ?_, ?_⟩ <;> omega
    
      refine ⟨?_, ?_, ?_⟩
      · rw [writeZ, writeZ_untouched x0 rest _ _ (by
          have := hunt 0 (by omega)
          simpa using this),
          upd_ne _ (by omega), upd_ne _ (by omega), upd_same]
      · rw [writeZ, writeZ_untouched x0 rest _ _ (hunt 1 (by omega)),
          upd_ne _ (by omega), upd_same]
      · rw [writeZ, writeZ_untouched x0 rest _ _ (hunt 2 (by omega)), upd_same]
    · exact ih _ hnd.2 e he

theorem normalizeZAux_channels (st : Stats) : ∀ (Z : List ZEntry) (k : Nat)
    (y : Nat → ℝ), (Z.map ZEntry.atom).Nodup → ∀ j (hj : j < Z.length),
    normalizeZAux st Z k y (3 * (Z.get ⟨j, hj⟩).atom)
      = (y (3 * (Z.get ⟨j, hj⟩).atom) - st.mb (k + j)) / st.sb (k + j) ∧
    normalizeZAux st Z k y (3 * (Z.get ⟨j, hj⟩).atom + 1)
      = (y (3 * (Z.get ⟨j, hj⟩).atom + 1) - st.ma (k + j)) / st.sa (k + j) ∧
    normalizeZAux st Z k y (3 * (Z.get ⟨j, hj⟩).atom + 2)
      = fix_dih (y (3 * (Z.get ⟨j, hj⟩).atom + 2) - st.md (k + j))
        / st.sd (k + j) := by
  intro Z
  induction Z with
  | nil =>
    intro k y _ j hj
    simp at hj
  | cons f rest ih =>
    intro k y hnd j hj
    simp only [List.map_cons, List.nodup_cons] at hnd
    cases j with
    | zero =>
      have hget : (f :: rest).get ⟨0, hj⟩ = f := rfl
      have hunt : ∀ r : Nat, r < 3 → UntouchedChannel rest (3 * f.atom + r) := by
        intro r _ g hg
        have hga : g.atom ≠ f.atom := by
          intro h
          exact hnd.1 (List.mem_map.mpr ⟨g, hg, h⟩)
        refine ⟨?_, ?_, ?_⟩ <;> omega
      rw [hget]
      refine ⟨?_, ?_, ?_⟩
      · rw [normalizeZAux, normalizeZAux_untouched st rest _ _ _ (by
          have := hunt 0 (by omega)
          simpa using this),
          upd_ne _ (by omega), upd_ne _ (by omega), upd_same, Nat.add_zero]
      · rw [normalizeZAux, normalizeZAux_untouched st rest _ _ _
          (hunt 1 (by omega)), upd_ne _ (by omega), upd_same]
        norm_num
      · rw [normalizeZAux, normalizeZAux_untouched st rest _ _ _
          (hunt 2 (by omega)), upd_same]
        norm_num
    | succ j =>
      have hj2 : j < rest.length := by simpa using hj
      have hget : (f :: rest).get ⟨j + 1, hj⟩ = rest.get ⟨j, hj2⟩ := rfl
      have he : rest.get ⟨j, hj2⟩ ∈ rest := List.get_mem rest j hj2
      have hga : (rest.get ⟨j, hj2⟩).atom ≠ f.atom := by
        intro h
        exact hnd.1 (List.mem_map.mpr ⟨_, he, h⟩)
      have hih := ih (k + 1)
        (upd (upd (upd y (3 * f.atom) ((y (3 * f.atom) - st.mb k) / st.sb k))
          (3 * f.atom + 1) ((y (3 * f.atom + 1) - st.ma k) / st.sa k))
          (3 * f.atom + 2) (fix_dih (y (3 * f.atom + 2) - st.md k) / st.sd k))
        hnd.2 j hj2
      have hupd : ∀ r : Nat, r < 3 →
          (upd (upd (upd y (3 * f.atom) ((y (3 * f.atom) - st.mb k) / st.sb k))
            (3 * f.atom + 1) ((y (3 * f.atom + 1) - st.ma k) / st.sa k))
            (3 * f.atom + 2) (fix_dih (y (3 * f.atom + 2) - st.md k) / st.sd k))
            (3 * (rest.get ⟨j, hj2⟩).atom + r)
          = y (3 * (rest.get ⟨j, hj2⟩).atom + r) := by
        intro r _
        rw [upd_ne _ (by omega), upd_ne _ (by omega), upd_ne _ (by omega)]
      have hk : k + 1 + j = k + (j + 1) := by omega
      rw [hget, normalizeZAux]
      refine ⟨?_, ?_, ?_⟩
      · rw [hih.1, hk]
        congr 2
        have := hupd 0 (by omega)
        simpa using this
      · rw [hih.2.1, hk, hupd 1 (by omega)]
      · rw [hih.2.2, hk, hupd 2 (by omega)]

theorem forward_channels (Z : List ZEntry) (st : Stats) (x : Nat → ℝ)
    (hnd : (Z.map ZEntry.atom).Nodup) (j : Nat) (hj : j < Z.length) :
    (ict_forward Z st x).1 (3 * (Z.get ⟨j, hj⟩).atom)
      = (zbond x (Z.get ⟨j, hj⟩) - st.mb j) / st.sb j ∧
    (ict_forward Z st x).1 (3 * (Z.get ⟨j, hj⟩).atom + 1)
      = (zangle x (Z.get ⟨j, hj⟩) - st.ma j) / st.sa j ∧
    (ict_forward Z st x).1 (3 * (Z.get ⟨j, hj⟩).atom + 2)
      = fix_dih (zdih x (Z.get ⟨j, hj⟩) - st.md j) / st.sd j := by
  have hn := normalizeZAux_channels st Z 0 (writeZ x Z x) hnd j hj
  have hw := writeZ_channels x Z x hnd _ (List.get_mem Z j hj)
  have hout : (ict_forward Z st x).1 = normalizeZAux st Z 0 (writeZ x Z x) := rfl
  rw [hout]
  refine ⟨?_, ?_, ?_⟩
  · rw [hn.1, hw.1, Nat.zero_add]
  · rw [hn.2.1, hw.2.1, Nat.zero_add]
  · rw [hn.2.2, hw.2.2, Nat.zero_add]

theorem atomToStats_get (Z : List ZEntry) (hnd : (Z.map ZEntry.atom).Nodup)
    (j : Nat) (hj : j < Z.length) :
    atomToStats Z (Z.get ⟨j, hj⟩).atom = j := by
  have hj2 : j < (Z.map ZEntry.atom).length := by simpa using hj
  have hget : (Z.map ZEntry.atom).get ⟨j, hj2⟩ = (Z.get ⟨j, hj⟩).atom := by
    simp [List.get_map]
  have h := enumIndexAux_get (Z.map ZEntry.atom) 0 (fun _ => 0) j hj2 hnd
  rw [hget] at h
  simpa [atomToStats] using h

theorem unnorm_of_forward (Z : List ZEntry) (st : Stats) (x : Nat → ℝ)
    (hnd : (Z.map ZEntry.atom).Nodup) (j : Nat) (hj : j < Z.length)
    (hsb : st.sb j ≠ 0) (hsa : st.sa j ≠ 0) (hsd : st.sd j ≠ 0) :
    unnorm_bond st (atomToStats Z) (ict_forward Z st x).1 (Z.get ⟨j, hj⟩).atom
      = zbond x (Z.get ⟨j, hj⟩) ∧
    unnorm_angle st (atomToStats Z) (ict_forward Z st x).1 (Z.get ⟨j, hj⟩).atom
      = zangle x (Z.get ⟨j, hj⟩) ∧
    unnorm_dih st (atomToStats Z) (ict_forward Z st x).1 (Z.get ⟨j, hj⟩).atom
      = fix_dih (zdih x (Z.get ⟨j, hj⟩) - st.md j) + st.md j := by
  have hc := forward_channels Z st x hnd j hj
  have hats := atomToStats_get Z hnd j hj
  refine ⟨?_, ?_, ?_⟩
  · rw [unnorm_bond, hats, hc.1, div_mul_cancel₀ _ hsb, sub_add_cancel]
  · rw [unnorm_angle, hats, hc.2.1, div_mul_cancel₀ _ hsa, sub_add_cancel]
  · rw [unnorm_dih, hats, hc.2.2, div_mul_cancel₀ _ hsd]

/-! ### The scheduler invariant at construction time -/

theorem icSetup_spec (Z : List ZEntry) (cartInds : List Nat)
    (hnd : cartInds.Nodup) (hznd : (Z.map ZEntry.atom).Nodup)
    (hdisj : ∀ e ∈ Z, e.atom ∉ cartInds) (hord : OrderOk cartInds Z) :
    (blocksAtoms (icSetup Z cartInds).1).Perm (Z.map ZEntry.atom) ∧
    (cartInds ++ blocksAtoms (icSetup Z cartInds).1).Nodup ∧
    (∀ j (hj : j < (cartInds ++ blocksAtoms (icSetup Z cartInds).1).length),
      (icSetup Z cartInds).2
        ((cartInds ++ blocksAtoms (icSetup Z cartInds).1).get ⟨j, hj⟩) = j) ∧
    (∀ bi (hbi : bi < (icSetup Z cartInds).1.length),
      ∀ b ∈ (icSetup Z cartInds).1.get ⟨bi, hbi⟩, ∃ e ∈ Z,
        b.atom = e.atom ∧
        b.r1 < cartInds.length + sizesBefore (icSetup Z cartInds).1 bi ∧
        b.r2 < cartInds.length + sizesBefore (icSetup Z cartInds).1 bi ∧
        b.r3 < cartInds.length + sizesBefore (icSetup Z cartInds).1 bi ∧
        (cartInds ++ blocksAtoms (icSetup Z cartInds).1).getD b.r1 0 = e.ref1 ∧
        (cartInds ++ blocksAtoms (icSetup Z cartInds).1).getD b.r2 0 = e.ref2 ∧
        (cartInds ++ blocksAtoms (icSetup Z cartInds).1).getD b.r3 0 = e.ref3) := by
  have h3 : ∀ j (hj : j < cartInds.length),
      initRpi cartInds (cartInds.get ⟨j, hj⟩) = j := by
    intro j hj
    have := enumIndexAux_get cartInds 0 (fun _ => 0) j hj hnd
    simpa [initRpi] using this
  exact setupBlocks_spec Z cartInds cartInds (initRpi cartInds)
    cartInds.length rfl (fun a ha => ha) h3 hnd hznd hdisj hord

/-! ### The Jacobian accumulated by inverse -/

/-- The per-atom log-Jacobian contribution read off the input row. -/
def jacOfAtom (st : Stats) (ats : Nat → Nat) (y : Nat → ℝ) (a : Nat) : ℝ :=
  2 * Real.log |unnorm_bond st ats y a|
    + Real.log |Real.sin (unnorm_angle st ats y a)|

theorem placeBlock_jac (st : Stats) (ats : Nat → Nat) (y : Nat → ℝ)
    (cart : List Vec3) (blk : List BEntry) :
    (placeBlock st ats y cart blk).2.1
      = (blk.map fun b => jacOfAtom st ats y b.atom).sum := rfl

theorem invBlocks_jac (st : Stats) (ats : Nat → Nat) (y : Nat → ℝ) :
    ∀ (bs : List (List BEntry)) (cart : List Vec3) (jac loss : ℝ),
    (invBlocks st ats y bs cart jac loss).2.1
      = jac + ((bs.map fun blk =>
          (blk.map fun b => jacOfAtom st ats y b.atom).sum).sum) := by
  intro bs
  induction bs with
  | nil => intro cart jac loss; simp [invBlocks]
  | cons blk rest ih =>
    intro cart jac loss
    rw [invBlocks, ih, List.map_cons, List.sum_cons, placeBlock_jac]
    ring

theorem sum_over_blocks (f : Nat → ℝ) : ∀ (bs : List (List BEntry)),
    ((bs.map fun blk => (blk.map fun b => f b.atom).sum).sum)
      = ((blocksAtoms bs).map f).sum := by
  intro bs
  induction bs with
  | nil => simp [blocksAtoms]
  | cons blk rest ih =>
    rw [List.map_cons, List.sum_cons, blocksAtoms_cons, List.map_append,
      List.sum_append, ih, List.map_map]
    rfl

/-- Along a genuine round trip the per-atom contributions read back from
the forward output are the measured ones of the input row. -/
theorem jacOfAtom_of_forward (Z : List ZEntry) (st : Stats) (x : Nat → ℝ)
    (hznd : (Z.map ZEntry.atom).Nodup)
    (hsb : ∀ k, k < Z.length → st.sb k ≠ 0)
    (hsa : ∀ k, k < Z.length → st.sa k ≠ 0)
    (hsd : ∀ k, k < Z.length → st.sd k ≠ 0) :
    ∀ e ∈ Z, jacOfAtom st (atomToStats Z) (ict_forward Z st x).1 e.atom
      = 2 * Real.log (zbond x e) + Real.log |Real.sin (zangle x e)| := by
  intro e he
  obtain ⟨⟨j, hj⟩, hget⟩ := List.mem_iff_get.mp he
  have hu := unnorm_of_forward Z st x hznd j hj (hsb j hj) (hsa j hj) (hsd j hj)
  rw [hget] at hu
  rw [jacOfAtom, hu.1, hu.2.1, Real.log_abs]

/-- Core of the corrected Jacobian consistency: the two returned log-det
Jacobians sum to zero — the raw terms cancel and the scale term, added by
forward and subtracted by inverse, cancels as well. -/
theorem jac_roundtrip_core (Z : List ZEntry) (cartInds : List Nat) (st : Stats)
    (p : ℝ) (x : Nat → ℝ)
    (hnd : cartInds.Nodup) (hznd : (Z.map ZEntry.atom).Nodup)
    (hdisj : ∀ e ∈ Z, e.atom ∉ cartInds) (hord : OrderOk cartInds Z)
    (hsb : ∀ k, k < Z.length → st.sb k ≠ 0)
    (hsa : ∀ k, k < Z.length → st.sa k ≠ 0)
    (hsd : ∀ k, k < Z.length → st.sd k ≠ 0) :
    (ict_forward Z st x).2
      + (ict_inverse Z cartInds st p (ict_forward Z st x).1).2.1 = 0 := by
  have hspec := icSetup_spec Z cartInds hnd hznd hdisj hord
  have hinv : (ict_inverse Z cartInds st p (ict_forward Z st x).1).2.1
      = (invBlocks st (atomToStats Z) (ict_forward Z st x).1
          (icSetup Z cartInds).1
          (cartInds.map fun a => atomPos (ict_forward Z st x).1 a) 0 0).2.1
        - ict_scale_jac st Z.length := rfl
  rw [hinv, invBlocks_jac, sum_over_blocks, zero_add]
  have hperm : ((blocksAtoms (icSetup Z cartInds).1).map
        (jacOfAtom st (atomToStats Z) (ict_forward Z st x).1)).sum
      = ((Z.map ZEntry.atom).map
        (jacOfAtom st (atomToStats Z) (ict_forward Z st x).1)).sum :=
    (hspec.1.map _).sum_eq
  have hmm : ((Z.map ZEntry.atom).map
        (jacOfAtom st (atomToStats Z) (ict_forward Z st x).1)).sum
      = (Z.map fun e => 2 * Real.log (zbond x e)
          + Real.log |Real.sin (zangle x e)|).sum := by
    rw [List.map_map]
    refine congrArg List.sum (List.map_congr_left ?_)
    intro e he
    exact jacOfAtom_of_forward Z st x hznd hsb hsa hsd e he
  have hfwd : (ict_forward Z st x).2
      = -((Z.map fun e => 2 * Real.log (zbond x e)
          + Real.log |Real.sin (zangle x e)|).sum)
        + ict_scale_jac st Z.length := rfl
  rw [hfwd, hperm, hmm]
  ring

/-! ### The concrete four-atom example system: anchors 0,1,2 at
(-1,-1,0), (-1,0,0), (0,0,0), one z-matrix row (3,(2,1,0)), statistics
as fitted from the single Cartesian sample (bond 1, angle π/2,
circular-mean dihedral π, default stds 0.005, 0.15, 0.2). -/

def stEx : Stats :=
  ⟨fun _ => 1, fun _ => 1 / 200, fun _ => π / 2, fun _ => 3 / 20,
    fun _ => π, fun _ => 1 / 5⟩

/-- The Cartesian sample row: atom 3 at (0,1,0). -/
def xEx : Nat → ℝ :=
  fun i => [(-1 : ℝ), -1, 0, -1, 0, 0, 0, 0, 0, 0, 1, 0].getD i 0

theorem scale_jac_stEx_ne : ict_scale_jac stEx 1 ≠ 0 := by
  have h1 : Real.log (1 / 200) < 0 := Real.log_neg (by norm_num) (by norm_num)
  have h2 : Real.log (3 / 20) < 0 := Real.log_neg (by norm_num) (by norm_num)
  have h3 : Real.log (1 / 5) < 0 := Real.log_neg (by norm_num) (by norm_num)
  have hs : ict_scale_jac stEx 1
      = -(Real.log (1 / 200) + Real.log (3 / 20) + Real.log (1 / 5)) := by
    simp [ict_scale_jac, stEx, List.range_succ]
  rw [hs]
  intro h
  rw [neg_eq_zero] at h
  linarith

/-- C2 counterexample: on the valid four-atom sample the two returned
log-det Jacobians sum to `0`, while the normalisation scale term of the
constructed statistics is not `0` — so their sum does not equal the
scale term. -/
theorem jac_scale_counterexample :
    ¬ ((ict_forward [⟨3, 2, 1, 0⟩] stEx xEx).2
      + (ict_inverse [⟨3, 2, 1, 0⟩] [0, 1, 2] stEx 0
          (ict_forward [⟨3, 2, 1, 0⟩] stEx xEx).1).2.1
      = ict_scale_jac stEx ([⟨3, 2, 1, 0⟩] : List ZEntry).length) := by
  have h0 := jac_roundtrip_core [⟨3, 2, 1, 0⟩] [0, 1, 2] stEx 0 xEx
    (by decide) (by decide) (by decide) (by simp [OrderOk, refsIn])
    (by intro k _; show (1 : ℝ) / 200 ≠ 0; norm_num)
    (by intro k _; show (3 : ℝ) / 20 ≠ 0; norm_num)
    (by intro k _; show (1 : ℝ) / 5 ≠ 0; norm_num)
  intro h
  rw [h0] at h
  exact scale_jac_stEx_ne h.symm

/-- C2 (amended): for every Cartesian row, the log-det Jacobian returned
by `forward` plus the one returned by `inverse` at `forward`'s output is
exactly `0`: the raw bond/angle terms cancel with opposite signs, and the
scale term — added by `forward` and subtracted by `inverse` — cancels as
well, so the sum equals the scale term only when that term vanishes. -/
theorem jacobian_consistency_spec (Z : List ZEntry) (cartInds : List Nat)
    (st : Stats) (p : ℝ) (x : Nat → ℝ)
    (hnd : cartInds.Nodup) (hznd : (Z.map ZEntry.atom).Nodup)
    (hdisj : ∀ e ∈ Z, e.atom ∉ cartInds) (hord : OrderOk cartInds Z)
    (hsb : ∀ k, k < Z.length → st.sb k ≠ 0)
    (hsa : ∀ k, k < Z.length → st.sa k ≠ 0)
    (hsd : ∀ k, k < Z.length → st.sd k ≠ 0) :
    (ict_forward Z st x).2
      + (ict_inverse Z cartInds st p (ict_forward Z st x).1).2.1 = 0 ∧
    (ict_forward Z st x).2 = (fwd_raw Z x).2 + ict_scale_jac st Z.length ∧
    (∀ y : Nat → ℝ, (ict_inverse Z cartInds st p y).2.1
      = (invBlocks st (atomToStats Z) y (icSetup Z cartInds).1
          (cartInds.map fun a => atomPos y a) 0 0).2.1
        - ict_scale_jac st Z.length) :=
  ⟨jac_roundtrip_core Z cartInds st p x hnd hznd hdisj hord hsb hsa hsd,
    rfl, fun _ => rfl⟩

/-- Witness for C2 at the concrete four-atom system. -/
theorem jacobian_consistency_spec_witness :
    (ict_forward [⟨3, 2, 1, 0⟩] stEx xEx).2
      + (ict_inverse [⟨3, 2, 1, 0⟩] [0, 1, 2] stEx 0
          (ict_forward [⟨3, 2, 1, 0⟩] stEx xEx).1).2.1 = 0 :=
  (jacobian_consistency_spec [⟨3, 2, 1, 0⟩] [0, 1, 2] stEx 0 xEx
    (by decide) (by decide) (by decide) (by simp [OrderOk, refsIn])
    (by intro k _; show (1 : ℝ) / 200 ≠ 0; norm_num)
    (by intro k _; show (3 : ℝ) / 20 ≠ 0; norm_num)
    (by intro k _; show (1 : ℝ) / 5 ≠ 0; norm_num)).1

/-! ### The inverse rebuilds the original positions (direction a) -/

theorem getD_map_pos (x : Nat → ℝ) (own : List Nat) (k : Nat)
    (hk : k < own.length) :
    (own.map fun a => atomPos x a).getD k 0 = atomPos x (own.getD k 0) := by
  rw [List.getD_eq_getElem _ _ (by simpa using hk),
    List.getD_eq_getElem _ _ hk, List.getElem_map]

theorem invBlocks_positions (st : Stats) (ats : Nat → Nat) (y x : Nat → ℝ) :
    ∀ (bs : List (List BEntry)) (own : List Nat) (jac loss : ℝ),
    (∀ bi (hbi : bi < bs.length), ∀ b ∈ bs.get ⟨bi, hbi⟩,
      b.r1 < own.length + sizesBefore bs bi ∧
      b.r2 < own.length + sizesBefore bs bi ∧
      b.r3 < own.length + sizesBefore bs bi ∧
      (reconstruct_cart (atomPos x ((own ++ blocksAtoms bs).getD b.r1 0))
        (atomPos x ((own ++ blocksAtoms bs).getD b.r2 0))
        (atomPos x ((own ++ blocksAtoms bs).getD b.r3 0))
        (unnorm_bond st ats y b.atom) (unnorm_angle st ats y b.atom)
        (inv_dih_wrap (unnorm_dih st ats y b.atom))).1 = atomPos x b.atom) →
    (invBlocks st ats y bs (own.map fun a => atomPos x a) jac loss).1
      = (own ++ blocksAtoms bs).map fun a => atomPos x a := by
  intro bs
  induction bs with
  | nil =>
    intro own jac loss _
    simp [invBlocks, blocksAtoms]
  | cons blk rest ih =>
    intro own jac loss H
    have hplace : (placeBlock st ats y (own.map fun a => atomPos x a) blk).1
        = blk.map fun b => atomPos x b.atom := by
      have hproj : (placeBlock st ats y (own.map fun a => atomPos x a) blk).1
          = blk.map (fun b => (reconstruct_cart
              ((own.map fun a => atomPos x a).getD b.r1 0)
              ((own.map fun a => atomPos x a).getD b.r2 0)
              ((own.map fun a => atomPos x a).getD b.r3 0)
              (unnorm_bond st ats y b.atom) (unnorm_angle st ats y b.atom)
              (inv_dih_wrap (unnorm_dih st ats y b.atom))).1) := rfl
      rw [hproj]
      refine List.map_congr_left ?_
      intro b hb
      obtain ⟨h1, h2, h3, hrec⟩ := H 0 (by simp) b hb
      rw [sizesBefore_zero, Nat.add_zero] at h1 h2 h3
      have e1 : (own.map fun a => atomPos x a).getD b.r1 0
          = atomPos x ((own ++ blocksAtoms (blk :: rest)).getD b.r1 0) := by
        rw [getD_map_pos x own b.r1 h1, List.getD_append _ _ _ _ h1]
      have e2 : (own.map fun a => atomPos x a).getD b.r2 0
          = atomPos x ((own ++ blocksAtoms (blk :: rest)).getD b.r2 0) := by
        rw [getD_map_pos x own b.r2 h2, List.getD_append _ _ _ _ h2]
      have e3 : (own.map fun a => atomPos x a).getD b.r3 0
          = atomPos x ((own ++ blocksAtoms (blk :: rest)).getD b.r3 0) := by
        rw [getD_map_pos x own b.r3 h3, List.getD_append _ _ _ _ h3]
      rw [e1, e2, e3]
      exact hrec
    have hcart : (own.map fun a => atomPos x a)
          ++ (blk.map fun b => atomPos x b.atom)
        = (own ++ blk.map BEntry.atom).map fun a => atomPos x a := by
      rw [List.map_append, List.map_map]
      rfl
    have hlist : own ++ blocksAtoms (blk :: rest)
        = (own ++ blk.map BEntry.atom) ++ blocksAtoms rest := by
      rw [blocksAtoms_cons, List.append_assoc]
    have hH : ∀ bi (hbi : bi < rest.length), ∀ b ∈ rest.get ⟨bi, hbi⟩,
        b.r1 < (own ++ blk.map BEntry.atom).length + sizesBefore rest bi ∧
        b.r2 < (own ++ blk.map BEntry.atom).length + sizesBefore rest bi ∧
        b.r3 < (own ++ blk.map BEntry.atom).length + sizesBefore rest bi ∧
        (reconstruct_cart
          (atomPos x (((own ++ blk.map BEntry.atom)
            ++ blocksAtoms rest).getD b.r1 0))
          (atomPos x (((own ++ blk.map BEntry.atom)
            ++ blocksAtoms rest).getD b.r2 0))
          (atomPos x (((own ++ blk.map BEntry.atom)
            ++ blocksAtoms rest).getD b.r3 0))
          (unnorm_bond st ats y b.atom) (unnorm_angle st ats y b.atom)
          (inv_dih_wrap (unnorm_dih st ats y b.atom))).1
          = atomPos x b.atom := by
      intro bi hbi b hb
      have hbi1 : bi + 1 < (blk :: rest).length := by simpa using hbi
      obtain ⟨h1, h2, h3, hrec⟩ := H (bi + 1) hbi1 b hb
      rw [sizesBefore_succ] at h1 h2 h3
      have hlen : (own ++ blk.map BEntry.atom).length
          = own.length + blk.length := by
        rw [List.length_append, List.length_map]
      rw [← hlist]
      refine ⟨by omega, by omega, by omega, hrec⟩
    rw [invBlocks, hplace, hcart, ih (own ++ blk.map BEntry.atom) _ _ hH,
      hlist]

theorem forward_atom_unchanged (Z : List ZEntry) (st : Stats) (x : Nat → ℝ)
    (a : Nat) (ha : a ∉ Z.map ZEntry.atom) :
    atomPos (ict_forward Z st x).1 a = atomPos x a := by
  have hmain : ∀ i, UntouchedChannel Z i → (ict_forward Z st x).1 i = x i := by
    intro i hi
    show normalizeZAux st Z 0 (writeZ x Z x) i = x i
    rw [normalizeZAux_untouched st Z 0 _ i hi, writeZ_untouched x Z x i hi]
  have hch : ∀ r : Nat, r < 3 → UntouchedChannel Z (3 * a + r) := by
    intro r _ e he
    have hne : a ≠ e.atom := by
      intro h
      exact ha (List.mem_map.mpr ⟨e, he, h.symm⟩)
    refine ⟨?_, ?_, ?_⟩ <;> omega
  have h0 := hmain (3 * a) (by
    have := hch 0 (by omega)
    simpa using this)
  have h1 := hmain (3 * a + 1) (hch 1 (by omega))
  have h2 := hmain (3 * a + 2) (hch 2 (by omega))
  rw [atomPos, atomPos, h0, h1, h2]

/-- Direction (a) of the round trip: `inverse` applied to the output of
`forward` restores every coordinate channel of every anchor and z-matrix
atom. -/
theorem inverse_of_forward_channels (Z : List ZEntry) (cartInds : List Nat)
    (st : Stats) (p : ℝ) (x : Nat → ℝ)
    (hnd : cartInds.Nodup) (hznd : (Z.map ZEntry.atom).Nodup)
    (hdisj : ∀ e ∈ Z, e.atom ∉ cartInds) (hord : OrderOk cartInds Z)
    (hsb : ∀ k, k < Z.length → st.sb k ≠ 0)
    (hsa : ∀ k, k < Z.length → st.sa k ≠ 0)
    (hsd : ∀ k, k < Z.length → st.sd k ≠ 0)
    (hgeo : ∀ e ∈ Z,
      atomPos x e.ref1 - atomPos x e.ref2 ≠ 0 ∧
      cross (atomPos x e.ref1 - atomPos x e.ref2)
        (atomPos x e.ref1 - atomPos x e.ref3) ≠ 0 ∧
      (atomPos x e.atom - atomPos x e.ref1)
        - dot (atomPos x e.atom - atomPos x e.ref1)
            (uhat (atomPos x e.ref1) (atomPos x e.ref2))
          • uhat (atomPos x e.ref1) (atomPos x e.ref2) ≠ 0) :
    ∀ a, (a ∈ cartInds ∨ a ∈ Z.map ZEntry.atom) → ∀ r, r < 3 →
      (ict_inverse Z cartInds st p (ict_forward Z st x).1).1 (3 * a + r)
        = x (3 * a + r) := by
  have hspec := icSetup_spec Z cartInds hnd hznd hdisj hord
  have hanch : (cartInds.map fun a => atomPos (ict_forward Z st x).1 a)
      = cartInds.map fun a => atomPos x a := by
    refine List.map_congr_left ?_
    intro a ha
    refine forward_atom_unchanged Z st x a ?_
    intro hmem
    obtain ⟨e, he, heq⟩ := List.mem_map.mp hmem
    exact hdisj e he (heq ▸ ha)
  -- the reconstruction hypothesis for every block entry
  have hH : ∀ bi (hbi : bi < (icSetup Z cartInds).1.length),
      ∀ b ∈ (icSetup Z cartInds).1.get ⟨bi, hbi⟩,
      b.r1 < cartInds.length + sizesBefore (icSetup Z cartInds).1 bi ∧
      b.r2 < cartInds.length + sizesBefore (icSetup Z cartInds).1 bi ∧
      b.r3 < cartInds.length + sizesBefore (icSetup Z cartInds).1 bi ∧
      (reconstruct_cart
        (atomPos x ((cartInds ++ blocksAtoms (icSetup Z cartInds).1).getD
          b.r1 0))
        (atomPos x ((cartInds ++ blocksAtoms (icSetup Z cartInds).1).getD
          b.r2 0))
        (atomPos x ((cartInds ++ blocksAtoms (icSetup Z cartInds).1).getD
          b.r3 0))
        (unnorm_bond st (atomToStats Z) (ict_forward Z st x).1 b.atom)
        (unnorm_angle st (atomToStats Z) (ict_forward Z st x).1 b.atom)
        (inv_dih_wrap (unnorm_dih st (atomToStats Z) (ict_forward Z st x).1
          b.atom))).1
        = atomPos x b.atom := by
    intro bi hbi b hb
    obtain ⟨e, he, hba, h1, h2, h3, hg1, hg2, hg3⟩ := hspec.2.2.2 bi hbi b hb
    refine ⟨h1, h2, h3, ?_⟩
    rw [hg1, hg2, hg3, hba]
    obtain ⟨⟨j, hj⟩, hget⟩ := List.mem_iff_get.mp he
    have hun := unnorm_of_forward Z st x hznd j hj (hsb j hj) (hsa j hj)
      (hsd j hj)
    rw [hget] at hun
    rw [hun.1, hun.2.1, hun.2.2]
    obtain ⟨hu, hn, hq⟩ := hgeo e he
    -- the wrapped dihedral differs from the measured one by a whole number
    -- of turns
    obtain ⟨k1, hk1⟩ := fix_dih_sub_self (zdih x e - st.md j)
    obtain ⟨k2, hk2⟩ :=
      inv_dih_wrap_sub_self (fix_dih (zdih x e - st.md j) + st.md j)
    have hshift : inv_dih_wrap (fix_dih (zdih x e - st.md j) + st.md j)
        = zdih x e + (k1 + k2) * (2 * π) := by
      push_cast
      linarith
    rw [hshift]
    have hsh := reconstruct_dih_shift (atomPos x e.ref1) (atomPos x e.ref2)
      (atomPos x e.ref3) (zbond x e) (zangle x e) (zdih x e) (k1 + k2)
    push_cast at hsh
    rw [hsh]
    exact reconstruct_of_measure hu hn hq
  -- the final buffer holds the original positions
  have hbuf := invBlocks_positions st (atomToStats Z) (ict_forward Z st x).1 x
    (icSetup Z cartInds).1 cartInds 0 0 hH
  intro a hmem r hr
  have hmemF : a ∈ cartInds ++ blocksAtoms (icSetup Z cartInds).1 := by
    rcases hmem with hmem | hmem
    · exact List.mem_append.mpr (Or.inl hmem)
    · exact List.mem_append.mpr (Or.inr (hspec.1.mem_iff.mpr hmem))
  obtain ⟨⟨jp, hjp⟩, hgetp⟩ := List.mem_iff_get.mp hmemF
  have hrpi : (icSetup Z cartInds).2 a = jp := by
    rw [← hgetp]
    exact hspec.2.2.1 jp hjp
  have hout : (ict_inverse Z cartInds st p (ict_forward Z st x).1).1 (3 * a + r)
      = vcomp (((invBlocks st (atomToStats Z) (ict_forward Z st x).1
          (icSetup Z cartInds).1
          (cartInds.map fun a => atomPos (ict_forward Z st x).1 a) 0 0).1).getD
          ((icSetup Z cartInds).2 ((3 * a + r) / 3)) 0) ((3 * a + r) % 3) := rfl
  have hdiv : (3 * a + r) / 3 = a := by omega
  have hmod : (3 * a + r) % 3 = r := by omega
  rw [hout, hdiv, hmod, hrpi, hanch, hbuf,
    getD_map_pos x _ jp (by simpa using hjp),
    getD_get_eq _ jp hjp, hgetp]
  interval_cases r
  · rfl
  · rfl
  · rfl

/-! ### The buffer built by inverse, entry by entry (direction b) -/

theorem vcomp_triple (v : Vec3) : (vcomp v 0, vcomp v 1, vcomp v 2) = v := by
  obtain ⟨a, b, c⟩ := v
  simp [vcomp]

theorem invBlocks_prefix (st : Stats) (ats : Nat → Nat) (y : Nat → ℝ) :
    ∀ (bs : List (List BEntry)) (cart : List Vec3) (jac loss : ℝ),
    ∃ tl, (invBlocks st ats y bs cart jac loss).1 = cart ++ tl := by
  intro bs
  induction bs with
  | nil =>
    intro cart jac loss
    exact ⟨[], by simp [invBlocks]⟩
  | cons blk rest ih =>
    intro cart jac loss
    obtain ⟨tl, htl⟩ := ih (cart ++ (placeBlock st ats y cart blk).1)
      (jac + (placeBlock st ats y cart blk).2.1)
      (loss + (placeBlock st ats y cart blk).2.2)
    exact ⟨(placeBlock st ats y cart blk).1 ++ tl,
      by rw [invBlocks, htl, List.append_assoc]⟩

theorem blocksAtoms_index : ∀ (bs : List (List BEntry)) (jb : Nat),
    jb < (blocksAtoms bs).length →
    ∃ bi ki, bi < bs.length ∧ ki < (bs.getD bi []).length ∧
      jb = sizesBefore bs bi + ki := by
  intro bs
  induction bs with
  | nil =>
    intro jb hjb
    simp [blocksAtoms] at hjb
  | cons blk rest ih =>
    intro jb hjb
    rw [blocksAtoms_cons, List.length_append, List.length_map] at hjb
    by_cases hlt : jb < blk.length
    · exact ⟨0, jb, by simp, hlt, by rw [sizesBefore_zero, Nat.zero_add]⟩
    · obtain ⟨bi, ki, hbi, hki, hdec⟩ := ih (jb - blk.length) (by omega)
      refine ⟨bi + 1, ki, by simpa using hbi, hki, ?_⟩
      rw [sizesBefore_succ]
      have hgd : (blk :: rest).getD (bi + 1) [] = rest.getD bi [] := rfl
      omega

theorem blocksAtoms_getD : ∀ (bs : List (List BEntry)) (bi ki : Nat),
    bi < bs.length → ki < (bs.getD bi []).length →
    sizesBefore bs bi + ki < (blocksAtoms bs).length ∧
    (blocksAtoms bs).getD (sizesBefore bs bi + ki) 0
      = ((bs.getD bi []).getD ki ⟨0, 0, 0, 0⟩).atom := by
  intro bs
  induction bs with
  | nil =>
    intro bi ki hbi
    simp at hbi
  | cons blk rest ih =>
    intro bi ki hbi hki
    cases bi with
    | zero =>
      have hget : (blk :: rest).getD 0 [] = blk := rfl
      rw [hget] at hki ⊢
      have hidx : sizesBefore (blk :: rest) 0 + ki = ki := by
        rw [sizesBefore_zero, Nat.zero_add]
      have hkm : ki < (blk.map BEntry.atom).length := by
        rw [List.length_map]
        exact hki
      constructor
      · rw [hidx, blocksAtoms_cons, List.length_append]
        omega
      · rw [hidx, blocksAtoms_cons, List.getD_append _ _ _ _ hkm,
          List.getD_eq_getElem _ _ hkm, List.getElem_map,
          List.getD_eq_getElem _ _ hki]
    | succ bi =>
      have hbi2 : bi < rest.length := by simpa using hbi
      have hget : (blk :: rest).getD (bi + 1) [] = rest.getD bi [] := rfl
      rw [hget] at hki ⊢
      obtain ⟨hlen, hgd⟩ := ih bi ki hbi2 hki
      have hidx : sizesBefore (blk :: rest) (bi + 1) + ki
          = (blk.map BEntry.atom).length + (sizesBefore rest bi + ki) := by
        rw [sizesBefore_succ, List.length_map]
        omega
      constructor
      · rw [hidx, blocksAtoms_cons, List.length_append]
        omega
      · rw [hidx, blocksAtoms_cons,
          List.getD_append_right _ _ _ _ (by omega), Nat.add_sub_cancel_left,
          hgd]

theorem invBlocks_getD (st : Stats) (ats : Nat → Nat) (y : Nat → ℝ) :
    ∀ (bs : List (List BEntry)) (cart : List Vec3) (jac loss : ℝ),
    (∀ bi, bi < bs.length → ∀ b ∈ bs.getD bi [],
      b.r1 < cart.length + sizesBefore bs bi ∧
      b.r2 < cart.length + sizesBefore bs bi ∧
      b.r3 < cart.length + sizesBefore bs bi) →
    ∀ bi ki, bi < bs.length → ki < (bs.getD bi []).length →
    (invBlocks st ats y bs cart jac loss).1.getD
        (cart.length + (sizesBefore bs bi + ki)) 0
      = (reconstruct_cart
          ((invBlocks st ats y bs cart jac loss).1.getD
            ((bs.getD bi []).getD ki ⟨0, 0, 0, 0⟩).r1 0)
          ((invBlocks st ats y bs cart jac loss).1.getD
            ((bs.getD bi []).getD ki ⟨0, 0, 0, 0⟩).r2 0)
          ((invBlocks st ats y bs cart jac loss).1.getD
            ((bs.getD bi []).getD ki ⟨0, 0, 0, 0⟩).r3 0)
          (unnorm_bond st ats y ((bs.getD bi []).getD ki ⟨0, 0, 0, 0⟩).atom)
          (unnorm_angle st ats y ((bs.getD bi []).getD ki ⟨0, 0, 0, 0⟩).atom)
          (inv_dih_wrap (unnorm_dih st ats y
            ((bs.getD bi []).getD ki ⟨0, 0, 0, 0⟩).atom))).1 := by
  intro bs
  induction bs with
  | nil =>
    intro cart jac loss _ bi ki hbi
    simp at hbi
  | cons blk rest ih =>
    intro cart jac loss Hb bi ki hbi hki
    have hF : invBlocks st ats y (blk :: rest) cart jac loss
        = invBlocks st ats y rest (cart ++ (placeBlock st ats y cart blk).1)
          (jac + (placeBlock st ats y cart blk).2.1)
          (loss + (placeBlock st ats y cart blk).2.2) := by
      rw [invBlocks]
    obtain ⟨tl, htl⟩ := invBlocks_prefix st ats y rest
      (cart ++ (placeBlock st ats y cart blk).1)
      (jac + (placeBlock st ats y cart blk).2.1)
      (loss + (placeBlock st ats y cart blk).2.2)
    have hplen : (placeBlock st ats y cart blk).1.length = blk.length := by
      show (blk.map _).length = blk.length
      rw [List.length_map]
    cases bi with
    | zero =>
      have hget : (blk :: rest).getD 0 [] = blk := rfl
      rw [hget] at hki ⊢
      rw [hF]
      set b := blk.getD ki ⟨0, 0, 0, 0⟩ with hb
      have hbmem : b ∈ blk := by
        rw [hb, List.getD_eq_getElem _ _ hki]
        exact List.getElem_mem hki
      obtain ⟨h1, h2, h3⟩ := Hb 0 hbi b (by rw [hget]; exact hbmem)
      rw [sizesBefore_zero, Nat.add_zero] at h1 h2 h3
      have hidx0 : sizesBefore (blk :: rest) 0 + ki = ki := by
        rw [sizesBefore_zero, Nat.zero_add]
      have hnew : (invBlocks st ats y rest
            (cart ++ (placeBlock st ats y cart blk).1)
            (jac + (placeBlock st ats y cart blk).2.1)
            (loss + (placeBlock st ats y cart blk).2.2)).1.getD
          (cart.length + ki) 0
          = (placeBlock st ats y cart blk).1.getD ki 0 := by
        rw [htl,
          List.getD_append _ _ _ _ (by
            rw [List.length_append, hplen]
            omega),
          List.getD_append_right _ _ _ _ (by omega), Nat.add_sub_cancel_left]
      have hentry : (placeBlock st ats y cart blk).1.getD ki 0
          = (reconstruct_cart (cart.getD b.r1 0) (cart.getD b.r2 0)
              (cart.getD b.r3 0) (unnorm_bond st ats y b.atom)
              (unnorm_angle st ats y b.atom)
              (inv_dih_wrap (unnorm_dih st ats y b.atom))).1 := by
        have hkm : ki < (placeBlock st ats y cart blk).1.length := by
          rw [hplen]
          exact hki
        rw [List.getD_eq_getElem _ _ hkm]
        show (blk.map _)[ki] = _
        rw [List.getElem_map, hb, List.getD_eq_getElem _ _ hki]
      have hrefs : ∀ k2 : Nat, k2 < cart.length →
          (invBlocks st ats y rest
            (cart ++ (placeBlock st ats y cart blk).1)
            (jac + (placeBlock st ats y cart blk).2.1)
            (loss + (placeBlock st ats y cart blk).2.2)).1.getD k2 0
          = cart.getD k2 0 := by
        intro k2 hk2
        rw [htl, List.append_assoc, List.getD_append _ _ _ _ hk2]
      rw [hidx0, hnew, hentry, hrefs b.r1 h1, hrefs b.r2 h2, hrefs b.r3 h3]
    | succ bi =>
      have hbi2 : bi < rest.length := by simpa using hbi
      have hget : (blk :: rest).getD (bi + 1) [] = rest.getD bi [] := rfl
      rw [hget] at hki ⊢
      rw [hF]
      have hHb2 : ∀ b2, b2 < rest.length → ∀ b ∈ rest.getD b2 [],
          b.r1 < (cart ++ (placeBlock st ats y cart blk).1).length
            + sizesBefore rest b2 ∧
          b.r2 < (cart ++ (placeBlock st ats y cart blk).1).length
            + sizesBefore rest b2 ∧
          b.r3 < (cart ++ (placeBlock st ats y cart blk).1).length
            + sizesBefore rest b2 := by
        intro b2 hb2 b hbmem
        have hmem2 : b ∈ (blk :: rest).getD (b2 + 1) [] := hbmem
        obtain ⟨h1, h2, h3⟩ := Hb (b2 + 1) (by simpa using hb2) b hmem2
        rw [sizesBefore_succ] at h1 h2 h3
        rw [List.length_append, hplen]
        refine ⟨by omega, by omega, by omega⟩
      have hidx : cart.length + (sizesBefore (blk :: rest) (bi + 1) + ki)
          = (cart ++ (placeBlock st ats y cart blk).1).length
            + (sizesBefore rest bi + ki) := by
        rw [List.length_append, hplen, sizesBefore_succ]
        omega
      rw [hidx]
      exact ih (cart ++ (placeBlock st ats y cart blk).1)
        (jac + (placeBlock st ats y cart blk).2.1)
        (loss + (placeBlock st ats y cart blk).2.2) hHb2 bi ki hbi2 hki

theorem fix_dih_period (t : ℝ) (k : ℤ) :
    fix_dih (t + k * (2 * π)) = fix_dih t := by
  simp only [fix_dih]
  congr 1
  rw [show t + (k : ℝ) * (2 * π) + π = t + π + (k : ℝ) * (2 * π) by ring,
    ← zsmul_eq_mul, toIcoMod_add_zsmul]

theorem fix_dih_eq_self {t : ℝ} (h : t ∈ Set.Ico (-π) π) : fix_dih t = t := by
  rw [fix_dih, (toIcoMod_eq_self _).mpr ⟨by linarith [h.1], by linarith [h.2]⟩]
  ring

theorem meas_dih_sub (φ : ℝ) : ∃ m : ℤ,
    -toIocMod Real.two_pi_pos (-π) (-φ) - φ = m * (2 * π) := by
  refine ⟨toIocDiv Real.two_pi_pos (-π) (-φ), ?_⟩
  have h := toIocMod_sub_self Real.two_pi_pos (-π) (-φ)
  rw [neg_zsmul, zsmul_eq_mul] at h
  push_cast at h ⊢
  linarith

/-- Every built-order position of the final Cartesian buffer is what the
output row reports for that atom. -/
theorem inverse_buffer_pos (Z : List ZEntry) (cartInds : List Nat)
    (st : Stats) (p : ℝ) (z : Nat → ℝ)
    (hnd : cartInds.Nodup) (hznd : (Z.map ZEntry.atom).Nodup)
    (hdisj : ∀ e ∈ Z, e.atom ∉ cartInds) (hord : OrderOk cartInds Z) :
    ∀ jp (hjp : jp <
        (cartInds ++ blocksAtoms (icSetup Z cartInds).1).length),
      atomPos (ict_inverse Z cartInds st p z).1
          ((cartInds ++ blocksAtoms (icSetup Z cartInds).1).get ⟨jp, hjp⟩)
        = (invBlocks st (atomToStats Z) z (icSetup Z cartInds).1
            (cartInds.map fun a => atomPos z a) 0 0).1.getD jp 0 := by
  have hspec := icSetup_spec Z cartInds hnd hznd hdisj hord
  have hx' : ∀ i, (ict_inverse Z cartInds st p z).1 i
      = vcomp ((invBlocks st (atomToStats Z) z (icSetup Z cartInds).1
          (cartInds.map fun a => atomPos z a) 0 0).1.getD
          ((icSetup Z cartInds).2 (i / 3)) 0) (i % 3) := fun i => rfl
  -- position of any atom of the built order in the final buffer
  have hpos : ∀ jp (hjp : jp <
        (cartInds ++ blocksAtoms (icSetup Z cartInds).1).length),
      atomPos (ict_inverse Z cartInds st p z).1
          ((cartInds ++ blocksAtoms (icSetup Z cartInds).1).get ⟨jp, hjp⟩)
        = (invBlocks st (atomToStats Z) z (icSetup Z cartInds).1
            (cartInds.map fun a => atomPos z a) 0 0).1.getD jp 0 := by
    intro jp hjp
    have hr := hspec.2.2.1 jp hjp
    set a := (cartInds ++ blocksAtoms (icSetup Z cartInds).1).get ⟨jp, hjp⟩
      with ha
    have h0 : (ict_inverse Z cartInds st p z).1 (3 * a)
        = vcomp ((invBlocks st (atomToStats Z) z (icSetup Z cartInds).1
            (cartInds.map fun a => atomPos z a) 0 0).1.getD jp 0) 0 := by
      rw [hx' (3 * a), show 3 * a / 3 = a by omega, show 3 * a % 3 = 0 by omega,
        hr]
    have h1 : (ict_inverse Z cartInds st p z).1 (3 * a + 1)
        = vcomp ((invBlocks st (atomToStats Z) z (icSetup Z cartInds).1
            (cartInds.map fun a => atomPos z a) 0 0).1.getD jp 0) 1 := by
      rw [hx' (3 * a + 1), show (3 * a + 1) / 3 = a by omega,
        show (3 * a + 1) % 3 = 1 by omega, hr]
    have h2 : (ict_inverse Z cartInds st p z).1 (3 * a + 2)
        = vcomp ((invBlocks st (atomToStats Z) z (icSetup Z cartInds).1
            (cartInds.map fun a => atomPos z a) 0 0).1.getD jp 0) 2 := by
      rw [hx' (3 * a + 2), show (3 * a + 2) / 3 = a by omega,
        show (3 * a + 2) % 3 = 2 by omega, hr]
    show ((ict_inverse Z cartInds st p z).1 (3 * a),
        (ict_inverse Z cartInds st p z).1 (3 * a + 1),
        (ict_inverse Z cartInds st p z).1 (3 * a + 2)) = _
    rw [h0, h1, h2, vcomp_triple]
  exact hpos

/-- The inverse places every anchor at the position read from the input
row. -/
theorem inverse_anchor_pos (Z : List ZEntry) (cartInds : List Nat)
    (st : Stats) (p : ℝ) (z : Nat → ℝ)
    (hnd : cartInds.Nodup) (hznd : (Z.map ZEntry.atom).Nodup)
    (hdisj : ∀ e ∈ Z, e.atom ∉ cartInds) (hord : OrderOk cartInds Z) :
    ∀ a ∈ cartInds,
      atomPos (ict_inverse Z cartInds st p z).1 a = atomPos z a := by
  have hspec := icSetup_spec Z cartInds hnd hznd hdisj hord
  have hpos := inverse_buffer_pos Z cartInds st p z hnd hznd hdisj hord
  have hc0len : (cartInds.map fun a => atomPos z a).length
      = cartInds.length := List.length_map _ _
  -- anchors keep the input coordinates
  have hanch : ∀ a ∈ cartInds,
      atomPos (ict_inverse Z cartInds st p z).1 a = atomPos z a := by
    intro a ha
    obtain ⟨⟨ia, hia⟩, hgeta⟩ := List.mem_iff_get.mp ha
    have hiaF : ia < (cartInds ++ blocksAtoms (icSetup Z cartInds).1).length := by
      rw [List.length_append]
      omega
    have hgetF : (cartInds ++ blocksAtoms (icSetup Z cartInds).1).get
        ⟨ia, hiaF⟩ = a := by
      rw [← getD_get_eq _ ia hiaF, List.getD_append _ _ _ _ hia,
        getD_get_eq _ ia hia, hgeta]
    have hp1 := hpos ia hiaF
    rw [hgetF] at hp1
    obtain ⟨tl, htl⟩ := invBlocks_prefix st (atomToStats Z) z
      (icSetup Z cartInds).1 (cartInds.map fun a => atomPos z a) 0 0
    rw [hp1, htl, List.getD_append _ _ _ _ (by omega),
      getD_map_pos z cartInds ia hia, List.getD_eq_getElem _ _ hia]
    have : cartInds[ia] = a := hgeta
    rw [this]
  exact hanch

/-- The inverse places every z-matrix atom exactly where `reconstruct_cart`
puts it, relative to the final positions of its three reference atoms. -/
theorem inverse_zatom_pos (Z : List ZEntry) (cartInds : List Nat)
    (st : Stats) (p : ℝ) (z : Nat → ℝ)
    (hnd : cartInds.Nodup) (hznd : (Z.map ZEntry.atom).Nodup)
    (hdisj : ∀ e ∈ Z, e.atom ∉ cartInds) (hord : OrderOk cartInds Z) :
    ∀ e ∈ Z,
      atomPos (ict_inverse Z cartInds st p z).1 e.atom
        = (reconstruct_cart
            (atomPos (ict_inverse Z cartInds st p z).1 e.ref1)
            (atomPos (ict_inverse Z cartInds st p z).1 e.ref2)
            (atomPos (ict_inverse Z cartInds st p z).1 e.ref3)
            (unnorm_bond st (atomToStats Z) z e.atom)
            (unnorm_angle st (atomToStats Z) z e.atom)
            (inv_dih_wrap (unnorm_dih st (atomToStats Z) z e.atom))).1 := by
  have hspec := icSetup_spec Z cartInds hnd hznd hdisj hord
  have hc0len : (cartInds.map fun a => atomPos z a).length
      = cartInds.length := List.length_map _ _
  have hpos := inverse_buffer_pos Z cartInds st p z hnd hznd hdisj hord
  -- the bound hypothesis for the buffer-entry lemma
  have Hb : ∀ bi, bi < (icSetup Z cartInds).1.length →
      ∀ b ∈ (icSetup Z cartInds).1.getD bi [],
      b.r1 < (cartInds.map fun a => atomPos z a).length
        + sizesBefore (icSetup Z cartInds).1 bi ∧
      b.r2 < (cartInds.map fun a => atomPos z a).length
        + sizesBefore (icSetup Z cartInds).1 bi ∧
      b.r3 < (cartInds.map fun a => atomPos z a).length
        + sizesBefore (icSetup Z cartInds).1 bi := by
    intro bi hbi b hbmem
    have hbmem2 : b ∈ (icSetup Z cartInds).1.get ⟨bi, hbi⟩ := by
      rw [show (icSetup Z cartInds).1.get ⟨bi, hbi⟩
        = (icSetup Z cartInds).1.getD bi [] from
        (List.getD_eq_getElem _ _ hbi).symm]
      exact hbmem
    obtain ⟨e2, _, _, h1, h2, h3, _, _, _⟩ := hspec.2.2.2 bi hbi b hbmem2
    rw [hc0len]
    exact ⟨h1, h2, h3⟩
  -- every z-matrix atom sits at its reconstructed position
  have hatom : ∀ e ∈ Z,
      atomPos (ict_inverse Z cartInds st p z).1 e.atom
        = (reconstruct_cart
            (atomPos (ict_inverse Z cartInds st p z).1 e.ref1)
            (atomPos (ict_inverse Z cartInds st p z).1 e.ref2)
            (atomPos (ict_inverse Z cartInds st p z).1 e.ref3)
            (unnorm_bond st (atomToStats Z) z e.atom)
            (unnorm_angle st (atomToStats Z) z e.atom)
            (inv_dih_wrap (unnorm_dih st (atomToStats Z) z e.atom))).1 := by
    intro e he
    have hmemB : e.atom ∈ blocksAtoms (icSetup Z cartInds).1 :=
      hspec.1.mem_iff.mpr (List.mem_map_of_mem ZEntry.atom he)
    obtain ⟨⟨jb, hjb⟩, hgetb⟩ := List.mem_iff_get.mp hmemB
    obtain ⟨bi, ki, hbi, hki, hdec⟩ := blocksAtoms_index
      (icSetup Z cartInds).1 jb hjb
    have hgdb := blocksAtoms_getD (icSetup Z cartInds).1 bi ki hbi hki
    set b := ((icSetup Z cartInds).1.getD bi []).getD ki ⟨0, 0, 0, 0⟩ with hbdef
    have hbatom : b.atom = e.atom := by
      have hgd2 : (blocksAtoms (icSetup Z cartInds).1).getD jb 0 = e.atom := by
        rw [List.getD_eq_getElem _ _ hjb]
        exact hgetb
      rw [← hgdb.2, ← hdec, hgd2]
    have hbmem2 : b ∈ (icSetup Z cartInds).1.get ⟨bi, hbi⟩ := by
      rw [show (icSetup Z cartInds).1.get ⟨bi, hbi⟩
        = (icSetup Z cartInds).1.getD bi [] from
        (List.getD_eq_getElem _ _ hbi).symm]
      rw [hbdef, List.getD_eq_getElem _ _ hki]
      exact List.getElem_mem hki
    obtain ⟨e2, he2, hba2, h1, h2, h3, hg1, hg2, hg3⟩ :=
      hspec.2.2.2 bi hbi b hbmem2
    have he2e : e2 = e := by
      refine List.inj_on_of_nodup_map hznd he2 he ?_
      rw [← hba2, hbatom]
    rw [he2e] at hg1 hg2 hg3
    -- the buffer entry of this atom
    have hGD := invBlocks_getD st (atomToStats Z) z (icSetup Z cartInds).1
      (cartInds.map fun a => atomPos z a) 0 0 Hb bi ki hbi hki
    rw [hc0len, ← hdec] at hGD
    -- identify the buffer entry with the atom position
    have hjpF : cartInds.length + jb
        < (cartInds ++ blocksAtoms (icSetup Z cartInds).1).length := by
      rw [List.length_append]
      omega
    have hgetp : (cartInds ++ blocksAtoms (icSetup Z cartInds).1).get
        ⟨cartInds.length + jb, hjpF⟩ = e.atom := by
      rw [← getD_get_eq _ _ hjpF,
        List.getD_append_right _ _ _ _ (by omega), Nat.add_sub_cancel_left,
        List.getD_eq_getElem _ _ hjb]
      exact hgetb
    have hposA := hpos (cartInds.length + jb) hjpF
    rw [hgetp] at hposA
    -- identify each reference with the position of the referenced atom
    have hlenF : (cartInds ++ blocksAtoms (icSetup Z cartInds).1).length
        = cartInds.length + (blocksAtoms (icSetup Z cartInds).1).length := by
      rw [List.length_append]
    have href : ∀ k2 : Nat, k2 < cartInds.length
          + sizesBefore (icSetup Z cartInds).1 bi →
        ∀ q : Nat, (cartInds ++ blocksAtoms (icSetup Z cartInds).1).getD k2 0 = q →
        (invBlocks st (atomToStats Z) z (icSetup Z cartInds).1
          (cartInds.map fun a => atomPos z a) 0 0).1.getD k2 0
          = atomPos (ict_inverse Z cartInds st p z).1 q := by
      intro k2 hk2 q hq
      have hk2F : k2 < (cartInds ++ blocksAtoms (icSetup Z cartInds).1).length := by
        rw [hlenF]
        have := hgdb.1
        omega
      have hgq : (cartInds ++ blocksAtoms (icSetup Z cartInds).1).get
          ⟨k2, hk2F⟩ = q := by
        rw [← getD_get_eq _ _ hk2F]
        exact hq
      have := hpos k2 hk2F
      rw [hgq] at this
      rw [← this]
    rw [hposA, hGD, hbatom,
      href b.r1 h1 e.ref1 hg1, href b.r2 h2 e.ref2 hg2, href b.r3 h3 e.ref3 hg3]
  exact hatom

/-- Direction (b) of the round trip: `forward` applied to the output of
`inverse` restores every internal-coordinate channel and every anchor
channel, provided every un-normalised dihedral is within half a period of
its mean. -/
theorem forward_of_inverse_channels (Z : List ZEntry) (cartInds : List Nat)
    (st : Stats) (p : ℝ) (z : Nat → ℝ)
    (hnd : cartInds.Nodup) (hznd : (Z.map ZEntry.atom).Nodup)
    (hdisj : ∀ e ∈ Z, e.atom ∉ cartInds) (hord : OrderOk cartInds Z)
    (hsb : ∀ k, k < Z.length → st.sb k ≠ 0)
    (hsa : ∀ k, k < Z.length → st.sa k ≠ 0)
    (hsd : ∀ k, k < Z.length → st.sd k ≠ 0)
    (hzb : ∀ j (hj : j < Z.length),
      0 < unnorm_bond st (atomToStats Z) z (Z.get ⟨j, hj⟩).atom)
    (hza : ∀ j (hj : j < Z.length),
      unnorm_angle st (atomToStats Z) z (Z.get ⟨j, hj⟩).atom ∈ Set.Ioo 0 π)
    (hzd : ∀ j (hj : j < Z.length),
      unnorm_dih st (atomToStats Z) z (Z.get ⟨j, hj⟩).atom - st.md j
        ∈ Set.Ico (-π) π)
    (hgeo : ∀ e ∈ Z,
      atomPos (ict_inverse Z cartInds st p z).1 e.ref1
        - atomPos (ict_inverse Z cartInds st p z).1 e.ref2 ≠ 0 ∧
      cross (atomPos (ict_inverse Z cartInds st p z).1 e.ref1
          - atomPos (ict_inverse Z cartInds st p z).1 e.ref2)
        (atomPos (ict_inverse Z cartInds st p z).1 e.ref1
          - atomPos (ict_inverse Z cartInds st p z).1 e.ref3) ≠ 0) :
    ∀ a, (a ∈ cartInds ∨ a ∈ Z.map ZEntry.atom) → ∀ r, r < 3 →
      (ict_forward Z st (ict_inverse Z cartInds st p z).1).1 (3 * a + r)
        = z (3 * a + r) := by
  have hspec := icSetup_spec Z cartInds hnd hznd hdisj hord
  have hanch := inverse_anchor_pos Z cartInds st p z hnd hznd hdisj hord
  have hatom := inverse_zatom_pos Z cartInds st p z hnd hznd hdisj hord
  -- now compare the forward output with the input channel by channel
  intro a hmem r hr
  rcases hmem with hmem | hmem
  · -- anchor atom: forward passes its channels through
    have hnotz : a ∉ Z.map ZEntry.atom := by
      intro hmem2
      obtain ⟨e, he, heq⟩ := List.mem_map.mp hmem2
      exact hdisj e he (heq ▸ hmem)
    have hf := forward_atom_unchanged Z st (ict_inverse Z cartInds st p z).1
      a hnotz
    have ha := hanch a hmem
    interval_cases r
    · have := congrArg Prod.fst (hf.trans ha)
      simpa [atomPos] using this
    · have := congrArg (fun v => v.2.1) (hf.trans ha)
      simpa [atomPos] using this
    · have := congrArg (fun v => v.2.2) (hf.trans ha)
      simpa [atomPos] using this
  · -- z-matrix atom
    obtain ⟨e, he, heq⟩ := List.mem_map.mp hmem
    subst heq
    obtain ⟨⟨j, hj⟩, hget⟩ := List.mem_iff_get.mp he
    have hch := forward_channels Z st (ict_inverse Z cartInds st p z).1 hznd j hj
    rw [hget] at hch
    have hats := atomToStats_get Z hznd j hj
    rw [hget] at hats
    have hrec := hatom e he
    obtain ⟨hu, hn⟩ := hgeo e he
    have hbU := hzb j hj
    have haU := hza j hj
    have hdU := hzd j hj
    rw [hget] at hbU haU hdU
    -- the measured internals of the rebuilt row
    have hbond : zbond (ict_inverse Z cartInds st p z).1 e
        = unnorm_bond st (atomToStats Z) z e.atom := by
      rw [zbond, hrec]
      exact bond_of_reconstruct hu hn _ hbU
    have hangle : zangle (ict_inverse Z cartInds st p z).1 e
        = unnorm_angle st (atomToStats Z) z e.atom := by
      rw [zangle, hrec]
      exact angle_of_reconstruct hu hn _ hbU haU.1.le haU.2.le
    have hdih : zdih (ict_inverse Z cartInds st p z).1 e
        = -toIocMod Real.two_pi_pos (-π)
          (-(inv_dih_wrap (unnorm_dih st (atomToStats Z) z e.atom))) := by
      rw [zdih, hrec]
      exact dihedral_of_reconstruct hu hn _ hbU haU.1 haU.2
    interval_cases r
    · rw [Nat.add_zero, hch.1, hbond, unnorm_bond, hats, add_sub_cancel_right,
        mul_div_cancel_right₀ _ (hsb j hj)]
    · rw [hch.2.1, hangle, unnorm_angle, hats, add_sub_cancel_right,
        mul_div_cancel_right₀ _ (hsa j hj)]
    · rw [hch.2.2, hdih]
      obtain ⟨m1, hm1⟩ := meas_dih_sub
        (inv_dih_wrap (unnorm_dih st (atomToStats Z) z e.atom))
      obtain ⟨m2, hm2⟩ := inv_dih_wrap_sub_self
        (unnorm_dih st (atomToStats Z) z e.atom)
      have heq2 : -toIocMod Real.two_pi_pos (-π)
          (-(inv_dih_wrap (unnorm_dih st (atomToStats Z) z e.atom))) - st.md j
          = (unnorm_dih st (atomToStats Z) z e.atom - st.md j)
            + (m1 + m2 : ℤ) * (2 * π) := by
        push_cast
        linarith
      rw [heq2, fix_dih_period, fix_dih_eq_self hdU, unnorm_dih, hats,
        add_sub_cancel_right, mul_div_cancel_right₀ _ (hsd j hj)]

/-- C1 (amended): with a well-formed topology, nonzero stds, a
geometrically non-degenerate Cartesian row `x`, and an internal row `z`
whose un-normalised bonds are positive, angles lie strictly inside
`(0, π)`, un-normalised dihedrals lie within half a period of their
means, and whose rebuilt reference frames are non-degenerate, the two
compositions restore every channel of every anchor and z-matrix atom:
`inverse (forward x) = x` and `forward (inverse z) = z`.  (Without the
half-period dihedral condition the second identity fails — see the
counterexample.) -/
theorem round_trip_spec (Z : List ZEntry) (cartInds : List Nat)
    (st : Stats) (p : ℝ) (x z : Nat → ℝ)
    (hnd : cartInds.Nodup) (hznd : (Z.map ZEntry.atom).Nodup)
    (hdisj : ∀ e ∈ Z, e.atom ∉ cartInds) (hord : OrderOk cartInds Z)
    (hsb : ∀ k, k < Z.length → st.sb k ≠ 0)
    (hsa : ∀ k, k < Z.length → st.sa k ≠ 0)
    (hsd : ∀ k, k < Z.length → st.sd k ≠ 0)
    (hgeo : ∀ e ∈ Z,
      atomPos x e.ref1 - atomPos x e.ref2 ≠ 0 ∧
      cross (atomPos x e.ref1 - atomPos x e.ref2)
        (atomPos x e.ref1 - atomPos x e.ref3) ≠ 0 ∧
      (atomPos x e.atom - atomPos x e.ref1)
        - dot (atomPos x e.atom - atomPos x e.ref1)
            (uhat (atomPos x e.ref1) (atomPos x e.ref2))
          • uhat (atomPos x e.ref1) (atomPos x e.ref2) ≠ 0)
    (hzb : ∀ j (hj : j < Z.length),
      0 < unnorm_bond st (atomToStats Z) z (Z.get ⟨j, hj⟩).atom)
    (hza : ∀ j (hj : j < Z.length),
      unnorm_angle st (atomToStats Z) z (Z.get ⟨j, hj⟩).atom ∈ Set.Ioo 0 π)
    (hzd : ∀ j (hj : j < Z.length),
      unnorm_dih st (atomToStats Z) z (Z.get ⟨j, hj⟩).atom - st.md j
        ∈ Set.Ico (-π) π)
    (hzgeo : ∀ e ∈ Z,
      atomPos (ict_inverse Z cartInds st p z).1 e.ref1
        - atomPos (ict_inverse Z cartInds st p z).1 e.ref2 ≠ 0 ∧
      cross (atomPos (ict_inverse Z cartInds st p z).1 e.ref1
          - atomPos (ict_inverse Z cartInds st p z).1 e.ref2)
        (atomPos (ict_inverse Z cartInds st p z).1 e.ref1
          - atomPos (ict_inverse Z cartInds st p z).1 e.ref3) ≠ 0) :
    (∀ a, (a ∈ cartInds ∨ a ∈ Z.map ZEntry.atom) → ∀ r, r < 3 →
      (ict_inverse Z cartInds st p (ict_forward Z st x).1).1 (3 * a + r)
        = x (3 * a + r)) ∧
    (∀ a, (a ∈ cartInds ∨ a ∈ Z.map ZEntry.atom) → ∀ r, r < 3 →
      (ict_forward Z st (ict_inverse Z cartInds st p z).1).1 (3 * a + r)
        = z (3 * a + r)) :=
  ⟨inverse_of_forward_channels Z cartInds st p x hnd hznd hdisj hord
      hsb hsa hsd hgeo,
    forward_of_inverse_channels Z cartInds st p z hnd hznd hdisj hord
      hsb hsa hsd hzb hza hzd hzgeo⟩

/-! ### The concrete instantiation of the round trip -/

def Zx : List ZEntry := [⟨3, 2, 1, 0⟩]

def cartx : List Nat := [0, 1, 2]

/-- A round-tripping internal row: normalised channels of atom 3 all
zero, so bond 1, angle π/2 and dihedral at its circular mean π. -/
def zWit : Nat → ℝ :=
  fun i => [(-1 : ℝ), -1, 0, -1, 0, 0, 0, 0, 0, 0, 0, 0].getD i 0

/-- The broken internal row: dihedral channel 5π, i.e. an un-normalised
dihedral 2π, one full period above the mean π. -/
def zCex : Nat → ℝ :=
  fun i => [(-1 : ℝ), -1, 0, -1, 0, 0, 0, 0, 0, 0, 0, 5 * π].getD i 0

theorem Zx_topology : cartx.Nodup ∧ (Zx.map ZEntry.atom).Nodup ∧
    (∀ e ∈ Zx, e.atom ∉ cartx) ∧ OrderOk cartx Zx := by
  refine ⟨by decide, by decide, by decide, ?_⟩
  simp [Zx, cartx, OrderOk, refsIn]

theorem stEx_sb_ne : ∀ k, k < Zx.length → stEx.sb k ≠ 0 := by
  intro k _
  show (1 : ℝ) / 200 ≠ 0
  norm_num

theorem stEx_sa_ne : ∀ k, k < Zx.length → stEx.sa k ≠ 0 := by
  intro k _
  show (3 : ℝ) / 20 ≠ 0
  norm_num

theorem stEx_sd_ne : ∀ k, k < Zx.length → stEx.sd k ≠ 0 := by
  intro k _
  show (1 : ℝ) / 5 ≠ 0
  norm_num

theorem xEx_geo : ∀ e ∈ Zx,
    atomPos xEx e.ref1 - atomPos xEx e.ref2 ≠ 0 ∧
    cross (atomPos xEx e.ref1 - atomPos xEx e.ref2)
      (atomPos xEx e.ref1 - atomPos xEx e.ref3) ≠ 0 ∧
    (atomPos xEx e.atom - atomPos xEx e.ref1)
      - dot (atomPos xEx e.atom - atomPos xEx e.ref1)
          (uhat (atomPos xEx e.ref1) (atomPos xEx e.ref2))
        • uhat (atomPos xEx e.ref1) (atomPos xEx e.ref2) ≠ 0 := by
  intro e he
  have hee : e = (⟨3, 2, 1, 0⟩ : ZEntry) := by simpa [Zx] using he
  subst hee
  have h0 : atomPos xEx 0 = ((-1 : ℝ), (-1 : ℝ), (0 : ℝ)) := rfl
  have h1 : atomPos xEx 1 = ((-1 : ℝ), (0 : ℝ), (0 : ℝ)) := rfl
  have h2 : atomPos xEx 2 = ((0 : ℝ), (0 : ℝ), (0 : ℝ)) := rfl
  have h3 : atomPos xEx 3 = ((0 : ℝ), (1 : ℝ), (0 : ℝ)) := rfl
  show atomPos xEx 2 - atomPos xEx 1 ≠ 0 ∧ _ ∧ _
  rw [h0, h1, h2, h3]
  refine ⟨?_, ?_, ?_⟩
  · norm_num [Prod.mk_sub_mk, Prod.mk_eq_zero]
  · norm_num [cross, Prod.mk_sub_mk, Prod.mk_eq_zero]
  · have hsub : ((0 : ℝ), (0 : ℝ), (0 : ℝ)) - ((-1 : ℝ), (0 : ℝ), (0 : ℝ))
        = ((1 : ℝ), (0 : ℝ), (0 : ℝ)) := by
      norm_num [Prod.mk_sub_mk]
    have hq : ((0 : ℝ), (1 : ℝ), (0 : ℝ)) - ((0 : ℝ), (0 : ℝ), (0 : ℝ))
        = ((0 : ℝ), (1 : ℝ), (0 : ℝ)) := by
      norm_num [Prod.mk_sub_mk]
    rw [hq, uhat, hsub]
    have hdot : dot (((0 : ℝ), (1 : ℝ), (0 : ℝ)))
        (unitv (((1 : ℝ), (0 : ℝ), (0 : ℝ)))) = 0 := by
      norm_num [unitv, dot, Prod.smul_mk, smul_eq_mul]
    rw [hdot, zero_smul, sub_zero]
    norm_num [Prod.mk_eq_zero]

theorem Zx_inv_anchor (z : Nat → ℝ) : ∀ a ∈ cartx,
    atomPos (ict_inverse Zx cartx stEx 0 z).1 a = atomPos z a :=
  inverse_anchor_pos Zx cartx stEx 0 z Zx_topology.1 Zx_topology.2.1
    Zx_topology.2.2.1 Zx_topology.2.2.2

theorem Zx_zgeo (z : Nat → ℝ)
    (h1 : atomPos z 1 = ((-1 : ℝ), (0 : ℝ), (0 : ℝ)))
    (h2 : atomPos z 2 = ((0 : ℝ), (0 : ℝ), (0 : ℝ)))
    (h0 : atomPos z 0 = ((-1 : ℝ), (-1 : ℝ), (0 : ℝ))) : ∀ e ∈ Zx,
    atomPos (ict_inverse Zx cartx stEx 0 z).1 e.ref1
      - atomPos (ict_inverse Zx cartx stEx 0 z).1 e.ref2 ≠ 0 ∧
    cross (atomPos (ict_inverse Zx cartx stEx 0 z).1 e.ref1
        - atomPos (ict_inverse Zx cartx stEx 0 z).1 e.ref2)
      (atomPos (ict_inverse Zx cartx stEx 0 z).1 e.ref1
        - atomPos (ict_inverse Zx cartx stEx 0 z).1 e.ref3) ≠ 0 := by
  intro e he
  have hee : e = (⟨3, 2, 1, 0⟩ : ZEntry) := by simpa [Zx] using he
  subst hee
  have ha0 := Zx_inv_anchor z 0 (by simp [cartx])
  have ha1 := Zx_inv_anchor z 1 (by simp [cartx])
  have ha2 := Zx_inv_anchor z 2 (by simp [cartx])
  show atomPos (ict_inverse Zx cartx stEx 0 z).1 2
      - atomPos (ict_inverse Zx cartx stEx 0 z).1 1 ≠ 0 ∧ _
  rw [ha0, ha1, ha2, h0, h1, h2]
  constructor
  · norm_num [Prod.mk_sub_mk, Prod.mk_eq_zero]
  · norm_num [cross, Prod.mk_sub_mk, Prod.mk_eq_zero]

theorem zWit_valid :
    (∀ j (hj : j < Zx.length),
      0 < unnorm_bond stEx (atomToStats Zx) zWit (Zx.get ⟨j, hj⟩).atom) ∧
    (∀ j (hj : j < Zx.length),
      unnorm_angle stEx (atomToStats Zx) zWit (Zx.get ⟨j, hj⟩).atom
        ∈ Set.Ioo 0 π) ∧
    (∀ j (hj : j < Zx.length),
      unnorm_dih stEx (atomToStats Zx) zWit (Zx.get ⟨j, hj⟩).atom - stEx.md j
        ∈ Set.Ico (-π) π) := by
  have hπ := Real.pi_pos
  have hats : atomToStats Zx 3 = 0 := by decide
  have h9 : zWit (3 * 3) = 0 := rfl
  have h10 : zWit (3 * 3 + 1) = 0 := rfl
  have h11 : zWit (3 * 3 + 2) = 0 := rfl
  have hlen : Zx.length = 1 := rfl
  refine ⟨?_, ?_, ?_⟩
  · intro j hj
    have hj0 : j = 0 := by omega
    subst hj0
    simp only [show Zx.get ⟨0, hj⟩ = (⟨3, 2, 1, 0⟩ : ZEntry) from rfl]
    simp only [unnorm_bond, hats, h9, stEx]
    norm_num
  · intro j hj
    have hj0 : j = 0 := by omega
    subst hj0
    simp only [show Zx.get ⟨0, hj⟩ = (⟨3, 2, 1, 0⟩ : ZEntry) from rfl]
    simp only [unnorm_angle, hats, h10, stEx]
    rw [Set.mem_Ioo]
    constructor <;> [linarith; linarith]
  · intro j hj
    have hj0 : j = 0 := by omega
    subst hj0
    simp only [show Zx.get ⟨0, hj⟩ = (⟨3, 2, 1, 0⟩ : ZEntry) from rfl]
    simp only [unnorm_dih, hats, h11, stEx]
    rw [Set.mem_Ico]
    constructor <;> [linarith; linarith]

/-- Witness for C1: on the concrete four-atom system both compositions
restore the dihedral channel of atom 3 (and the theorem covers every
other channel). -/
theorem round_trip_spec_witness :
    (ict_inverse Zx cartx stEx 0 (ict_forward Zx stEx xEx).1).1 11 = xEx 11 ∧
    (ict_forward Zx stEx (ict_inverse Zx cartx stEx 0 zWit).1).1 11
      = zWit 11 := by
  have hT := Zx_topology
  have hz := zWit_valid
  have hRT := round_trip_spec Zx cartx stEx 0 xEx zWit hT.1 hT.2.1 hT.2.2.1
    hT.2.2.2 stEx_sb_ne stEx_sa_ne stEx_sd_ne xEx_geo hz.1 hz.2.1 hz.2.2
    (Zx_zgeo zWit rfl rfl rfl)
  constructor
  · have h := hRT.1 3 (Or.inr (by simp [Zx])) 2 (by omega)
    simpa using h
  · have h := hRT.2 3 (Or.inr (by simp [Zx])) 2 (by omega)
    simpa using h

/-- C1 counterexample: the internal row `zCex` — valid geometry, positive
bond, interior angle, but dihedral channel `5π` (un-normalised dihedral
`2π`, one full period above its mean `π`) — does not round-trip:
`forward (inverse zCex)` returns `-5π` on the dihedral channel, not `5π`.
The dihedral wrap of `inverse` and the branch cut of `atan2` fold the
dihedral back into one period, so `forward ∘ inverse` is not the identity
on internal rows whose dihedral lies outside one period of the mean. -/
theorem round_trip_counterexample :
    (ict_forward Zx stEx (ict_inverse Zx cartx stEx 0 zCex).1).1 11
      ≠ zCex 11 := by
  have hπ := Real.pi_pos
  have hT := Zx_topology
  have hj : (0 : ℕ) < Zx.length := by norm_num [Zx]
  have hch := forward_channels Zx stEx (ict_inverse Zx cartx stEx 0 zCex).1
    hT.2.1 0 hj
  simp only [show Zx.get ⟨0, hj⟩ = (⟨3, 2, 1, 0⟩ : ZEntry) from rfl] at hch
  have hch2 := hch.2.2
  norm_num at hch2
  have hrec := inverse_zatom_pos Zx cartx stEx 0 zCex hT.1 hT.2.1 hT.2.2.1
    hT.2.2.2 ⟨3, 2, 1, 0⟩ (by simp [Zx])
  simp only [show (⟨3, 2, 1, 0⟩ : ZEntry).ref1 = 2 from rfl,
    show (⟨3, 2, 1, 0⟩ : ZEntry).ref2 = 1 from rfl,
    show (⟨3, 2, 1, 0⟩ : ZEntry).ref3 = 0 from rfl,
    show (⟨3, 2, 1, 0⟩ : ZEntry).atom = 3 from rfl] at hrec
  have ha0 := Zx_inv_anchor zCex 0 (by simp [cartx])
  have ha1 := Zx_inv_anchor zCex 1 (by simp [cartx])
  have ha2 := Zx_inv_anchor zCex 2 (by simp [cartx])
  have hz0 : atomPos zCex 0 = ((-1 : ℝ), (-1 : ℝ), (0 : ℝ)) := rfl
  have hz1 : atomPos zCex 1 = ((-1 : ℝ), (0 : ℝ), (0 : ℝ)) := rfl
  have hz2 : atomPos zCex 2 = ((0 : ℝ), (0 : ℝ), (0 : ℝ)) := rfl
  have hats : atomToStats Zx 3 = 0 := by decide
  have hbU : unnorm_bond stEx (atomToStats Zx) zCex 3 = 1 := by
    simp only [unnorm_bond, hats, stEx, show zCex (3 * 3) = 0 from rfl]
    norm_num
  have hθU : unnorm_angle stEx (atomToStats Zx) zCex 3 = π / 2 := by
    simp only [unnorm_angle, hats, stEx, show zCex (3 * 3 + 1) = 0 from rfl]
    norm_num
  have hdU : unnorm_dih stEx (atomToStats Zx) zCex 3 = 2 * π := by
    simp only [unnorm_dih, hats, stEx, show zCex (3 * 3 + 2) = 5 * π from rfl]
    ring
  have hu2 : atomPos (ict_inverse Zx cartx stEx 0 zCex).1 2
      - atomPos (ict_inverse Zx cartx stEx 0 zCex).1 1 ≠ 0 := by
    rw [ha2, ha1, hz2, hz1]
    norm_num [Prod.mk_sub_mk, Prod.mk_eq_zero]
  have hn2 : cross (atomPos (ict_inverse Zx cartx stEx 0 zCex).1 2
        - atomPos (ict_inverse Zx cartx stEx 0 zCex).1 1)
      (atomPos (ict_inverse Zx cartx stEx 0 zCex).1 2
        - atomPos (ict_inverse Zx cartx stEx 0 zCex).1 0) ≠ 0 := by
    rw [ha2, ha1, ha0, hz2, hz1, hz0]
    norm_num [cross, Prod.mk_sub_mk, Prod.mk_eq_zero]
  have hmeas : zdih (ict_inverse Zx cartx stEx 0 zCex).1 ⟨3, 2, 1, 0⟩
      = -toIocMod Real.two_pi_pos (-π)
        (-(inv_dih_wrap (unnorm_dih stEx (atomToStats Zx) zCex 3))) := by
    have hzd_def : zdih (ict_inverse Zx cartx stEx 0 zCex).1 ⟨3, 2, 1, 0⟩
        = calc_dihedral (atomPos (ict_inverse Zx cartx stEx 0 zCex).1 0)
          (atomPos (ict_inverse Zx cartx stEx 0 zCex).1 1)
          (atomPos (ict_inverse Zx cartx stEx 0 zCex).1 2)
          (atomPos (ict_inverse Zx cartx stEx 0 zCex).1 3) := rfl
    rw [hzd_def, hrec]
    refine dihedral_of_reconstruct hu2 hn2 _ ?_ ?_ ?_
    · rw [hbU]
      norm_num
    · rw [hθU]
      linarith
    · rw [hθU]
      linarith
  obtain ⟨m1, hm1⟩ := meas_dih_sub
    (inv_dih_wrap (unnorm_dih stEx (atomToStats Zx) zCex 3))
  obtain ⟨m2, hm2⟩ := inv_dih_wrap_sub_self
    (unnorm_dih stEx (atomToStats Zx) zCex 3)
  have hmd : stEx.md 0 = π := rfl
  have heq : -toIocMod Real.two_pi_pos (-π)
      (-(inv_dih_wrap (unnorm_dih stEx (atomToStats Zx) zCex 3))) - stEx.md 0
      = -π + ((m1 + m2 + 1 : ℤ) : ℝ) * (2 * π) := by
    rw [hmd]
    push_cast at hm1 hm2 ⊢
    linarith [hdU]
  rw [hch2, hmeas, heq, fix_dih_period, fix_dih_eq_self ⟨le_refl _, by linarith⟩]
  have hsd : stEx.sd 0 = 1 / 5 := rfl
  have hz11 : zCex 11 = 5 * π := rfl
  rw [hsd, hz11]
  intro h
  rw [div_eq_iff (by norm_num : (1 : ℝ) / 5 ≠ 0)] at h
  nlinarith [hπ]

end BG
